import Mathlib

/-!
# Generic hash table with binary-search-tree buckets (`hashtable.c`)

Shallow embedding of `hashtable.c` and a verification development over it.

Modelling conventions.

* Keys are values of an arbitrary type `K` (the pointee of the C `void *`); the
  five caller-supplied operations are ordinary functions.  `key_clone` and
  `key_destroy` additionally have an effect on the heap, which is recorded as a
  trace of `Call`s; `key_print` is modelled by the text it emits.
* A tree is exclusively owned, so the pointer structure `struct bstnode` is an
  inductive tree; `NULL` is a constructor.  The `level` field is
  `Option Int`, `none` standing for the indeterminate contents left by `malloc`.
* A pointer into a tree that the code later writes through (`parent`,
  `target_parent`, `replacement_parent`) is the list of ancestors of the pointed
  node, nearest first, each remembering through which child link the walk left
  it.  The pointer is `NULL` exactly when that list is empty.
* C `int` arithmetic that can overflow is wrapped to 32 bits (`int32`).
* An access `table[i]` outside the allocated array has no defined behaviour; the
  operations return `none` there.  A failed `assert` is `none` as well.
-/

namespace HT

/-! ## Data model (lines 14-43) -/

/-- Result code `HT_SUCCESS` (line 14). -/
def HT_SUCCESS : Int := 0
/-- Result code `HT_ALREADY_STORED` (line 15). -/
def HT_ALREADY_STORED : Int := 1
/-- Result code `HT_NOT_STORED` (line 16). -/
def HT_NOT_STORED : Int := 2

/-- The `struct bstnode` of lines 20-25; `NULL` is the null pointer. -/
inductive bstnode (K : Type) where
  | NULL : bstnode K
  | mk (key : K) (level : Option Int) (left right : bstnode K) : bstnode K
  deriving DecidableEq, Repr

/-- The `struct bst` of lines 28-30. -/
structure bst (K : Type) where
  root : bstnode K
  deriving DecidableEq, Repr

/-- The `struct hashtable` of lines 34-43.  A `NULL` slot of `table` is `none`. -/
structure hashtable (K : Type) where
  hash_length : Int
  ht_length : Int
  hash_func : K → Int → Int
  key_clone : K → K
  key_compare : K → K → Int
  key_destroy : K → Unit
  key_print : K → String
  table : List (Option (bst K))

/-- One call of a caller-supplied operation that allocates or releases a key. -/
inductive Call (K : Type) where
  | key_clone (arg ret : K) : Call K
  | key_destroy (arg : K) : Call K
  deriving DecidableEq, Repr

/-- Child link of a node. -/
inductive Link where
  | left : Link
  | right : Link
  deriving DecidableEq, Repr

/-- An ancestor met by a walk: the node's fields, and the link the walk followed. -/
structure Frame (K : Type) where
  link : Link
  key : K
  level : Option Int
  left : bstnode K
  right : bstnode K
  deriving DecidableEq, Repr

/-- Wrap an integer to the range of a 32-bit C `int`. -/
def int32 (x : Int) : Int := (x + 2147483648) % 4294967296 - 2147483648

/-- Text of `printf("%d", i)`. -/
def printf_d (i : Int) : String := toString i

/-! ## Bucket tree (lines 45-280) -/

/-- Function `bst_create` (lines 48-52). -/
def bst_create {K : Type} : bst K := { root := bstnode.NULL }

/-- Function `free_bstnode` (lines 58-67): post-order release; returns the calls made. -/
def free_bstnode {K : Type} : bstnode K → List (Call K)
  | bstnode.NULL => []
  | bstnode.mk key _ left right =>
      free_bstnode left ++ free_bstnode right ++ [Call.key_destroy key]

/-- Function `bst_destroy` (lines 74-80). -/
def bst_destroy {K : Type} (d : bst K) : List (Call K) := free_bstnode d.root

/-- The `while` loop of `bst_lookup` (lines 94-105). -/
def bst_lookup.loop {K : Type} (key : K) (key_compare : K → K → Int) :
    bstnode K → Option K
  | bstnode.NULL => none
  | bstnode.mk k _ left right =>
      if key_compare k key = 0 then some k
      else if key_compare key k < 0 then bst_lookup.loop key key_compare left
      else bst_lookup.loop key key_compare right

/-- Function `bst_lookup` (lines 87-107); `NULL` is `none`. -/
def bst_lookup {K : Type} (key : K) (key_compare : K → K → Int) (d : bst K) : Option K :=
  bst_lookup.loop key key_compare d.root

/-- Function `new_leaf` (lines 113-123); `level` is not initialised. -/
def new_leaf {K : Type} (val : K) (key_clone : K → K) : bstnode K × List (Call K) :=
  (bstnode.mk (key_clone val) none bstnode.NULL bstnode.NULL,
   [Call.key_clone val (key_clone val)])

/-- The walk shared by `bst_insert` (lines 142-149) and `bst_remove`
(lines 180-187): descends while the node is not `NULL` and its key does not
compare equal, pushing each node left behind.  Returns the node where the walk
stopped and its ancestors (head = `parent`). -/
def walk {K : Type} (key : K) (key_compare : K → K → Int) :
    bstnode K → List (Frame K) → bstnode K × List (Frame K)
  | bstnode.NULL, path => (bstnode.NULL, path)
  | bstnode.mk k lv left right, path =>
      if key_compare k key ≠ 0 then
        if key_compare key k < 0 then
          walk key key_compare left (⟨Link.left, k, lv, left, right⟩ :: path)
        else
          walk key key_compare right (⟨Link.right, k, lv, left, right⟩ :: path)
      else (bstnode.mk k lv left right, path)

/-- The tree seen from the root once the node below the ancestors `path` is `t`:
every ancestor still points, through the link the walk followed, to the next one. -/
def rebuild {K : Type} : List (Frame K) → bstnode K → bstnode K
  | [], t => t
  | f :: up, t =>
      match f.link with
      | Link.left => rebuild up (bstnode.mk f.key f.level t f.right)
      | Link.right => rebuild up (bstnode.mk f.key f.level f.left t)

/-- Function `bst_insert` (lines 131-158). -/
def bst_insert {K : Type} (val : K) (key_compare : K → K → Int) (key_clone : K → K)
    (d : bst K) : bst K × List (Call K) :=
  match walk val key_compare d.root [] with
  | (_, []) =>
      -- parent == NULL
      ({ root := (new_leaf val key_clone).1 }, (new_leaf val key_clone).2)
  | (_, parent :: up) =>
      if key_compare val parent.key < 0 then
        ({ root := rebuild up
            (bstnode.mk parent.key parent.level (new_leaf val key_clone).1 parent.right) },
         (new_leaf val key_clone).2)
      else
        ({ root := rebuild up
            (bstnode.mk parent.key parent.level parent.left (new_leaf val key_clone).1) },
         (new_leaf val key_clone).2)

/-- The loop `while (replacement->left)` of `bst_remove` (lines 202-205), started
at a non-`NULL` node given by its fields.  Returns key, level and right child of
the node where it stops, and its ancestors below the target
(head = `replacement_parent`; empty when `replacement_parent == target`). -/
def bst_remove.leftmost {K : Type} :
    K → Option Int → bstnode K → bstnode K → List (Frame K) →
      (K × Option Int × bstnode K) × List (Frame K)
  | k, lv, bstnode.NULL, right, spine => ((k, lv, right), spine)
  | k, lv, bstnode.mk lk llv ll lr, right, spine =>
      bst_remove.leftmost lk llv ll lr
        (⟨Link.left, k, lv, bstnode.mk lk llv ll lr, right⟩ :: spine)

/-- Lines 192-212 of `bst_remove`: the node put in place of a target whose
children are `tleft` and `tright`. -/
def bst_remove.replacement {K : Type} (tleft tright : bstnode K) : bstnode K :=
  match tleft, tright with
  | bstnode.NULL, _ => tright
  | bstnode.mk _ _ _ _, bstnode.NULL => tleft
  | bstnode.mk _ _ _ _, bstnode.mk rk rlv rl rr =>
      match bst_remove.leftmost rk rlv rl rr [] with
      | ((sk, slv, sright), []) =>
          -- replacement_parent == target: only replacement->left is written
          bstnode.mk sk slv tleft sright
      | ((sk, slv, sright), rp :: up) =>
          -- replacement_parent->left = replacement->right;
          -- replacement->right = target->right
          bstnode.mk sk slv tleft (rebuild up (bstnode.mk rp.key rp.level sright rp.right))

/-- Function `bst_remove` (lines 168-223).  The last lines choose the link of
`target_parent` to write by the test `key_compare(key, target_parent->key) > 0`,
while the walk chose the link to follow by `key_compare(node->key, key) != 0` and
`key_compare(key, node->key) < 0`.  The two agree for every comparator that is
symmetric at 0.  For a comparator with `key_compare(key, parent->key) = 0` but
`key_compare(parent->key, key) != 0` the C code frees the target and writes
`parent->left` while the target hung from `parent->right`, which is left
dangling; a tree value cannot hold a dangling pointer, so the tree returned
here in that case (see `bst_remove.writes_target_link`) does not describe the
heap, and the statements about the contents of a bucket after a removal assume
a lawful comparator. -/
def bst_remove {K : Type} (key : K) (key_compare : K → K → Int) (d : bst K) :
    bst K × List (Call K) :=
  match walk key key_compare d.root [] with
  | (bstnode.NULL, _) => (d, [])
  | (bstnode.mk tk _ tleft tright, []) =>
      ({ root := bst_remove.replacement tleft tright }, [Call.key_destroy tk])
  | (bstnode.mk tk _ tleft tright, tp :: up) =>
      if key_compare key tp.key > 0 then
        ({ root := rebuild up
            (bstnode.mk tp.key tp.level tp.left (bst_remove.replacement tleft tright)) },
         [Call.key_destroy tk])
      else
        ({ root := rebuild up
            (bstnode.mk tp.key tp.level (bst_remove.replacement tleft tright) tp.right) },
         [Call.key_destroy tk])

/-- Function `bstnode_print` (lines 229-244) on a node with the given fields:
the new value of `*first` and the text emitted. -/
def bstnode_print {K : Type} (key : K) (level : Option Int) (first : Bool)
    (key_print : K → String) : Bool × String :=
  (false,
   (if first then "" else ",") ++
     (match level with
      | some n => printf_d n
      | none => "") ++ "-" ++ key_print key)

/-- Function `bstnodes_print` (lines 251-264): the subtree with its `level`
fields rewritten, the new value of `*first`, and the text emitted.  The recursion
depth equals `counter`, which therefore stays far below `INT_MAX`. -/
def bstnodes_print {K : Type} (key_print : K → String) :
    bstnode K → Bool → Int → bstnode K × Bool × String
  | bstnode.NULL, first, _ => (bstnode.NULL, first, "")
  | bstnode.mk key _ left right, first, counter =>
      let l := bstnodes_print key_print left first (counter + 1)
      let n := bstnode_print key (some counter) l.2.1 key_print
      let r := bstnodes_print key_print right n.1 (counter + 1)
      (bstnode.mk key (some counter) l.1 r.1, r.2.1, l.2.2 ++ n.2 ++ r.2.2)

/-- Function `bst_print` (lines 271-280). -/
def bst_print {K : Type} (t : bst K) (key_print : K → String) : bst K × String :=
  let r := bstnodes_print key_print t.root true 0
  ({ root := r.1 }, r.2.2)

/-! ## Hash table (lines 283-391) -/

/-- The doubling loop of `ht_create` (lines 306-308), `n` iterations left. -/
def ht_create.loop : Nat → Int → Int
  | 0, ht_length => ht_length
  | n + 1, ht_length => ht_create.loop n (int32 (ht_length * 2))

/-- Function `ht_create` (lines 283-317); `none` when `assert(hash_length > 0)`
fails. -/
def ht_create {K : Type} (key_clone : K → K) (hash_func : K → Int → Int)
    (hash_length : Int) (key_compare : K → K → Int) (key_destroy : K → Unit)
    (key_print : K → String) : Option (hashtable K) :=
  if 0 < hash_length then
    some
      { hash_length := hash_length
        ht_length := ht_create.loop (hash_length - 1).toNat 2
        hash_func := hash_func
        key_clone := key_clone
        key_compare := key_compare
        key_destroy := key_destroy
        key_print := key_print
        table := List.replicate (ht_create.loop (hash_length - 1).toNat 2).toNat none }
  else none

/-- Read of `table[i]`: `none` outside the array. -/
def table_get {K : Type} (table : List (Option (bst K))) (i : Int) :
    Option (Option (bst K)) :=
  if 0 ≤ i then table[i.toNat]? else none

/-- Write of `table[i]` (or through the pointer stored there). -/
def table_set {K : Type} (table : List (Option (bst K))) (i : Int) (v : Option (bst K)) :
    List (Option (bst K)) :=
  table.set i.toNat v

/-- The loop of `ht_destroy` (lines 323-327): `n` iterations left, at index `i`. -/
def ht_destroy.loop {K : Type} (ht : hashtable K) : Nat → Int → Option (List (Call K))
  | 0, _ => some []
  | n + 1, i =>
      match table_get ht.table i with
      | none => none
      | some none => ht_destroy.loop ht n (i + 1)
      | some (some d) =>
          match ht_destroy.loop ht n (i + 1) with
          | none => none
          | some rest => some (bst_destroy d ++ rest)

/-- Function `ht_destroy` (lines 320-330): the calls of `key_destroy` it makes. -/
def ht_destroy {K : Type} (ht : hashtable K) : Option (List (Call K)) :=
  ht_destroy.loop ht ht.ht_length.toNat 0

/-- Function `ht_insert` (lines 333-353): result code, table afterwards, calls made. -/
def ht_insert {K : Type} (ht : hashtable K) (key : K) :
    Option (Int × hashtable K × List (Call K)) :=
  let hash_index := ht.hash_func key ht.hash_length
  match table_get ht.table hash_index with
  | none => none
  | some slot =>
      -- lines 339-341
      let d : bst K :=
        match slot with
        | none => bst_create
        | some d => d
      let table1 :=
        match slot with
        | none => table_set ht.table hash_index (some bst_create)
        | some _ => ht.table
      match bst_lookup key ht.key_compare d with
      | some _ => some (HT_ALREADY_STORED, { ht with table := table1 }, [])
      | none =>
          some (HT_SUCCESS,
            { ht with table := table_set table1 hash_index
                        (some (bst_insert key ht.key_compare ht.key_clone d).1) },
            (bst_insert key ht.key_compare ht.key_clone d).2)

/-- Function `ht_remove` (lines 356-377): result code, table afterwards, calls made. -/
def ht_remove {K : Type} (ht : hashtable K) (key : K) :
    Option (Int × hashtable K × List (Call K)) :=
  let hash_index := ht.hash_func key ht.hash_length
  match table_get ht.table hash_index with
  | none => none
  | some none => some (HT_NOT_STORED, ht, [])
  | some (some d) =>
      match bst_lookup key ht.key_compare d with
      | none => some (HT_NOT_STORED, ht, [])
      | some _ =>
          some (HT_SUCCESS,
            { ht with table := table_set ht.table hash_index
                        (some (bst_remove key ht.key_compare d).1) },
            (bst_remove key ht.key_compare d).2)

/-- The loop of `ht_print` (lines 383-390): `n` iterations left, at index `i`;
`table` is the bucket array as rewritten so far (the `level` fields), `out` the
text emitted so far. -/
def ht_print.loop {K : Type} (key_print : K → String) :
    Nat → Int → List (Option (bst K)) → String → Option (List (Option (bst K)) × String)
  | 0, _, table, out => some (table, out)
  | n + 1, i, table, out =>
      match table_get table i with
      | none => none
      | some none =>
          ht_print.loop key_print n (i + 1) table (out ++ printf_d i ++ ": " ++ "[" ++ "]\n")
      | some (some d) =>
          ht_print.loop key_print n (i + 1)
            (table_set table i (some (bst_print d key_print).1))
            (out ++ printf_d i ++ ": " ++ "[" ++ (bst_print d key_print).2 ++ "]\n")

/-- Function `ht_print` (lines 380-391): the table afterwards and the text emitted. -/
def ht_print {K : Type} (ht : hashtable K) : Option (hashtable K × String) :=
  match ht_print.loop ht.key_print ht.ht_length.toNat 0 ht.table "" with
  | none => none
  | some (table, out) => some ({ ht with table := table }, out)

/-! ## Specification vocabulary -/

/-- In-order traversal (left, node, right) of the keys of a tree. -/
def inorder {K : Type} : bstnode K → List K
  | bstnode.NULL => []
  | bstnode.mk key _ left right => inorder left ++ key :: inorder right

/-- The ordering invariant of the data model: at every node, every key of the
left subtree compares `< 0` against the node's key and every key of the right
subtree compares `> 0`. -/
def ordered {K : Type} (key_compare : K → K → Int) : bstnode K → Prop
  | bstnode.NULL => True
  | bstnode.mk key _ left right =>
      (∀ x ∈ inorder left, key_compare x key < 0) ∧
      (∀ x ∈ inorder right, 0 < key_compare x key) ∧
      ordered key_compare left ∧ ordered key_compare right

/-- A comparator that is a total (pre)order: the sign flips when the arguments
are swapped, and `≤` is transitive.  Reflexivity and the compatibility of
compare-equal keys with the order follow. -/
structure LawfulCompare {K : Type} (key_compare : K → K → Int) : Prop where
  swap : ∀ a b, key_compare a b < 0 ↔ 0 < key_compare b a
  le_trans : ∀ a b c, key_compare a b ≤ 0 → key_compare b c ≤ 0 → key_compare a c ≤ 0

/-- The keys held by a bucket slot, in order; an absent bucket holds none. -/
def bucket_keys {K : Type} : Option (bst K) → List K
  | none => []
  | some d => inorder d.root

/-- The root of the tree of a bucket slot; an absent bucket has no tree. -/
def slot_root {K : Type} : Option (bst K) → bstnode K
  | none => bstnode.NULL
  | some d => d.root

/-- The text `ht_print` writes between the brackets for a bucket slot: the
output of `bst_print` when the bucket is present, nothing when it is absent. -/
def bucket_text {K : Type} (key_print : K → String) : Option (bst K) → String
  | none => ""
  | some d => (bst_print d key_print).2

/-- The line of bucket `i`: decimal index, `": ["`, the bucket's text, `"]"` and
a newline. -/
def bucket_line {K : Type} (key_print : K → String) (table : List (Option (bst K)))
    (i : Nat) : String :=
  printf_d i ++ ": [" ++ bucket_text key_print (table[i]?.getD none) ++ "]\n"

/-- All keys held by a table, bucket after bucket. -/
def table_keys {K : Type} (table : List (Option (bst K))) : List K :=
  (table.map bucket_keys).flatten

/-- The tables a client obtains from `t0` by calls of `ht_insert` and `ht_remove`. -/
inductive Reachable {K : Type} (t0 : hashtable K) : hashtable K → Prop where
  | start : Reachable t0 t0
  | insert {t t1 : hashtable K} {key : K} {code : Int} {calls : List (Call K)} :
      Reachable t0 t → ht_insert t key = some (code, t1, calls) → Reachable t0 t1
  | remove {t t1 : hashtable K} {key : K} {code : Int} {calls : List (Call K)} :
      Reachable t0 t → ht_remove t key = some (code, t1, calls) → Reachable t0 t1

/-- The link that `bst_remove` writes on lines 216-222 is the link through which
its walk reached the target: either the walk never left the root, or its last
step went through `parent->right` exactly when
`key_compare(key, parent->key) > 0`.  Where this fails, the C code leaves the
link to the freed target dangling. -/
def bst_remove.writes_target_link {K : Type} (key : K) (key_compare : K → K → Int)
    (d : bst K) : Prop :=
  match (walk key key_compare d.root []).2 with
  | [] => True
  | parent :: _ => (parent.link = Link.right ↔ 0 < key_compare key parent.key)

/-- Two tables that differ at most in the contents of their bucket slots. -/
structure SameShape {K : Type} (t t1 : hashtable K) : Prop where
  hash_length : t1.hash_length = t.hash_length
  ht_length : t1.ht_length = t.ht_length
  hash_func : t1.hash_func = t.hash_func
  key_clone : t1.key_clone = t.key_clone
  key_compare : t1.key_compare = t.key_compare
  key_destroy : t1.key_destroy = t.key_destroy
  key_print : t1.key_print = t.key_print
  length : t1.table.length = t.table.length

/-- A call a client makes on a table. -/
inductive Op (K : Type) where
  | insert (key : K) : Op K
  | remove (key : K) : Op K
  deriving DecidableEq, Repr

/-- A client run: the calls of `ops` made in order on `t`.  Returns the final
table, every call with its result code, and the trace of the calls of `key_clone`
and `key_destroy`; `none` when some call has no defined behaviour. -/
def run {K : Type} : hashtable K → List (Op K) →
    Option (hashtable K × List (Op K × Int) × List (Call K))
  | t, [] => some (t, [], [])
  | t, Op.insert key :: ops =>
      match ht_insert t key with
      | none => none
      | some (code, t1, calls) =>
          match run t1 ops with
          | none => none
          | some (t2, codes, calls2) => some (t2, (Op.insert key, code) :: codes, calls ++ calls2)
  | t, Op.remove key :: ops =>
      match ht_remove t key with
      | none => none
      | some (code, t1, calls) =>
          match run t1 ops with
          | none => none
          | some (t2, codes, calls2) => some (t2, (Op.remove key, code) :: codes, calls ++ calls2)

/-- The keys returned by the calls of `key_clone` in a trace, in order. -/
def cloned {K : Type} : List (Call K) → List K
  | [] => []
  | Call.key_clone _ ret :: cs => ret :: cloned cs
  | Call.key_destroy _ :: cs => cloned cs

/-- The keys passed to the calls of `key_destroy` in a trace, in order. -/
def destroyed {K : Type} : List (Call K) → List K
  | [] => []
  | Call.key_clone _ _ :: cs => destroyed cs
  | Call.key_destroy arg :: cs => arg :: destroyed cs

/-- Number of `ht_insert` calls of a run that returned `HT_SUCCESS`. -/
def insert_successes {K : Type} : List (Op K × Int) → Nat
  | [] => 0
  | (Op.insert _, code) :: rest =>
      (if code = HT_SUCCESS then 1 else 0) + insert_successes rest
  | (Op.remove _, _) :: rest => insert_successes rest

/-- Number of `ht_remove` calls of a run that returned `HT_SUCCESS`. -/
def remove_successes {K : Type} : List (Op K × Int) → Nat
  | [] => 0
  | (Op.insert _, _) :: rest => remove_successes rest
  | (Op.remove _, code) :: rest =>
      (if code = HT_SUCCESS then 1 else 0) + remove_successes rest

/-- What `bst_insert` does to a tree, described by recursion on the tree: the
walk descends by the two comparisons of the loop and the link where it stops is
overwritten with the new leaf. -/
def insert_desc {K : Type} (val : K) (key_compare : K → K → Int) (key_clone : K → K) :
    bstnode K → bstnode K
  | bstnode.NULL => (new_leaf val key_clone).1
  | bstnode.mk k lv left right =>
      if key_compare k val ≠ 0 then
        if key_compare val k < 0 then
          bstnode.mk k lv (insert_desc val key_compare key_clone left) right
        else
          bstnode.mk k lv left (insert_desc val key_compare key_clone right)
      else (new_leaf val key_clone).1

/-- What `bst_remove` does to a tree, described by recursion on the tree. -/
def remove_desc {K : Type} (key : K) (key_compare : K → K → Int) : bstnode K → bstnode K
  | bstnode.NULL => bstnode.NULL
  | bstnode.mk k lv left right =>
      if key_compare k key ≠ 0 then
        if key_compare key k < 0 then
          bstnode.mk k lv (remove_desc key key_compare left) right
        else
          bstnode.mk k lv left (remove_desc key key_compare right)
      else bst_remove.replacement left right

/-- Keys that an in-order traversal meets before the subtree below `path`. -/
def keys_before {K : Type} : List (Frame K) → List K
  | [] => []
  | f :: up =>
      match f.link with
      | Link.left => keys_before up
      | Link.right => keys_before up ++ (inorder f.left ++ [f.key])

/-- Keys that an in-order traversal meets after the subtree below `path`. -/
def keys_after {K : Type} : List (Frame K) → List K
  | [] => []
  | f :: up =>
      match f.link with
      | Link.left => (f.key :: inorder f.right) ++ keys_after up
      | Link.right => keys_after up

/-- The entries `"<depth>-<printed key>"` of a tree in in-order (left, node,
right); `depth` is the number of ancestors of the root of the subtree. -/
def entries {K : Type} (key_print : K → String) : bstnode K → Nat → List String
  | bstnode.NULL, _ => []
  | bstnode.mk key _ left right, depth =>
      entries key_print left (depth + 1) ++
        (printf_d depth ++ "-" ++ key_print key) :: entries key_print right (depth + 1)

/-- The tree with every `level` field holding the depth of its node. -/
def with_depths {K : Type} : bstnode K → Nat → bstnode K
  | bstnode.NULL, _ => bstnode.NULL
  | bstnode.mk key _ left right, depth =>
      bstnode.mk key (some (depth : Int)) (with_depths left (depth + 1))
        (with_depths right (depth + 1))

/-- Every entry preceded by a comma, concatenated. -/
def comma_each (es : List String) : String := String.join (es.map fun e => "," ++ e)

/-- Key and `level` of the leftmost node of a tree, the node holding its first
key in in-order. -/
def min_node {K : Type} : bstnode K → Option (K × Option Int)
  | bstnode.NULL => none
  | bstnode.mk k lv bstnode.NULL _ => some (k, lv)
  | bstnode.mk _ _ (bstnode.mk lk llv ll lr) _ => min_node (bstnode.mk lk llv ll lr)

/-- The tree with its leftmost node taken out and the right subtree of that node
put in its place. -/
def delete_min {K : Type} : bstnode K → bstnode K
  | bstnode.NULL => bstnode.NULL
  | bstnode.mk _ _ bstnode.NULL right => right
  | bstnode.mk k lv (bstnode.mk lk llv ll lr) right =>
      bstnode.mk k lv (delete_min (bstnode.mk lk llv ll lr)) right

/-- Textbook recursive insertion into a binary search tree: into the left
subtree if `compare(k, node.key) < 0`, else into the right subtree; a new leaf
holding `clone(k)` at an empty position. -/
def textbook_insert {K : Type} (k : K) (key_compare : K → K → Int) (key_clone : K → K) :
    bstnode K → bstnode K
  | bstnode.NULL => bstnode.mk (key_clone k) none bstnode.NULL bstnode.NULL
  | bstnode.mk key lv left right =>
      if key_compare k key < 0 then
        bstnode.mk key lv (textbook_insert k key_compare key_clone left) right
      else
        bstnode.mk key lv left (textbook_insert k key_compare key_clone right)

/-- The ancestors `path` are those a search for `key` passes: none of them
compares equal to `key`, and each is left through the link the comparison
`compare(key, node.key) < 0` selects. -/
def on_search_path {K : Type} (key_compare : K → K → Int) (key : K)
    (path : List (Frame K)) : Prop :=
  ∀ f ∈ path, key_compare f.key key ≠ 0 ∧ (f.link = Link.left ↔ key_compare key f.key < 0)

/-! ## Concrete instance used to exercise the theorems: integer keys -/

/-- Integer comparator `a - b`. -/
def int_compare (a b : Int) : Int := a - b

/-- Integer hash `k mod 2^w`. -/
def int_hash (k : Int) (w : Int) : Int := k % 2 ^ w.toNat

/-- A fresh table of integer keys with `2^w` buckets. -/
def int_table (w : Int) : Option (hashtable Int) :=
  ht_create (fun k => k) int_hash w int_compare (fun _ => ()) (fun k => toString k)

/-- The fresh table `int_table 2`, written out. -/
def int_t0 : hashtable Int :=
  { hash_length := 2
    ht_length := 4
    hash_func := int_hash
    key_clone := fun k => k
    key_compare := int_compare
    key_destroy := fun _ => ()
    key_print := fun k => toString k
    table := [none, none, none, none] }

/-- A table of integer keys like `int_t0` with the given bucket array. -/
def int_with (table : List (Option (bst Int))) : hashtable Int :=
  { int_t0 with table := table }

/-- A leaf holding `k`, as `new_leaf` makes it. -/
def leaf {K : Type} (k : K) : bstnode K := bstnode.mk k none bstnode.NULL bstnode.NULL

/-- The table `int_t0` after inserting 5. -/
def int_t1 : hashtable Int :=
  int_with [none, some ⟨leaf 5⟩, none, none]

/-- The table `int_t0` after inserting 5, 1. -/
def int_t2 : hashtable Int :=
  int_with [none, some ⟨bstnode.mk 5 none (leaf 1) bstnode.NULL⟩, none, none]

/-- The table `int_t0` after inserting 5, 1, 9. -/
def int_t3 : hashtable Int :=
  int_with [none, some ⟨bstnode.mk 5 none (leaf 1) (leaf 9)⟩, none, none]

/-- The table returned by `int_table 31`, written out. -/
def int_t31 : hashtable Int :=
  { int_t0 with hash_length := 31, ht_length := -2147483648, table := [] }

/-- An ordered tree of integer keys: 5 with children 1 and 17, 17 with left
child 13, 13 with left child 9 and right child 15, 9 with right child 11. -/
def int_tree : bstnode Int :=
  bstnode.mk 5 none (leaf 1)
    (bstnode.mk 17 none
      (bstnode.mk 13 none (bstnode.mk 9 none bstnode.NULL (leaf 11)) (leaf 15))
      bstnode.NULL)

/-- The ancestors of the node 13 of `int_tree`: 17, left through its left link,
then the root 5, left through its right link. -/
def int_path13 : List (Frame Int) :=
  [⟨Link.left, 17, none, bstnode.NULL, bstnode.NULL⟩,
   ⟨Link.right, 5, none, leaf 1, bstnode.NULL⟩]

/-- The left subtree of the node 13 of `int_tree`. -/
def int_sub9 : bstnode Int := bstnode.mk 9 none bstnode.NULL (leaf 11)

/-- Integer comparator on the halves of the keys: 2 and 3 compare equal. -/
def skew_compare (a b : Int) : Int := a - 2 * b

def skew_tree : bst Int := ⟨bstnode.mk 1 none bstnode.NULL (leaf 4)⟩

def half_compare (a b : Int) : Int := a / 2 - b / 2

/-- A fresh table of integer keys compared by `half_compare`, hashed by
`int_hash`, with `2^w` buckets. -/
def half_table (w : Int) : Option (hashtable Int) :=
  ht_create (fun k => k) int_hash w half_compare (fun _ => ()) (fun k => toString k)

/-- The fresh table `half_table 2`, written out. -/
def half_t0 : hashtable Int :=
  { int_t0 with key_compare := half_compare }

/-- The table `half_t0` after inserting 2. -/
def half_t1 : hashtable Int :=
  { half_t0 with table := [none, none, some ⟨leaf 2⟩, none] }

/-- The table `half_t0` after inserting 2 and 3. -/
def half_t2 : hashtable Int :=
  { half_t0 with table := [none, none, some ⟨leaf 2⟩, some ⟨leaf 3⟩] }

/-! ## Basic facts -/

theorem LawfulCompare.eq_symm {K : Type} {cmp : K → K → Int} (h : LawfulCompare cmp)
    {a b : K} (hab : cmp a b = 0) : cmp b a = 0 := by
  have h1 := h.swap a b
  have h2 := h.swap b a
  omega

theorem LawfulCompare.lt_of_le_of_lt {K : Type} {cmp : K → K → Int} (h : LawfulCompare cmp)
    {a b c : K} (hab : cmp a b ≤ 0) (hbc : cmp b c < 0) : cmp a c < 0 := by
  have h1 := h.le_trans a b c hab (by omega)
  by_contra hne
  have h2 : cmp a c = 0 := by omega
  have h3 := h.eq_symm h2
  have h4 := h.le_trans c a b (by omega) hab
  have h5 := h.swap b c
  omega

theorem LawfulCompare.lt_of_lt_of_le {K : Type} {cmp : K → K → Int} (h : LawfulCompare cmp)
    {a b c : K} (hab : cmp a b < 0) (hbc : cmp b c ≤ 0) : cmp a c < 0 := by
  have h1 := h.le_trans a b c (by omega) hbc
  by_contra hne
  have h2 : cmp a c = 0 := by omega
  have h3 := h.eq_symm h2
  have h4 := h.le_trans b c a hbc (by omega)
  have h5 := h.swap a b
  omega

theorem int_compare_lawful : LawfulCompare int_compare :=
  ⟨fun a b => by unfold int_compare; omega, fun a b c => by unfold int_compare; omega⟩

/-! ## The walks and the recursive descriptions -/

theorem inorder_rebuild {K : Type} (path : List (Frame K)) (t : bstnode K) :
    inorder (rebuild path t) = keys_before path ++ inorder t ++ keys_after path := by
  induction path generalizing t with
  | nil => simp [rebuild, keys_before, keys_after]
  | cons f up ih =>
      rcases f with ⟨link, k, lv, l, r⟩
      cases link <;> simp [rebuild, keys_before, keys_after, ih, inorder]

theorem insert_stop {K : Type} (val : K) (cmp : K → K → Int) (clone : K → K)
    (n : bstnode K) (path : List (Frame K))
    (hhead : ∀ p up, path = p :: up → (p.link = Link.left ↔ cmp val p.key < 0)) :
    (match ((n, path) : bstnode K × List (Frame K)) with
      | (_, []) => (new_leaf val clone).1
      | (_, parent :: up) =>
          if cmp val parent.key < 0 then
            rebuild up (bstnode.mk parent.key parent.level (new_leaf val clone).1 parent.right)
          else
            rebuild up (bstnode.mk parent.key parent.level parent.left (new_leaf val clone).1))
      = rebuild path (new_leaf val clone).1 := by
  cases path with
  | nil => simp [rebuild]
  | cons p up =>
      have h := hhead p up rfl
      rcases p with ⟨link, k, lv, l, r⟩
      cases link
      · have h1 : cmp val k < 0 := by simpa using h
        simp [rebuild, h1]
      · have h1 : ¬ cmp val k < 0 := by simpa using h
        simp [rebuild, h1]

theorem walk_insert_desc {K : Type} (val : K) (cmp : K → K → Int) (clone : K → K)
    (t : bstnode K) (path : List (Frame K))
    (hhead : ∀ p up, path = p :: up → (p.link = Link.left ↔ cmp val p.key < 0)) :
    (match walk val cmp t path with
      | (_, []) => (new_leaf val clone).1
      | (_, parent :: up) =>
          if cmp val parent.key < 0 then
            rebuild up (bstnode.mk parent.key parent.level (new_leaf val clone).1 parent.right)
          else
            rebuild up (bstnode.mk parent.key parent.level parent.left (new_leaf val clone).1))
      = rebuild path (insert_desc val cmp clone t) := by
  induction t generalizing path with
  | NULL => simpa [walk, insert_desc] using insert_stop val cmp clone bstnode.NULL path hhead
  | mk k lv l r ihl ihr =>
      by_cases h0 : cmp k val = 0
      · simpa [walk, insert_desc, h0] using
          insert_stop val cmp clone (bstnode.mk k lv l r) path hhead
      · by_cases h1 : cmp val k < 0
        · simp only [walk, insert_desc, h0, h1, ne_eq, not_false_eq_true, if_true]
          rw [ihl]
          · simp [rebuild]
          · intro p up hp
            cases hp
            simp [h1]
        · simp only [walk, insert_desc, h0, h1, ne_eq, not_false_eq_true, if_true, if_false]
          rw [ihr]
          · simp [rebuild]
          · intro p up hp
            cases hp
            simp [h1]

theorem bst_insert_root {K : Type} (val : K) (cmp : K → K → Int) (clone : K → K) (d : bst K) :
    (bst_insert val cmp clone d).1.root = insert_desc val cmp clone d.root := by
  have h := walk_insert_desc val cmp clone d.root [] (by intro p up hp; cases hp)
  simp only [rebuild] at h
  rw [← h]
  unfold bst_insert
  split
  · rfl
  · split <;> rfl

theorem bst_insert_calls {K : Type} (val : K) (cmp : K → K → Int) (clone : K → K) (d : bst K) :
    (bst_insert val cmp clone d).2 = [Call.key_clone val (clone val)] := by
  unfold bst_insert
  split
  · rfl
  · split <;> rfl

theorem leftmost_rebuild {K : Type} (l : bstnode K) :
    ∀ (k : K) (lv : Option Int) (r : bstnode K) (spine : List (Frame K)),
      rebuild (bst_remove.leftmost k lv l r spine).2
          (bstnode.mk (bst_remove.leftmost k lv l r spine).1.1
            (bst_remove.leftmost k lv l r spine).1.2.1 bstnode.NULL
            (bst_remove.leftmost k lv l r spine).1.2.2)
        = rebuild spine (bstnode.mk k lv l r) ∧
      ((∀ f ∈ spine, f.link = Link.left) →
        ∀ f ∈ (bst_remove.leftmost k lv l r spine).2, f.link = Link.left) := by
  induction l with
  | NULL => intro k lv r spine; simp [bst_remove.leftmost]
  | mk lk llv ll lr ihl _ =>
      intro k lv r spine
      have h := ihl lk llv lr (⟨Link.left, k, lv, bstnode.mk lk llv ll lr, r⟩ :: spine)
      simp only [bst_remove.leftmost]
      refine ⟨by rw [h.1]; simp [rebuild], fun hs => h.2 ?_⟩
      intro f hf
      rcases List.mem_cons.1 hf with rfl | hf
      · rfl
      · exact hs f hf

theorem keys_before_left {K : Type} (spine : List (Frame K))
    (h : ∀ f ∈ spine, f.link = Link.left) : keys_before spine = [] := by
  induction spine with
  | nil => rfl
  | cons f up ih =>
      have hf := h f (List.mem_cons_self _ _)
      have hup := ih (fun g hg => h g (List.mem_cons_of_mem _ hg))
      simp [keys_before, hf, hup]

theorem inorder_replacement {K : Type} (tl tr : bstnode K) :
    inorder (bst_remove.replacement tl tr) = inorder tl ++ inorder tr := by
  cases tl with
  | NULL => simp [bst_remove.replacement, inorder]
  | mk lk llv ll lr =>
      cases tr with
      | NULL => simp [bst_remove.replacement, inorder]
      | mk rk rlv rl rr =>
          have h := leftmost_rebuild rl rk rlv rr []
          have h1 := congrArg inorder h.1
          have h2 := h.2 (by simp)
          simp only [bst_remove.replacement]
          generalize bst_remove.leftmost rk rlv rl rr [] = res at h h1 h2
          rcases res with ⟨⟨sk, slv, sr⟩, spine⟩
          simp only [rebuild, inorder_rebuild] at h1
          rw [keys_before_left spine h2] at h1
          cases spine with
          | nil =>
              simp only [keys_after, inorder, List.nil_append, List.append_nil] at h1
              simp only [inorder]
              rw [← h1]
          | cons rp up =>
              have hrp := h2 rp (List.mem_cons_self _ _)
              have hup := keys_before_left up (fun g hg => h2 g (List.mem_cons_of_mem _ hg))
              simp only [keys_after, hrp, inorder, List.nil_append] at h1
              simp only [inorder, inorder_rebuild, hup, List.nil_append]
              rw [← h1]
              simp

theorem remove_stop {K : Type} (key : K) (cmp : K → K → Int) (x : bstnode K)
    (path : List (Frame K))
    (hhead : ∀ p up, path = p :: up → (p.link = Link.right ↔ 0 < cmp key p.key)) :
    (match path with
      | [] => x
      | tp :: up =>
          if cmp key tp.key > 0 then rebuild up (bstnode.mk tp.key tp.level tp.left x)
          else rebuild up (bstnode.mk tp.key tp.level x tp.right))
      = rebuild path x := by
  cases path with
  | nil => simp [rebuild]
  | cons p up =>
      have h := hhead p up rfl
      rcases p with ⟨link, k, lv, l, r⟩
      cases link
      · have h1 : ¬ 0 < cmp key k := by simpa using h
        simp [rebuild, h1]
      · have h1 : 0 < cmp key k := by simpa using h
        simp [rebuild, h1]

theorem walk_remove_desc {K : Type} (key : K) (cmp : K → K → Int)
    (hsym : ∀ a b, cmp a b = 0 → cmp b a = 0)
    (t : bstnode K) (path : List (Frame K))
    (hhead : ∀ p up, path = p :: up → (p.link = Link.right ↔ 0 < cmp key p.key)) :
    (match walk key cmp t path with
      | (bstnode.NULL, _) => rebuild path t
      | (bstnode.mk _ _ tl tr, []) => bst_remove.replacement tl tr
      | (bstnode.mk _ _ tl tr, tp :: up) =>
          if cmp key tp.key > 0 then
            rebuild up (bstnode.mk tp.key tp.level tp.left (bst_remove.replacement tl tr))
          else
            rebuild up (bstnode.mk tp.key tp.level (bst_remove.replacement tl tr) tp.right))
      = rebuild path (remove_desc key cmp t) := by
  induction t generalizing path with
  | NULL => simp [walk, remove_desc]
  | mk k lv l r ihl ihr =>
      by_cases h0 : cmp k key = 0
      · have h := remove_stop key cmp (bst_remove.replacement l r) path hhead
        simp only [walk, remove_desc, h0, ne_eq, not_true_eq_false, if_false]
        rw [← h]
        cases path <;> rfl
      · by_cases h1 : cmp key k < 0
        · simp only [walk, remove_desc, h0, h1, ne_eq, not_false_eq_true, if_true]
          have h := ihl (⟨Link.left, k, lv, l, r⟩ :: path) (by
            intro p up hp
            cases hp
            simp only [false_iff, reduceCtorEq]
            omega)
          simpa [rebuild] using h
        · simp only [walk, remove_desc, h0, h1, ne_eq, not_false_eq_true, if_true, if_false]
          have h2 : cmp key k ≠ 0 := fun h => h0 (hsym _ _ h)
          have h := ihr (⟨Link.right, k, lv, l, r⟩ :: path) (by
            intro p up hp
            cases hp
            simp only [true_iff]
            omega)
          simpa [rebuild] using h

theorem bst_remove_root {K : Type} (key : K) (cmp : K → K → Int)
    (hsym : ∀ a b, cmp a b = 0 → cmp b a = 0) (d : bst K) :
    (bst_remove key cmp d).1.root = remove_desc key cmp d.root := by
  have h := walk_remove_desc key cmp hsym d.root [] (by intro p up hp; cases hp)
  simp only [rebuild] at h
  rw [← h]
  unfold bst_remove
  split
  · rfl
  · rfl
  · split <;> rfl

theorem walk_fst {K : Type} (key : K) (cmp : K → K → Int) (t : bstnode K) :
    ∀ path : List (Frame K),
      (bst_lookup.loop key cmp t = none → (walk key cmp t path).1 = bstnode.NULL) ∧
      (∀ s, bst_lookup.loop key cmp t = some s →
        ∃ lv l r, (walk key cmp t path).1 = bstnode.mk s lv l r) := by
  induction t with
  | NULL => intro path; simp [walk, bst_lookup.loop]
  | mk k lv l r ihl ihr =>
      intro path
      by_cases h0 : cmp k key = 0
      · simp [walk, bst_lookup.loop, h0]
      · by_cases h1 : cmp key k < 0
        · simpa [walk, bst_lookup.loop, h0, h1] using ihl _
        · simpa [walk, bst_lookup.loop, h0, h1] using ihr _

theorem bst_remove_calls {K : Type} (key : K) (cmp : K → K → Int) (d : bst K) :
    (bst_remove key cmp d).2 =
      match bst_lookup key cmp d with
      | none => []
      | some s => [Call.key_destroy s] := by
  have h := walk_fst key cmp d.root []
  unfold bst_remove bst_lookup
  cases hl : bst_lookup.loop key cmp d.root with
  | none =>
      have h1 := h.1 hl
      split
      · rfl
      · rename_i heq; rw [heq] at h1; cases h1
      · rename_i heq; rw [heq] at h1; cases h1
  | some s =>
      obtain ⟨lv, l, r, h1⟩ := h.2 s hl
      split
      · rename_i heq; rw [heq] at h1; cases h1
      · rename_i heq; rw [heq] at h1; cases h1; rfl
      · rename_i heq; rw [heq] at h1; cases h1; split <;> rfl

/-! ## Lookup, insertion and removal on the in-order key list -/

theorem lookup_some {K : Type} (key : K) (cmp : K → K → Int) (t : bstnode K) (s : K)
    (h : bst_lookup.loop key cmp t = some s) : s ∈ inorder t ∧ cmp s key = 0 := by
  induction t with
  | NULL => simp [bst_lookup.loop] at h
  | mk k lv l r ihl ihr =>
      by_cases h0 : cmp k key = 0
      · simp only [bst_lookup.loop, h0, if_true, Option.some.injEq] at h
        subst h
        exact ⟨by simp [inorder], h0⟩
      · by_cases h1 : cmp key k < 0
        · simp only [bst_lookup.loop, h0, h1, if_true, if_false] at h
          exact ⟨by simp [inorder, (ihl h).1], (ihl h).2⟩
        · simp only [bst_lookup.loop, h0, h1, if_false] at h
          exact ⟨by simp [inorder, (ihr h).1], (ihr h).2⟩

theorem lookup_none {K : Type} (key : K) (cmp : K → K → Int) (hlaw : LawfulCompare cmp)
    (t : bstnode K) (hord : ordered cmp t) (h : bst_lookup.loop key cmp t = none) :
    ∀ x ∈ inorder t, cmp x key ≠ 0 := by
  induction t with
  | NULL => simp [inorder]
  | mk k lv l r ihl ihr =>
      obtain ⟨hl, hr, hol, hor⟩ := hord
      by_cases h0 : cmp k key = 0
      · simp [bst_lookup.loop, h0] at h
      · by_cases h1 : cmp key k < 0
        · simp only [bst_lookup.loop, h0, h1, if_true, if_false] at h
          intro x hx
          simp only [inorder, List.mem_append, List.mem_cons] at hx
          rcases hx with hx | rfl | hx
          · exact ihl hol h x hx
          · exact h0
          · intro hxk
            have h2 : cmp k x < 0 := (hlaw.swap k x).2 (hr x hx)
            have h3 := hlaw.lt_of_lt_of_le h1 (Int.le_of_lt h2)
            have h4 := hlaw.eq_symm hxk
            omega
        · simp only [bst_lookup.loop, h0, h1, if_false] at h
          intro x hx
          simp only [inorder, List.mem_append, List.mem_cons] at hx
          rcases hx with hx | rfl | hx
          · intro hxk
            have h2 : cmp x k < 0 := hl x hx
            have h3 : cmp key x = 0 := hlaw.eq_symm hxk
            have h4 := hlaw.lt_of_le_of_lt (Int.le_of_eq h3) h2
            exact h1 h4
          · exact h0
          · exact ihr hor h x hx

theorem lookup_of_mem {K : Type} (key : K) (cmp : K → K → Int) (hlaw : LawfulCompare cmp)
    (t : bstnode K) (hord : ordered cmp t) (x : K) (hx : x ∈ inorder t)
    (hxk : cmp x key = 0) : ∃ s, bst_lookup.loop key cmp t = some s := by
  cases h : bst_lookup.loop key cmp t with
  | none => exact absurd hxk (lookup_none key cmp hlaw t hord h x hx)
  | some s => exact ⟨s, rfl⟩

theorem remove_desc_none {K : Type} (key : K) (cmp : K → K → Int) (t : bstnode K)
    (h : bst_lookup.loop key cmp t = none) : remove_desc key cmp t = t := by
  induction t with
  | NULL => rfl
  | mk k lv l r ihl ihr =>
      by_cases h0 : cmp k key = 0
      · simp [bst_lookup.loop, h0] at h
      · by_cases h1 : cmp key k < 0
        · simp only [bst_lookup.loop, h0, h1, if_true, if_false] at h
          simp [remove_desc, h0, h1, ihl h]
        · simp only [bst_lookup.loop, h0, h1, if_false] at h
          simp [remove_desc, h0, h1, ihr h]

theorem remove_desc_some {K : Type} (key : K) (cmp : K → K → Int) (t : bstnode K) (s : K)
    (h : bst_lookup.loop key cmp t = some s) :
    ∃ pre post, inorder t = pre ++ s :: post ∧
      inorder (remove_desc key cmp t) = pre ++ post := by
  induction t with
  | NULL => simp [bst_lookup.loop] at h
  | mk k lv l r ihl ihr =>
      by_cases h0 : cmp k key = 0
      · simp only [bst_lookup.loop, h0, if_true, Option.some.injEq] at h
        subst h
        exact ⟨inorder l, inorder r, rfl, by simp [remove_desc, h0, inorder_replacement]⟩
      · by_cases h1 : cmp key k < 0
        · simp only [bst_lookup.loop, h0, h1, if_true, if_false] at h
          obtain ⟨pre, post, e1, e2⟩ := ihl h
          exact ⟨pre, post ++ k :: inorder r, by simp [inorder, e1],
            by simp [remove_desc, h0, h1, inorder, e2]⟩
        · simp only [bst_lookup.loop, h0, h1, if_false] at h
          obtain ⟨pre, post, e1, e2⟩ := ihr h
          exact ⟨inorder l ++ k :: pre, post, by simp [inorder, e1],
            by simp [remove_desc, h0, h1, inorder, e2]⟩

theorem insert_desc_inorder {K : Type} (val : K) (cmp : K → K → Int) (clone : K → K)
    (t : bstnode K) (h : bst_lookup.loop val cmp t = none) :
    ∃ pre post, inorder t = pre ++ post ∧
      inorder (insert_desc val cmp clone t) = pre ++ clone val :: post ∧
      (LawfulCompare cmp → ordered cmp t →
        (∀ x ∈ pre, cmp x val < 0) ∧ (∀ x ∈ post, cmp val x < 0)) := by
  induction t with
  | NULL => exact ⟨[], [], rfl, by simp [insert_desc, new_leaf, inorder], by simp⟩
  | mk k lv l r ihl ihr =>
      by_cases h0 : cmp k val = 0
      · simp [bst_lookup.loop, h0] at h
      · by_cases h1 : cmp val k < 0
        · simp only [bst_lookup.loop, h0, h1, if_true, if_false] at h
          obtain ⟨pre, post, e1, e2, e3⟩ := ihl h
          refine ⟨pre, post ++ k :: inorder r, by simp [inorder, e1],
            by simp [insert_desc, h0, h1, inorder, e2], ?_⟩
          intro hlaw hord
          obtain ⟨hl, hr, hol, hor⟩ := hord
          obtain ⟨f1, f2⟩ := e3 hlaw hol
          refine ⟨f1, ?_⟩
          intro x hx
          simp only [List.mem_append, List.mem_cons] at hx
          rcases hx with hx | rfl | hx
          · exact f2 x hx
          · exact h1
          · exact hlaw.lt_of_lt_of_le h1 (Int.le_of_lt ((hlaw.swap _ _).2 (hr x hx)))
        · simp only [bst_lookup.loop, h0, h1, if_false] at h
          obtain ⟨pre, post, e1, e2, e3⟩ := ihr h
          refine ⟨inorder l ++ k :: pre, post, by simp [inorder, e1],
            by simp [insert_desc, h0, h1, inorder, e2], ?_⟩
          intro hlaw hord
          obtain ⟨hl, hr, hol, hor⟩ := hord
          obtain ⟨f1, f2⟩ := e3 hlaw hor
          refine ⟨?_, f2⟩
          have hk : cmp k val < 0 := by
            have h2 := hlaw.swap k val
            have h3 := hlaw.swap val k
            omega
          intro x hx
          simp only [List.mem_append, List.mem_cons] at hx
          rcases hx with hx | rfl | hx
          · exact hlaw.lt_of_lt_of_le (hl x hx) (Int.le_of_lt hk)
          · exact hk
          · exact f1 x hx

theorem lookup_insert_desc {K : Type} (val : K) (cmp : K → K → Int) (clone : K → K)
    (hclone : cmp (clone val) val = 0) (t : bstnode K)
    (h : bst_lookup.loop val cmp t = none) :
    bst_lookup.loop val cmp (insert_desc val cmp clone t) = some (clone val) := by
  induction t with
  | NULL => simp [insert_desc, new_leaf, bst_lookup.loop, hclone]
  | mk k lv l r ihl ihr =>
      by_cases h0 : cmp k val = 0
      · simp [bst_lookup.loop, h0] at h
      · by_cases h1 : cmp val k < 0
        · simp only [bst_lookup.loop, h0, h1, if_true, if_false] at h
          simp [insert_desc, bst_lookup.loop, h0, h1, ihl h]
        · simp only [bst_lookup.loop, h0, h1, if_false] at h
          simp [insert_desc, bst_lookup.loop, h0, h1, ihr h]

theorem ordered_iff_pairwise {K : Type} (cmp : K → K → Int) (hlaw : LawfulCompare cmp)
    (t : bstnode K) :
    ordered cmp t ↔ (inorder t).Pairwise (fun a b => cmp a b < 0) := by
  induction t with
  | NULL => simp [ordered, inorder]
  | mk k lv l r ihl ihr =>
      simp only [ordered, inorder, List.pairwise_append, List.pairwise_cons, List.mem_cons,
        ihl, ihr]
      constructor
      · rintro ⟨hl, hr, pl, pr⟩
        refine ⟨pl, ⟨fun b hb => (hlaw.swap _ _).2 (hr b hb), pr⟩, ?_⟩
        intro a ha b hb
        rcases hb with rfl | hb
        · exact hl a ha
        · exact hlaw.lt_of_lt_of_le (hl a ha) (Int.le_of_lt ((hlaw.swap _ _).2 (hr b hb)))
      · rintro ⟨pl, ⟨hr, pr⟩, hlr⟩
        exact ⟨fun x hx => hlr x hx k (Or.inl rfl), fun x hx => (hlaw.swap _ _).1 (hr x hx),
          pl, pr⟩

theorem ordered_remove_desc {K : Type} (key : K) (cmp : K → K → Int)
    (hlaw : LawfulCompare cmp) (t : bstnode K) (hord : ordered cmp t) :
    ordered cmp (remove_desc key cmp t) := by
  cases h : bst_lookup.loop key cmp t with
  | none => rw [remove_desc_none key cmp t h]; exact hord
  | some s =>
      obtain ⟨pre, post, e1, e2⟩ := remove_desc_some key cmp t s h
      rw [ordered_iff_pairwise cmp hlaw] at hord ⊢
      rw [e1] at hord
      rw [e2]
      exact hord.sublist ((List.sublist_cons_self s post).append_left pre)

theorem ordered_insert_desc {K : Type} (val : K) (cmp : K → K → Int) (clone : K → K)
    (hlaw : LawfulCompare cmp) (hclone : cmp (clone val) val = 0) (t : bstnode K)
    (hord : ordered cmp t) (h : bst_lookup.loop val cmp t = none) :
    ordered cmp (insert_desc val cmp clone t) := by
  obtain ⟨pre, post, e1, e2, e3⟩ := insert_desc_inorder val cmp clone t h
  obtain ⟨f1, f2⟩ := e3 hlaw hord
  rw [ordered_iff_pairwise cmp hlaw] at hord ⊢
  rw [e1, List.pairwise_append] at hord
  obtain ⟨p1, p2, p3⟩ := hord
  rw [e2, List.pairwise_append, List.pairwise_cons]
  refine ⟨p1, ⟨?_, p2⟩, ?_⟩
  · intro b hb
    exact hlaw.lt_of_le_of_lt (Int.le_of_eq hclone) (f2 b hb)
  · intro a ha b hb
    rcases List.mem_cons.1 hb with rfl | hb
    · exact hlaw.lt_of_lt_of_le (f1 a ha) (Int.le_of_eq (hlaw.eq_symm hclone))
    · exact p3 a ha b hb

/-! ## The bucket array -/

theorem table_get_some {K : Type} {table : List (Option (bst K))} {i : Int}
    {slot : Option (bst K)} (h : table_get table i = some slot) :
    0 ≤ i ∧ i.toNat < table.length := by
  unfold table_get at h
  split at h
  · rename_i hi
    exact ⟨hi, (List.getElem?_eq_some_iff.1 h).1⟩
  · cases h

theorem table_get_set_same {K : Type} (table : List (Option (bst K))) (i : Int)
    (v : Option (bst K)) (h0 : 0 ≤ i) (h1 : i.toNat < table.length) :
    table_get (table_set table i v) i = some v := by
  simp [table_get, table_set, h0, h1]

theorem table_get_set_ne {K : Type} (table : List (Option (bst K))) (i j : Int)
    (v : Option (bst K)) (h0 : 0 ≤ i) (hne : j ≠ i) :
    table_get (table_set table i v) j = table_get table j := by
  unfold table_get table_set
  split
  · rename_i hj
    have : i.toNat ≠ j.toNat := by omega
    simp [List.getElem?_set_ne this]
  · rfl

theorem bst_eta {K : Type} (d : bst K) (r : bstnode K) (h : d.root = r) : d = ⟨r⟩ := by
  cases d
  cases h
  rfl

/-- Function `ht_insert`, in terms of the bucket's tree. -/
theorem ht_insert_eq {K : Type} (t : hashtable K) (k : K) :
    ht_insert t k =
      match table_get t.table (t.hash_func k t.hash_length) with
      | none => none
      | some slot =>
          match bst_lookup.loop k t.key_compare (slot_root slot) with
          | some _ => some (HT_ALREADY_STORED, t, [])
          | none =>
              some (HT_SUCCESS,
                { t with table := table_set t.table (t.hash_func k t.hash_length)
                            (some ⟨insert_desc k t.key_compare t.key_clone (slot_root slot)⟩) },
                [Call.key_clone k (t.key_clone k)]) := by
  unfold ht_insert
  dsimp only
  cases hg : table_get t.table (t.hash_func k t.hash_length) with
  | none => rfl
  | some slot =>
      cases slot with
      | none =>
          simp only [slot_root, bst_lookup, bst_create, bst_lookup.loop]
          have e := bst_eta _ _ (bst_insert_root k t.key_compare t.key_clone ⟨bstnode.NULL⟩)
          rw [bst_insert_calls, e]
          simp [table_set]
      | some d =>
          simp only [slot_root, bst_lookup]
          cases hl : bst_lookup.loop k t.key_compare d.root with
          | some s => rfl
          | none =>
              have e := bst_eta _ _ (bst_insert_root k t.key_compare t.key_clone d)
              simp only [bst_insert_calls]
              rw [e]

/-- Function `ht_remove`, in terms of the bucket's tree. -/
theorem ht_remove_eq {K : Type} (t : hashtable K) (k : K)
    (hsym : ∀ a b, t.key_compare a b = 0 → t.key_compare b a = 0) :
    ht_remove t k =
      match table_get t.table (t.hash_func k t.hash_length) with
      | none => none
      | some slot =>
          match bst_lookup.loop k t.key_compare (slot_root slot) with
          | none => some (HT_NOT_STORED, t, [])
          | some s =>
              some (HT_SUCCESS,
                { t with table := table_set t.table (t.hash_func k t.hash_length)
                            (some ⟨remove_desc k t.key_compare (slot_root slot)⟩) },
                [Call.key_destroy s]) := by
  unfold ht_remove
  dsimp only
  cases hg : table_get t.table (t.hash_func k t.hash_length) with
  | none => rfl
  | some slot =>
      cases slot with
      | none => simp [slot_root, bst_lookup.loop]
      | some d =>
          simp only [slot_root, bst_lookup]
          cases hl : bst_lookup.loop k t.key_compare d.root with
          | none => rfl
          | some s =>
              have e := bst_eta _ _ (bst_remove_root k t.key_compare hsym d)
              have c := bst_remove_calls k t.key_compare d
              simp only [bst_lookup, hl] at c
              simp only [c]
              rw [e]

/-! ## Reachable tables -/

theorem SameShape.refl {K : Type} (t : hashtable K) : SameShape t t :=
  ⟨rfl, rfl, rfl, rfl, rfl, rfl, rfl, rfl⟩

theorem SameShape.trans {K : Type} {a b c : hashtable K} (h1 : SameShape a b)
    (h2 : SameShape b c) : SameShape a c :=
  ⟨h2.hash_length.trans h1.hash_length, h2.ht_length.trans h1.ht_length,
    h2.hash_func.trans h1.hash_func, h2.key_clone.trans h1.key_clone,
    h2.key_compare.trans h1.key_compare, h2.key_destroy.trans h1.key_destroy,
    h2.key_print.trans h1.key_print, h2.length.trans h1.length⟩

theorem ht_insert_shape {K : Type} {t t1 : hashtable K} {k : K} {code : Int}
    {calls : List (Call K)} (h : ht_insert t k = some (code, t1, calls)) : SameShape t t1 := by
  rw [ht_insert_eq] at h
  cases hg : table_get t.table (t.hash_func k t.hash_length) with
  | none => simp [hg] at h
  | some slot =>
      simp only [hg] at h
      cases hl : bst_lookup.loop k t.key_compare (slot_root slot) with
      | some s =>
          simp only [hl, Option.some.injEq, Prod.mk.injEq] at h
          obtain ⟨_, rfl, _⟩ := h
          exact SameShape.refl t
      | none =>
          simp only [hl, Option.some.injEq, Prod.mk.injEq] at h
          obtain ⟨_, rfl, _⟩ := h
          exact ⟨rfl, rfl, rfl, rfl, rfl, rfl, rfl, by simp [table_set]⟩

theorem ht_remove_shape {K : Type} {t t1 : hashtable K} {k : K} {code : Int}
    {calls : List (Call K)} (h : ht_remove t k = some (code, t1, calls)) : SameShape t t1 := by
  unfold ht_remove at h
  dsimp only at h
  cases hg : table_get t.table (t.hash_func k t.hash_length) with
  | none => simp [hg] at h
  | some slot =>
      cases slot with
      | none =>
          simp only [hg, Option.some.injEq, Prod.mk.injEq] at h
          obtain ⟨_, rfl, _⟩ := h
          exact SameShape.refl t
      | some d =>
          simp only [hg] at h
          cases hl : bst_lookup k t.key_compare d with
          | none =>
              simp only [hl, Option.some.injEq, Prod.mk.injEq] at h
              obtain ⟨_, rfl, _⟩ := h
              exact SameShape.refl t
          | some s =>
              simp only [hl, Option.some.injEq, Prod.mk.injEq] at h
              obtain ⟨_, rfl, _⟩ := h
              exact ⟨rfl, rfl, rfl, rfl, rfl, rfl, rfl, by simp [table_set]⟩

theorem reachable_shape {K : Type} {t0 t : hashtable K} (h : Reachable t0 t) :
    SameShape t0 t := by
  induction h with
  | start => exact SameShape.refl t0
  | insert _ hi ih => exact ih.trans (ht_insert_shape hi)
  | remove _ hr ih => exact ih.trans (ht_remove_shape hr)

/-- Every present bucket of the table is ordered. -/
theorem ht_insert_ordered {K : Type} {t t1 : hashtable K} {k : K} {code : Int}
    {calls : List (Call K)} (hlaw : LawfulCompare t.key_compare)
    (hclone : ∀ k, t.key_compare (t.key_clone k) k = 0)
    (hinv : ∀ i d, table_get t.table i = some (some d) → ordered t.key_compare d.root)
    (h : ht_insert t k = some (code, t1, calls)) :
    ∀ i d, table_get t1.table i = some (some d) → ordered t.key_compare d.root := by
  rw [ht_insert_eq] at h
  cases hg : table_get t.table (t.hash_func k t.hash_length) with
  | none => simp [hg] at h
  | some slot =>
      simp only [hg] at h
      have hslot : ordered t.key_compare (slot_root slot) := by
        cases slot with
        | none => trivial
        | some d => exact hinv _ d hg
      cases hl : bst_lookup.loop k t.key_compare (slot_root slot) with
      | some s =>
          simp only [hl, Option.some.injEq, Prod.mk.injEq] at h
          obtain ⟨_, rfl, _⟩ := h
          exact hinv
      | none =>
          simp only [hl, Option.some.injEq, Prod.mk.injEq] at h
          obtain ⟨_, rfl, _⟩ := h
          intro i d hd
          have hb := table_get_some hg
          by_cases hi : i = t.hash_func k t.hash_length
          · subst hi
            rw [table_get_set_same _ _ _ hb.1 hb.2] at hd
            simp only [Option.some.injEq] at hd
            subst hd
            exact ordered_insert_desc k _ _ hlaw (hclone k) _ hslot hl
          · rw [table_get_set_ne _ _ _ _ hb.1 hi] at hd
            exact hinv i d hd

theorem ht_remove_ordered {K : Type} {t t1 : hashtable K} {k : K} {code : Int}
    {calls : List (Call K)} (hlaw : LawfulCompare t.key_compare)
    (hinv : ∀ i d, table_get t.table i = some (some d) → ordered t.key_compare d.root)
    (h : ht_remove t k = some (code, t1, calls)) :
    ∀ i d, table_get t1.table i = some (some d) → ordered t.key_compare d.root := by
  rw [ht_remove_eq t k (fun a b => hlaw.eq_symm)] at h
  cases hg : table_get t.table (t.hash_func k t.hash_length) with
  | none => simp [hg] at h
  | some slot =>
      simp only [hg] at h
      have hslot : ordered t.key_compare (slot_root slot) := by
        cases slot with
        | none => trivial
        | some d => exact hinv _ d hg
      cases hl : bst_lookup.loop k t.key_compare (slot_root slot) with
      | none =>
          simp only [hl, Option.some.injEq, Prod.mk.injEq] at h
          obtain ⟨_, rfl, _⟩ := h
          exact hinv
      | some s =>
          simp only [hl, Option.some.injEq, Prod.mk.injEq] at h
          obtain ⟨_, rfl, _⟩ := h
          intro i d hd
          have hb := table_get_some hg
          by_cases hi : i = t.hash_func k t.hash_length
          · subst hi
            rw [table_get_set_same _ _ _ hb.1 hb.2] at hd
            simp only [Option.some.injEq] at hd
            subst hd
            exact ordered_remove_desc k _ hlaw _ hslot
          · rw [table_get_set_ne _ _ _ _ hb.1 hi] at hd
            exact hinv i d hd

theorem reachable_ordered {K : Type} {t0 t : hashtable K}
    (hlaw : LawfulCompare t0.key_compare)
    (hclone : ∀ k, t0.key_compare (t0.key_clone k) k = 0)
    (hinv : ∀ i d, table_get t0.table i = some (some d) → ordered t0.key_compare d.root)
    (h : Reachable t0 t) :
    ∀ i d, table_get t.table i = some (some d) → ordered t0.key_compare d.root := by
  induction h with
  | start => exact hinv
  | @insert t t1 key code calls hr hi ih =>
      have hs := reachable_shape hr
      have := ht_insert_ordered (hs.key_compare ▸ hlaw)
        (by rw [hs.key_compare, hs.key_clone]; exact hclone)
        (by rw [hs.key_compare]; exact ih) hi
      rw [hs.key_compare] at this
      exact this
  | @remove t t1 key code calls hr hi ih =>
      have hs := reachable_shape hr
      have := ht_remove_ordered (hs.key_compare ▸ hlaw)
        (by rw [hs.key_compare]; exact ih) hi
      rw [hs.key_compare] at this
      exact this

theorem ht_create_some {K : Type} {clone : K → K} {hash : K → Int → Int} {w : Int}
    {cmp : K → K → Int} {destroy : K → Unit} {print : K → String} {t0 : hashtable K}
    (h : ht_create clone hash w cmp destroy print = some t0) :
    0 < w ∧ t0.hash_length = w ∧ t0.ht_length = ht_create.loop (w - 1).toNat 2 ∧
      t0.hash_func = hash ∧ t0.key_clone = clone ∧ t0.key_compare = cmp ∧
      t0.key_destroy = destroy ∧ t0.key_print = print ∧
      t0.table = List.replicate (ht_create.loop (w - 1).toNat 2).toNat none := by
  unfold ht_create at h
  split at h
  · rename_i hw
    simp only [Option.some.injEq] at h
    subst h
    exact ⟨hw, rfl, rfl, rfl, rfl, rfl, rfl, rfl, rfl⟩
  · cases h

theorem table_get_replicate {K : Type} (n : Nat) (i : Int) (slot : Option (bst K))
    (h : table_get (List.replicate n (none : Option (bst K))) i = some slot) : slot = none := by
  unfold table_get at h
  split at h
  · rw [List.getElem?_eq_some_iff] at h
    obtain ⟨hlt, he⟩ := h
    simpa using he.symm
  · cases h

/-- In a table reachable from a fresh one, every present bucket is ordered, and
the stored operations are those given to `ht_create`. -/
theorem created_reachable {K : Type} {clone : K → K} {hash : K → Int → Int} {w : Int}
    {cmp : K → K → Int} {destroy : K → Unit} {print : K → String} {t0 t : hashtable K}
    (hcreate : ht_create clone hash w cmp destroy print = some t0)
    (hreach : Reachable t0 t) :
    t.hash_length = w ∧ t.hash_func = hash ∧ t.key_clone = clone ∧ t.key_compare = cmp ∧
      (LawfulCompare cmp → (∀ k, cmp (clone k) k = 0) →
        ∀ i d, table_get t.table i = some (some d) → ordered cmp d.root) := by
  obtain ⟨_, h1, _, h2, h3, h4, _, _, h5⟩ := ht_create_some hcreate
  have hs := reachable_shape hreach
  refine ⟨hs.hash_length.trans h1, hs.hash_func.trans h2, hs.key_clone.trans h3,
    hs.key_compare.trans h4, ?_⟩
  intro hlaw hclone
  have := @reachable_ordered K t0 t (h4 ▸ hlaw)
    (by rw [h4, h3]; exact hclone)
    (by
      intro i d hd
      rw [h5] at hd
      cases table_get_replicate _ _ _ hd) hreach
  rw [h4] at this
  exact this

/-! ## The integer instance -/

theorem int_table_two : int_table 2 = some int_t0 := rfl

theorem int_t1_insert : ht_insert int_t0 5 = some (HT_SUCCESS, int_t1, [Call.key_clone 5 5]) :=
  rfl

theorem int_t1_reachable : Reachable int_t0 int_t1 :=
  Reachable.insert Reachable.start int_t1_insert

theorem int_t2_insert : ht_insert int_t1 1 = some (HT_SUCCESS, int_t2, [Call.key_clone 1 1]) :=
  rfl

theorem int_t3_insert : ht_insert int_t2 9 = some (HT_SUCCESS, int_t3, [Call.key_clone 9 9]) :=
  rfl

theorem int_t3_reachable : Reachable int_t0 int_t3 :=
  Reachable.insert (Reachable.insert int_t1_reachable int_t2_insert) int_t3_insert

/-! ## Further facts about the key lists -/

theorem LawfulCompare.eq_of_eq_eq {K : Type} {cmp : K → K → Int} (h : LawfulCompare cmp)
    {a b k : K} (ha : cmp a k = 0) (hb : cmp b k = 0) : cmp a b = 0 := by
  have h1 := h.le_trans a k b (by omega) (by have := h.eq_symm hb; omega)
  have h2 := h.le_trans b k a (by omega) (by have := h.eq_symm ha; omega)
  have h3 := h.swap a b
  omega

theorem lookup_eq_none_of_forall {K : Type} (key : K) (cmp : K → K → Int) (t : bstnode K)
    (h : ∀ x ∈ inorder t, cmp x key ≠ 0) : bst_lookup.loop key cmp t = none := by
  cases hl : bst_lookup.loop key cmp t with
  | none => rfl
  | some s => exact absurd (lookup_some key cmp t s hl).2 (h s (lookup_some key cmp t s hl).1)

theorem remove_desc_spec {K : Type} (key : K) (cmp : K → K → Int) (hlaw : LawfulCompare cmp)
    (t : bstnode K) (hord : ordered cmp t) (s : K)
    (h : bst_lookup.loop key cmp t = some s) :
    ∃ pre post, inorder t = pre ++ s :: post ∧
      inorder (remove_desc key cmp t) = pre ++ post ∧ cmp s key = 0 ∧
      ∀ x ∈ pre ++ post, cmp x key ≠ 0 := by
  obtain ⟨pre, post, e1, e2⟩ := remove_desc_some key cmp t s h
  have hs := (lookup_some key cmp t s h).2
  refine ⟨pre, post, e1, e2, hs, ?_⟩
  rw [ordered_iff_pairwise cmp hlaw, e1, List.pairwise_append, List.pairwise_cons] at hord
  obtain ⟨_, ⟨hpost, _⟩, hpre⟩ := hord
  intro x hx hxk
  have hxs := hlaw.eq_of_eq_eq hxk hs
  rcases List.mem_append.1 hx with hx | hx
  · have := hpre x hx s (List.mem_cons_self _ _)
    omega
  · have := hpost x hx
    have := hlaw.eq_symm hxs
    omega

theorem lookup_remove_desc {K : Type} (key : K) (cmp : K → K → Int) (hlaw : LawfulCompare cmp)
    (t : bstnode K) (hord : ordered cmp t) :
    bst_lookup.loop key cmp (remove_desc key cmp t) = none := by
  cases h : bst_lookup.loop key cmp t with
  | none => rw [remove_desc_none key cmp t h]; exact h
  | some s =>
      obtain ⟨pre, post, _, e2, _, e4⟩ := remove_desc_spec key cmp hlaw t hord s h
      apply lookup_eq_none_of_forall
      rw [e2]
      exact e4

theorem slot_root_some {K : Type} (d : bst K) : slot_root (some d) = d.root := rfl

theorem success_ne_already : HT_SUCCESS ≠ HT_ALREADY_STORED := by decide

/-! ## Claims C1 to C7 -/

/-- C1 (round trip).  If `ht_insert t k` returns `HT_SUCCESS` and the clone of `k`
compares equal to `k`, then in the resulting table `bst_lookup` of `k` in bucket
`hash(k, w)` finds the stored clone, and a second `ht_insert` of `k` returns
`HT_ALREADY_STORED` (changing nothing).  This holds for every table, in particular
for the tables reachable from `ht_create`, and needs no law of the comparator
other than `compare(clone(k), k) = 0`; the index is in range because the first
call returned. -/
theorem C1_insert_round_trip {K : Type} (t : hashtable K) (k : K)
    (hclone : t.key_compare (t.key_clone k) k = 0)
    (t1 : hashtable K) (calls : List (Call K))
    (hins : ht_insert t k = some (HT_SUCCESS, t1, calls)) :
    (∃ d, table_get t1.table (t1.hash_func k t1.hash_length) = some (some d) ∧
        bst_lookup k t1.key_compare d = some (t1.key_clone k) ∧
        t1.key_clone k ∈ inorder d.root) ∧
      ht_insert t1 k = some (HT_ALREADY_STORED, t1, []) := by
  rw [ht_insert_eq] at hins
  cases hg : table_get t.table (t.hash_func k t.hash_length) with
  | none => simp [hg] at hins
  | some slot =>
      simp only [hg] at hins
      have hb := table_get_some hg
      cases hl : bst_lookup.loop k t.key_compare (slot_root slot) with
      | some s =>
          simp only [hl, Option.some.injEq, Prod.mk.injEq] at hins
          exact absurd hins.1.symm success_ne_already
      | none =>
          simp only [hl, Option.some.injEq, Prod.mk.injEq] at hins
          obtain ⟨_, rfl, _⟩ := hins
          have hfound := lookup_insert_desc k t.key_compare t.key_clone hclone _ hl
          have hget := table_get_set_same t.table (t.hash_func k t.hash_length)
            (some ⟨insert_desc k t.key_compare t.key_clone (slot_root slot)⟩) hb.1 hb.2
          refine ⟨⟨_, hget, hfound, (lookup_some _ _ _ _ hfound).1⟩, ?_⟩
          rw [ht_insert_eq]
          dsimp only
          rw [hget]
          simp only [slot_root_some]
          rw [hfound]

/-- Witness of C1 on integer keys: 5 inserted into the fresh table of 4 buckets. -/
theorem C1_insert_round_trip_witness :
    (∃ d, table_get int_t1.table (int_t1.hash_func 5 int_t1.hash_length) = some (some d) ∧
        bst_lookup 5 int_t1.key_compare d = some (int_t1.key_clone 5) ∧
        int_t1.key_clone 5 ∈ inorder d.root) ∧
      ht_insert int_t1 5 = some (HT_ALREADY_STORED, int_t1, []) :=
  C1_insert_round_trip int_t0 5 rfl int_t1 [Call.key_clone 5 5] int_t1_insert

/-- C2 (removal completeness).  In a table reachable from `ht_create` (lawful
comparator, clone comparing equal to its original), if some key stored in bucket
`hash(k, w)` compares equal to `k`, then `ht_remove t k` returns `HT_SUCCESS`, and
an immediately following `ht_remove` of `k` returns `HT_NOT_STORED` (and changes
nothing). -/
theorem C2_remove_complete {K : Type} (clone : K → K) (hash : K → Int → Int) (w : Int)
    (cmp : K → K → Int) (destroy : K → Unit) (print : K → String) (t0 t : hashtable K)
    (hcreate : ht_create clone hash w cmp destroy print = some t0)
    (hreach : Reachable t0 t) (hlaw : LawfulCompare cmp)
    (hclone : ∀ k, cmp (clone k) k = 0) (k : K) (d : bst K)
    (hd : table_get t.table (hash k w) = some (some d))
    (s : K) (hs : s ∈ inorder d.root) (hsk : cmp s k = 0) :
    ∃ t1 calls, ht_remove t k = some (HT_SUCCESS, t1, calls) ∧
      ht_remove t1 k = some (HT_NOT_STORED, t1, []) := by
  obtain ⟨e1, e2, _, e4, hinv0⟩ := created_reachable hcreate hreach
  have hinv := hinv0 hlaw hclone
  clear hinv0
  subst e1 e2 e4
  have hord := hinv _ d hd
  obtain ⟨s1, hl⟩ := lookup_of_mem k _ hlaw d.root hord s hs hsk
  have hb := table_get_some hd
  have hsym : ∀ a b, t.key_compare a b = 0 → t.key_compare b a = 0 := fun a b => hlaw.eq_symm
  have h1 : ht_remove t k = some (HT_SUCCESS,
      { t with table := table_set t.table (t.hash_func k t.hash_length)
                  (some ⟨remove_desc k t.key_compare d.root⟩) },
      [Call.key_destroy s1]) := by
    rw [ht_remove_eq t k hsym, hd]
    simp only [slot_root_some]
    rw [hl]
  refine ⟨_, _, h1, (ht_remove_eq _ k ?_).trans ?_⟩
  · exact hsym
  dsimp only
  rw [table_get_set_same _ _ _ hb.1 hb.2]
  simp only [slot_root_some]
  rw [lookup_remove_desc k _ hlaw d.root hord]

/-- Witness of C2 on integer keys: 5 removed from the table holding 5, 1, 9. -/
theorem C2_remove_complete_witness :
    ∃ t1 calls, ht_remove int_t3 5 = some (HT_SUCCESS, t1, calls) ∧
      ht_remove t1 5 = some (HT_NOT_STORED, t1, []) :=
  C2_remove_complete (fun k => k) int_hash 2 int_compare (fun _ => ()) (fun k => toString k)
    int_t0 int_t3 int_table_two int_t3_reachable int_compare_lawful
    (fun k => by simp [int_compare]) 5 ⟨bstnode.mk 5 none (leaf 1) (leaf 9)⟩ rfl 5
    (by simp [inorder, leaf]) (by simp [int_compare])

/-- C3 (BST ordering invariant).  Starting from the table returned by `ht_create`,
after any finite sequence of `ht_insert` and `ht_remove` calls (lawful comparator,
clone comparing equal to its original), the tree of every present bucket
satisfies the ordering invariant at every node; its in-order traversal is strictly
ascending; and no two of its keys compare equal.  The two formulations are
equivalent for every tree. -/
theorem C3_bst_ordering_invariant {K : Type} (clone : K → K) (hash : K → Int → Int)
    (w : Int) (cmp : K → K → Int) (destroy : K → Unit) (print : K → String)
    (t0 t : hashtable K)
    (hcreate : ht_create clone hash w cmp destroy print = some t0)
    (hreach : Reachable t0 t) (hlaw : LawfulCompare cmp)
    (hclone : ∀ k, cmp (clone k) k = 0) (i : Int) (d : bst K)
    (hd : table_get t.table i = some (some d)) :
    ordered cmp d.root ∧
      (inorder d.root).Pairwise (fun a b => cmp a b < 0) ∧
      (inorder d.root).Pairwise (fun a b => cmp a b ≠ 0) ∧
      (∀ n : bstnode K, ordered cmp n ↔ (inorder n).Pairwise (fun a b => cmp a b < 0)) := by
  have hord := (created_reachable hcreate hreach).2.2.2.2 hlaw hclone i d hd
  have hp := (ordered_iff_pairwise cmp hlaw d.root).1 hord
  exact ⟨hord, hp, hp.imp (fun h => by omega), ordered_iff_pairwise cmp hlaw⟩

/-- Witness of C3 on integer keys: bucket 1 of the table holding 5, 1, 9. -/
theorem C3_bst_ordering_invariant_witness :
    ordered int_compare (bstnode.mk 5 none (leaf 1) (leaf 9)) ∧
      (inorder (bstnode.mk 5 none (leaf 1) (leaf 9))).Pairwise
        (fun a b => int_compare a b < 0) ∧
      (inorder (bstnode.mk 5 none (leaf 1) (leaf 9))).Pairwise
        (fun a b => int_compare a b ≠ 0) ∧
      (∀ n : bstnode Int,
        ordered int_compare n ↔ (inorder n).Pairwise (fun a b => int_compare a b < 0)) :=
  C3_bst_ordering_invariant (fun k => k) int_hash 2 int_compare (fun _ => ())
    (fun k => toString k) int_t0 int_t3 int_table_two int_t3_reachable int_compare_lawful
    (fun k => by simp [int_compare]) 1 ⟨bstnode.mk 5 none (leaf 1) (leaf 9)⟩ rfl

/-- C4 (removal deletes exactly the requested key).  In a table reachable from
`ht_create` (lawful comparator, clone comparing equal to its original), if a key
stored in bucket `hash(k, w)` compares equal to `k`, then `ht_remove t k` returns
`HT_SUCCESS`, and the in-order key list of that bucket afterwards is the previous
list `pre ++ s :: post` with its single entry `s` comparing equal to `k` deleted:
it is `pre ++ post`, every other key kept in the same relative order, none of
them comparing equal to `k`.  The statement covers the three shapes of the
target (no left child, no right child, two children). -/
theorem C4_remove_deletes_exactly {K : Type} (clone : K → K) (hash : K → Int → Int)
    (w : Int) (cmp : K → K → Int) (destroy : K → Unit) (print : K → String)
    (t0 t : hashtable K)
    (hcreate : ht_create clone hash w cmp destroy print = some t0)
    (hreach : Reachable t0 t) (hlaw : LawfulCompare cmp)
    (hclone : ∀ k, cmp (clone k) k = 0) (k : K) (d : bst K)
    (hd : table_get t.table (hash k w) = some (some d))
    (x : K) (hx : x ∈ inorder d.root) (hxk : cmp x k = 0) :
    ∃ t1 calls d1, ht_remove t k = some (HT_SUCCESS, t1, calls) ∧
      table_get t1.table (hash k w) = some (some d1) ∧
      ∃ pre s post, inorder d.root = pre ++ s :: post ∧ cmp s k = 0 ∧
        inorder d1.root = pre ++ post ∧ (∀ y ∈ pre ++ post, cmp y k ≠ 0) ∧
        calls = [Call.key_destroy s] := by
  obtain ⟨e1, e2, _, e4, hinv0⟩ := created_reachable hcreate hreach
  have hinv := hinv0 hlaw hclone
  clear hinv0
  subst e1 e2 e4
  have hord := hinv _ d hd
  obtain ⟨s, hl⟩ := lookup_of_mem k _ hlaw d.root hord x hx hxk
  have hb := table_get_some hd
  have hsym : ∀ a b, t.key_compare a b = 0 → t.key_compare b a = 0 := fun a b => hlaw.eq_symm
  have h1 : ht_remove t k = some (HT_SUCCESS,
      { t with table := table_set t.table (t.hash_func k t.hash_length)
                  (some ⟨remove_desc k t.key_compare d.root⟩) },
      [Call.key_destroy s]) := by
    rw [ht_remove_eq t k hsym, hd]
    simp only [slot_root_some]
    rw [hl]
  obtain ⟨pre, post, f1, f2, f3, f4⟩ := remove_desc_spec k _ hlaw d.root hord s hl
  exact ⟨_, _, _, h1, table_get_set_same _ _ _ hb.1 hb.2, pre, s, post, f1, f3, f2, f4, rfl⟩

/-- Witness of C4 on integer keys: 5, a node with two children, removed from the
table holding 5, 1, 9. -/
theorem C4_remove_deletes_exactly_witness :
    ∃ t1 calls d1, ht_remove int_t3 5 = some (HT_SUCCESS, t1, calls) ∧
      table_get t1.table (int_hash 5 2) = some (some d1) ∧
      ∃ pre s post, inorder (bstnode.mk 5 none (leaf 1) (leaf 9)) = pre ++ s :: post ∧
        int_compare s 5 = 0 ∧
        inorder d1.root = pre ++ post ∧ (∀ y ∈ pre ++ post, int_compare y 5 ≠ 0) ∧
        calls = [Call.key_destroy s] :=
  C4_remove_deletes_exactly (fun k => k) int_hash 2 int_compare (fun _ => ())
    (fun k => toString k) int_t0 int_t3 int_table_two int_t3_reachable int_compare_lawful
    (fun k => by simp [int_compare]) 5 ⟨bstnode.mk 5 none (leaf 1) (leaf 9)⟩ rfl 5
    (by simp [inorder, leaf]) (by simp [int_compare])

/-- C5 (insertion adds exactly the requested key).  In a table reachable from
`ht_create` (lawful comparator, clone comparing equal to its original), if bucket
`hash(k, w)` exists and holds no key comparing equal to `k`, then `ht_insert t k`
returns `HT_SUCCESS`, making the single call `key_clone(k)`, and the in-order key
list of that bucket afterwards is the previous list `pre ++ post` with `clone(k)`
inserted at its sorted position, `pre ++ clone(k) :: post`: every key of `pre`
compares below `clone(k)`, every key of `post` above, the length grows by one and
every previous key is kept. -/
theorem C5_insert_adds_exactly {K : Type} (clone : K → K) (hash : K → Int → Int)
    (w : Int) (cmp : K → K → Int) (destroy : K → Unit) (print : K → String)
    (t0 t : hashtable K)
    (hcreate : ht_create clone hash w cmp destroy print = some t0)
    (hreach : Reachable t0 t) (hlaw : LawfulCompare cmp)
    (hclone : ∀ k, cmp (clone k) k = 0) (k : K) (slot : Option (bst K))
    (hslot : table_get t.table (hash k w) = some slot)
    (hnew : ∀ x ∈ bucket_keys slot, cmp x k ≠ 0) :
    ∃ t1 d1, ht_insert t k = some (HT_SUCCESS, t1, [Call.key_clone k (clone k)]) ∧
      table_get t1.table (hash k w) = some (some d1) ∧
      ∃ pre post, bucket_keys slot = pre ++ post ∧
        inorder d1.root = pre ++ clone k :: post ∧
        (∀ x ∈ pre, cmp x (clone k) < 0) ∧ (∀ x ∈ post, cmp (clone k) x < 0) ∧
        (inorder d1.root).length = (bucket_keys slot).length + 1 := by
  obtain ⟨e1, e2, e3, e4, hinv0⟩ := created_reachable hcreate hreach
  have hinv := hinv0 hlaw hclone
  clear hinv0
  subst e1 e2 e3 e4
  have hkeys : bucket_keys slot = inorder (slot_root slot) := by cases slot <;> rfl
  have hord : ordered t.key_compare (slot_root slot) := by
    cases slot with
    | none => trivial
    | some d => exact hinv _ d hslot
  rw [hkeys] at hnew ⊢
  have hl := lookup_eq_none_of_forall k t.key_compare _ hnew
  have hb := table_get_some hslot
  have h1 : ht_insert t k = some (HT_SUCCESS,
      { t with table := table_set t.table (t.hash_func k t.hash_length)
                  (some ⟨insert_desc k t.key_compare t.key_clone (slot_root slot)⟩) },
      [Call.key_clone k (t.key_clone k)]) := by
    rw [ht_insert_eq t k, hslot]
    simp only []
    rw [hl]
  obtain ⟨pre, post, f1, f2, f3⟩ := insert_desc_inorder k t.key_compare t.key_clone _ hl
  obtain ⟨g1, g2⟩ := f3 hlaw hord
  refine ⟨_, _, h1, table_get_set_same _ _ _ hb.1 hb.2, pre, post, f1, f2, ?_, ?_, ?_⟩
  · intro x hx
    exact hlaw.lt_of_lt_of_le (g1 x hx) (Int.le_of_eq (hlaw.eq_symm (hclone k)))
  · intro x hx
    exact hlaw.lt_of_le_of_lt (Int.le_of_eq (hclone k)) (g2 x hx)
  · rw [f2, f1]
    simp only [List.length_append, List.length_cons]
    omega

/-- Witness of C5 on integer keys: 13 inserted into the table holding 5, 1, 9. -/
theorem C5_insert_adds_exactly_witness :
    ∃ t1 d1, ht_insert int_t3 13 = some (HT_SUCCESS, t1, [Call.key_clone 13 13]) ∧
      table_get t1.table (int_hash 13 2) = some (some d1) ∧
      ∃ pre post,
        bucket_keys (some ⟨bstnode.mk 5 none (leaf 1) (leaf 9)⟩) = pre ++ post ∧
        inorder d1.root = pre ++ (13 : Int) :: post ∧
        (∀ x ∈ pre, int_compare x 13 < 0) ∧ (∀ x ∈ post, int_compare 13 x < 0) ∧
        (inorder d1.root).length =
          (bucket_keys (some ⟨bstnode.mk 5 none (leaf 1) (leaf 9)⟩)).length + 1 :=
  C5_insert_adds_exactly (fun k => k) int_hash 2 int_compare (fun _ => ())
    (fun k => toString k) int_t0 int_t3 int_table_two int_t3_reachable int_compare_lawful
    (fun k => by simp [int_compare]) 13 (some ⟨bstnode.mk 5 none (leaf 1) (leaf 9)⟩) rfl
    (by simp [bucket_keys, inorder, leaf, int_compare])

/-- C7 (removing an absent key).  For every table (reachable or not) and every key
`k` such that bucket `hash(k, w)` is absent, or present without any key comparing
equal to `k`, `ht_remove t k` returns `HT_NOT_STORED`, makes no call of
`key_destroy`, and the table afterwards is the table before the call; in
particular an absent bucket stays absent. -/
theorem C7_remove_absent {K : Type} (t : hashtable K) (k : K) (slot : Option (bst K))
    (hslot : table_get t.table (t.hash_func k t.hash_length) = some slot)
    (habs : slot = none ∨
      ∃ d, slot = some d ∧ ∀ x ∈ inorder d.root, t.key_compare x k ≠ 0) :
    ht_remove t k = some (HT_NOT_STORED, t, []) ∧
      table_get t.table (t.hash_func k t.hash_length) = some slot := by
  refine ⟨?_, hslot⟩
  unfold ht_remove
  dsimp only
  rw [hslot]
  rcases habs with rfl | ⟨d, rfl, hd⟩
  · rfl
  · have hl := lookup_eq_none_of_forall k t.key_compare d.root hd
    simp only [bst_lookup]
    rw [hl]

/-- Witness of C7 on integer keys: 42 removed from the table holding 5, 1, 9 hits
the absent bucket 2. -/
theorem C7_remove_absent_witness :
    ht_remove int_t3 42 = some (HT_NOT_STORED, int_t3, []) ∧
      table_get int_t3.table (int_t3.hash_func 42 int_t3.hash_length) = some none :=
  C7_remove_absent int_t3 42 none rfl (Or.inl rfl)

/-! ## Claim C8: the bucket array made by `ht_create` -/

theorem int32_id {x : Int} (h0 : -2147483648 ≤ x) (h1 : x < 2147483648) : int32 x = x := by
  unfold int32
  omega

theorem ht_create_loop_pow (n : Nat) :
    ∀ x : Int, 0 ≤ x → x * 2 ^ n < 2147483648 → ht_create.loop n x = x * 2 ^ n := by
  induction n with
  | zero => intro x _ _; simp [ht_create.loop]
  | succ n ih =>
      intro x h0 h1
      have hp : (0 : Int) < 2 ^ n := by positivity
      have e : x * 2 ^ (n + 1) = x * 2 * 2 ^ n := by ring
      have h2 : x * 2 < 2147483648 := by nlinarith
      simp only [ht_create.loop]
      rw [int32_id (by omega) h2, ih (x * 2) (by omega) (by rw [← e]; exact h1), e]

theorem ht_create_length {w : Int} (h0 : 0 < w) (h1 : w ≤ 30) :
    ht_create.loop (w - 1).toNat 2 = 2 ^ w.toNat := by
  have e : w.toNat = (w - 1).toNat + 1 := by omega
  have hle : (w - 1).toNat ≤ 29 := by omega
  have hp : (2 : Int) ^ (w - 1).toNat ≤ 2 ^ 29 := pow_le_pow_right₀ (by norm_num) hle
  rw [ht_create_loop_pow _ 2 (by norm_num) (by norm_num at hp ⊢; omega), e]
  ring

/-- C8 as amended (bucket array of `ht_create`).  For every `hash_bit_width` with
`0 < hash_bit_width ≤ 30`, `ht_create` returns a table whose `ht_length`, the C
`int` obtained by starting at 2 and doubling `hash_length - 1` times, equals
`2^hash_bit_width`, whose stored `hash_length` equals `hash_bit_width`, and whose
bucket array consists of exactly `ht_length` slots, all absent. -/
theorem C8_create_length {K : Type} (clone : K → K) (hash : K → Int → Int) (w : Int)
    (cmp : K → K → Int) (destroy : K → Unit) (print : K → String)
    (h0 : 0 < w) (h1 : w ≤ 30) :
    ∃ t, ht_create clone hash w cmp destroy print = some t ∧
      t.ht_length = 2 ^ w.toNat ∧ t.hash_length = w ∧
      t.table = List.replicate (2 ^ w.toNat) none ∧
      (t.table.length : Int) = t.ht_length ∧ ∀ slot ∈ t.table, slot = none := by
  have hl := ht_create_length h0 h1
  have hn : ((2 : Int) ^ w.toNat).toNat = 2 ^ w.toNat := by
    have : ((2 : Int) ^ w.toNat) = (((2 : Nat) ^ w.toNat : Nat) : Int) := by push_cast; rfl
    rw [this, Int.toNat_ofNat]
  have hc : ht_create clone hash w cmp destroy print = some
      { hash_length := w
        ht_length := ht_create.loop (w - 1).toNat 2
        hash_func := hash
        key_clone := clone
        key_compare := cmp
        key_destroy := destroy
        key_print := print
        table := List.replicate (ht_create.loop (w - 1).toNat 2).toNat none } := by
    simp only [ht_create, h0, if_true]
  refine ⟨_, hc, hl, rfl, ?_, ?_, ?_⟩
  · simp only [hl, hn]
  · simp only [hl, hn, List.length_replicate]
    push_cast
    rfl
  · intro slot hs
    exact (List.mem_replicate.1 hs).2

/-- Witness of C8 (amended) on integer keys with 2 bits: 4 absent buckets. -/
theorem C8_create_length_witness :
    ∃ t, int_table 2 = some t ∧
      t.ht_length = 2 ^ (2 : Int).toNat ∧ t.hash_length = 2 ∧
      t.table = List.replicate (2 ^ (2 : Int).toNat) none ∧
      (t.table.length : Int) = t.ht_length ∧ ∀ slot ∈ t.table, slot = none :=
  C8_create_length (fun k => k) int_hash 2 int_compare (fun _ => ()) (fun k => toString k)
    (by decide) (by decide)

theorem ht_create_loop_30 : ht_create.loop 30 2 = -2147483648 := by
  norm_num [ht_create.loop, int32]

theorem int_table_31 : int_table 31 = some int_t31 := by
  have e : ((31 : Int) - 1).toNat = 30 := rfl
  simp only [int_table, ht_create, e, ht_create_loop_30]
  rfl

/-- Counterexample to C8 as stated: with `hash_bit_width = 31 > 0` the doubling
overflows the C `int`; `ht_create` returns a table whose `ht_length` is
`-2147483648`, not `2^31`, and whose bucket array has no slot. -/
theorem C8_create_length_counterexample :
    (0 : Int) < 31 ∧
      ∃ t, int_table 31 = some t ∧ t.hash_length = 31 ∧ t.ht_length = -2147483648 ∧
        t.ht_length ≠ 2 ^ 31 ∧ t.table = [] :=
  ⟨by decide, int_t31, int_table_31, rfl, rfl, by simp [int_t31], rfl⟩

/-! ## Claim C10: the text of `ht_print` -/

theorem table_get_nat {K : Type} (table : List (Option (bst K))) (i : Nat) :
    table_get table (i : Int) = table[i]? := by
  simp [table_get]

theorem string_join_cons (a : String) (l : List String) :
    String.join (a :: l) = a ++ String.join l := by
  apply String.ext
  simp

theorem bucket_line_set {K : Type} (key_print : K → String) (table : List (Option (bst K)))
    (i j : Nat) (v : Option (bst K)) (h : i ≠ j) :
    bucket_line key_print (table.set i v) j = bucket_line key_print table j := by
  simp [bucket_line, List.getElem?_set_ne h]

theorem ht_print_loop_eq {K : Type} (key_print : K → String) (n : Nat) :
    ∀ (i : Nat) (table : List (Option (bst K))) (out : String), i + n ≤ table.length →
      ∃ table1, ht_print.loop key_print n (i : Int) table out =
          some (table1,
            out ++ String.join ((List.range' i n).map (bucket_line key_print table))) ∧
        table1.length = table.length := by
  induction n with
  | zero => intro i table out _; exact ⟨table, by simp [ht_print.loop, String.join], rfl⟩
  | succ n ih =>
      intro i table out hlen
      have hi : i < table.length := by omega
      have hget : table_get table (i : Int) = some table[i] := by
        rw [table_get_nat, List.getElem?_eq_getElem hi]
      have hcast : ((i : Int) + 1) = ((i + 1 : Nat) : Int) := by push_cast; rfl
      simp only [ht_print.loop, hget, List.range'_succ, List.map_cons, string_join_cons]
      cases hs : table[i] with
      | none =>
          simp only []
          rw [hcast]
          obtain ⟨table1, h1, h2⟩ := ih (i + 1) table
            (out ++ printf_d i ++ ": " ++ "[" ++ "]\n") (by omega)
          refine ⟨table1, ?_, h2⟩
          rw [h1]
          have hl : bucket_line key_print table i = printf_d i ++ ": [" ++ "" ++ "]\n" := by
            simp [bucket_line, List.getElem?_eq_getElem hi, hs, bucket_text]
          rw [hl]
          congr 2
          apply String.ext
          simp [String.data_append]
      | some d =>
          simp only []
          rw [hcast]
          obtain ⟨table1, h1, h2⟩ := ih (i + 1)
            (table_set table i (some (bst_print d key_print).1))
            (out ++ printf_d i ++ ": " ++ "[" ++ (bst_print d key_print).2 ++ "]\n")
            (by simp [table_set]; omega)
          refine ⟨table1, ?_, by rw [h2]; simp [table_set]⟩
          rw [h1]
          have hl : bucket_line key_print table i =
              printf_d i ++ ": [" ++ (bst_print d key_print).2 ++ "]\n" := by
            simp [bucket_line, List.getElem?_eq_getElem hi, hs, bucket_text]
          have hm : (List.range' (i + 1) n).map
                (bucket_line key_print (table_set table i (some (bst_print d key_print).1))) =
              (List.range' (i + 1) n).map (bucket_line key_print table) := by
            apply List.map_congr_left
            intro j hj
            have := (List.mem_range'_1.1 hj).1
            simp only [table_set, Int.toNat_ofNat]
            exact bucket_line_set key_print table i j _ (by omega)
          rw [hl, hm]
          congr 2
          apply String.ext
          simp [String.data_append]

theorem ite_ne_of {c : Prop} [Decidable c] {a b x : Char} (ha : a ≠ x) (hb : b ≠ x) :
    (if c then a else b) ≠ x := by
  split <;> assumption

theorem digitChar_ne_newline (n : Nat) : Nat.digitChar n ≠ '\n' := by
  unfold Nat.digitChar
  iterate 16 refine ite_ne_of (by decide) ?_
  decide

theorem toDigitsCore_no_newline (fuel : Nat) :
    ∀ (n : Nat) (ds : List Char), '\n' ∉ ds → '\n' ∉ Nat.toDigitsCore 10 fuel n ds := by
  induction fuel with
  | zero => intro n ds h; simpa [Nat.toDigitsCore] using h
  | succ fuel ih =>
      intro n ds h
      have hd : '\n' ∉ Nat.digitChar (n % 10) :: ds := by
        simp only [List.mem_cons, not_or]
        exact ⟨fun e => digitChar_ne_newline _ e.symm, h⟩
      simp only [Nat.toDigitsCore]
      split
      · exact hd
      · exact ih _ _ hd

theorem nat_repr_no_newline (n : Nat) : '\n' ∉ (Nat.repr n).data := by
  simp only [Nat.repr, Nat.toDigits, List.asString]
  exact toDigitsCore_no_newline _ _ _ (by simp)

theorem printf_d_no_newline (i : Int) : '\n' ∉ (printf_d i).data := by
  cases i with
  | ofNat m => exact nat_repr_no_newline m
  | negSucc m =>
      show '\n' ∉ ("-" ++ Nat.repr (Nat.succ m)).data
      simp only [String.data_append, List.mem_append, not_or]
      exact ⟨by decide, nat_repr_no_newline _⟩

theorem bstnodes_print_no_newline {K : Type} (key_print : K → String)
    (hkp : ∀ k, '\n' ∉ (key_print k).data) (node : bstnode K) :
    ∀ (first : Bool) (counter : Int),
      '\n' ∉ (bstnodes_print key_print node first counter).2.2.data := by
  induction node with
  | NULL => intro first counter; simp [bstnodes_print]
  | mk k lv l r ihl ihr =>
      intro first counter
      simp only [bstnodes_print, bstnode_print, String.data_append, List.mem_append, not_or]
      refine ⟨⟨ihl _ _, ⟨⟨⟨?_, printf_d_no_newline _⟩, by decide⟩, hkp k⟩⟩, ihr _ _⟩
      split <;> decide

theorem bucket_line_count {K : Type} (key_print : K → String)
    (hkp : ∀ k, '\n' ∉ (key_print k).data) (table : List (Option (bst K))) (i : Nat) :
    (bucket_line key_print table i).data.count '\n' = 1 := by
  have h1 : (printf_d (i : Int)).data.count '\n' = 0 :=
    List.count_eq_zero.2 (printf_d_no_newline _)
  have h2 : (bucket_text key_print (table[i]?.getD none)).data.count '\n' = 0 := by
    apply List.count_eq_zero.2
    cases table[i]?.getD none with
    | none => simp [bucket_text]
    | some d => exact bstnodes_print_no_newline key_print hkp _ _ _
  simp only [bucket_line, String.data_append, List.count_append, h1, h2]
  decide

theorem lines_count (line : Nat → String) (h : ∀ i, (line i).data.count '\n' = 1)
    (l : List Nat) : (String.join (l.map line)).data.count '\n' = l.length := by
  induction l with
  | nil => simp [String.join]
  | cons a l ih =>
      rw [List.map_cons, string_join_cons, String.data_append, List.count_append, h a, ih,
        List.length_cons]
      omega

/-- C10 (bucket coverage of print).  For every table whose bucket array has
`L = 2^bit_width` slots, `ht_print` returns, and the text it emits is the
concatenation, for `i = 0, 1, ..., L-1` in that order, of the decimal index `i`,
the string `": ["`, the output of `bst_print` for bucket `i` (empty when the
bucket is absent or its tree is empty) and `"]"` with a newline; hence, when
`key_print` emits no newline, exactly `2^bit_width` newlines, that is lines, are
printed, whatever the occupancy. -/
theorem C10_print_coverage {K : Type} (t : hashtable K) (w : Nat)
    (hlen : t.ht_length = 2 ^ w) (htab : t.table.length = 2 ^ w) :
    ∃ t1 out, ht_print t = some (t1, out) ∧
      out = String.join ((List.range (2 ^ w)).map fun (i : Nat) =>
        printf_d (i : Int) ++ ": [" ++ bucket_text t.key_print (t.table[i]?.getD none) ++ "]\n") ∧
      bucket_text t.key_print none = "" ∧
      bucket_text t.key_print (some ⟨bstnode.NULL⟩) = "" ∧
      ((∀ k, '\n' ∉ (t.key_print k).data) → out.data.count '\n' = 2 ^ w) := by
  have hn : t.ht_length.toNat = 2 ^ w := by
    have : ((2 : Int) ^ w) = (((2 : Nat) ^ w : Nat) : Int) := by push_cast; rfl
    rw [hlen, this, Int.toNat_ofNat]
  obtain ⟨table1, h1, _⟩ := ht_print_loop_eq t.key_print (2 ^ w) 0 t.table "" (by omega)
  have hout : ("" : String) ++
      String.join ((List.range' 0 (2 ^ w)).map (bucket_line t.key_print t.table)) =
      String.join ((List.range (2 ^ w)).map (bucket_line t.key_print t.table)) := by
    rw [List.range_eq_range']
    apply String.ext
    simp
  refine ⟨{ t with table := table1 }, _, ?_, rfl, rfl, rfl, ?_⟩
  · unfold ht_print
    rw [hn]
    have h0 : ((0 : Nat) : Int) = 0 := rfl
    rw [h0] at h1
    rw [h1, hout]
    rfl
  · intro hkp
    have := lines_count (bucket_line t.key_print t.table)
      (bucket_line_count t.key_print hkp t.table) (List.range (2 ^ w))
    rw [List.length_range] at this
    exact this

/-- Witness of C10 on integer keys: the table holding 5, 1, 9 prints 4 lines. -/
theorem C10_print_coverage_witness :
    ∃ t1 out, ht_print int_t3 = some (t1, out) ∧
      out = String.join ((List.range (2 ^ 2)).map fun (i : Nat) =>
        printf_d (i : Int) ++ ": [" ++
          bucket_text int_t3.key_print (int_t3.table[i]?.getD none) ++ "]\n") ∧
      bucket_text int_t3.key_print none = "" ∧
      bucket_text int_t3.key_print (some ⟨bstnode.NULL⟩) = "" ∧
      ((∀ k, '\n' ∉ (int_t3.key_print k).data) → out.data.count '\n' = 2 ^ 2) :=
  C10_print_coverage int_t3 2 rfl rfl

/-! ## Claim C9: the trace of `key_clone` and `key_destroy` calls -/

theorem cloned_append {K : Type} (a b : List (Call K)) :
    cloned (a ++ b) = cloned a ++ cloned b := by
  induction a with
  | nil => rfl
  | cons c cs ih => cases c <;> simp [cloned, ih]

theorem destroyed_append {K : Type} (a b : List (Call K)) :
    destroyed (a ++ b) = destroyed a ++ destroyed b := by
  induction a with
  | nil => rfl
  | cons c cs ih => cases c <;> simp [destroyed, ih]

theorem free_bstnode_spec {K : Type} (t : bstnode K) :
    cloned (free_bstnode t) = [] ∧ (destroyed (free_bstnode t)).Perm (inorder t) ∧
      free_bstnode t = (destroyed (free_bstnode t)).map Call.key_destroy := by
  induction t with
  | NULL => simp [free_bstnode, cloned, destroyed, inorder]
  | mk k lv l r ihl ihr =>
      obtain ⟨l1, l2, l3⟩ := ihl
      obtain ⟨r1, r2, r3⟩ := ihr
      refine ⟨by simp [free_bstnode, cloned_append, l1, r1, cloned], ?_, ?_⟩
      · simp only [free_bstnode, destroyed_append, destroyed, inorder, List.append_assoc]
        refine List.Perm.append l2 ?_
        exact (List.perm_append_comm).trans (List.Perm.cons k r2)
      · simp only [free_bstnode, destroyed_append, destroyed, List.map_append, List.map_cons,
          List.map_nil]
        rw [← l3, ← r3]

theorem table_keys_append {K : Type} (a b : List (Option (bst K))) :
    table_keys (a ++ b) = table_keys a ++ table_keys b := by
  simp [table_keys]

theorem table_keys_cons {K : Type} (x : Option (bst K)) (b : List (Option (bst K))) :
    table_keys (x :: b) = bucket_keys x ++ table_keys b := by
  simp [table_keys]

theorem table_keys_set {K : Type} (table : List (Option (bst K))) (i : Int)
    (slot v : Option (bst K)) (h : table_get table i = some slot) :
    ∃ before after, table_keys table = before ++ bucket_keys slot ++ after ∧
      table_keys (table_set table i v) = before ++ bucket_keys v ++ after := by
  have hb := table_get_some h
  have hs : table[i.toNat]? = some slot := by
    unfold table_get at h
    simpa [hb.1] using h
  have hslot : table[i.toNat] = slot := by
    rw [List.getElem?_eq_getElem hb.2] at hs
    exact Option.some.inj hs
  refine ⟨table_keys (table.take i.toNat), table_keys (table.drop (i.toNat + 1)), ?_, ?_⟩
  · conv_lhs => rw [← List.take_append_drop i.toNat table, List.drop_eq_getElem_cons hb.2]
    rw [table_keys_append, table_keys_cons, hslot, List.append_assoc]
  · unfold table_set
    rw [List.set_eq_take_append_cons_drop, if_pos hb.2, table_keys_append, table_keys_cons,
      List.append_assoc]

theorem ht_insert_keys {K : Type} {t t1 : hashtable K} {k : K} {code : Int}
    {calls : List (Call K)} (h : ht_insert t k = some (code, t1, calls)) :
    (code = HT_SUCCESS ∧ calls = [Call.key_clone k (t.key_clone k)] ∧
        (table_keys t1.table).Perm (t.key_clone k :: table_keys t.table)) ∨
      (code = HT_ALREADY_STORED ∧ calls = [] ∧ t1 = t) := by
  rw [ht_insert_eq] at h
  cases hg : table_get t.table (t.hash_func k t.hash_length) with
  | none => simp [hg] at h
  | some slot =>
      simp only [hg] at h
      cases hl : bst_lookup.loop k t.key_compare (slot_root slot) with
      | some s =>
          simp only [hl, Option.some.injEq, Prod.mk.injEq] at h
          exact Or.inr ⟨h.1.symm, h.2.2.symm, h.2.1.symm⟩
      | none =>
          simp only [hl, Option.some.injEq, Prod.mk.injEq] at h
          obtain ⟨rfl, rfl, rfl⟩ := h
          refine Or.inl ⟨rfl, rfl, ?_⟩
          obtain ⟨before, after, e1, e2⟩ := table_keys_set t.table _ slot
            (some ⟨insert_desc k t.key_compare t.key_clone (slot_root slot)⟩) hg
          obtain ⟨pre, post, f1, f2, _⟩ :=
            insert_desc_inorder k t.key_compare t.key_clone (slot_root slot) hl
          have hk : bucket_keys slot = inorder (slot_root slot) := by cases slot <;> rfl
          have hv : bucket_keys
              (some ⟨insert_desc k t.key_compare t.key_clone (slot_root slot)⟩) =
              pre ++ t.key_clone k :: post := f2
          show (table_keys (table_set t.table _ _)).Perm _
          rw [e2, e1, hk, f1, hv]
          have := @List.perm_middle K (t.key_clone k) (before ++ pre) (post ++ after)
          simpa [List.append_assoc] using this

theorem ht_remove_keys {K : Type} {t t1 : hashtable K} {k : K} {code : Int}
    {calls : List (Call K)}
    (hsym : ∀ a b, t.key_compare a b = 0 → t.key_compare b a = 0)
    (h : ht_remove t k = some (code, t1, calls)) :
    (code = HT_SUCCESS ∧ ∃ s, calls = [Call.key_destroy s] ∧
        (table_keys t.table).Perm (s :: table_keys t1.table)) ∨
      (code = HT_NOT_STORED ∧ calls = [] ∧ t1 = t) := by
  rw [ht_remove_eq t k hsym] at h
  cases hg : table_get t.table (t.hash_func k t.hash_length) with
  | none => simp [hg] at h
  | some slot =>
      simp only [hg] at h
      cases hl : bst_lookup.loop k t.key_compare (slot_root slot) with
      | none =>
          simp only [hl, Option.some.injEq, Prod.mk.injEq] at h
          exact Or.inr ⟨h.1.symm, h.2.2.symm, h.2.1.symm⟩
      | some s =>
          simp only [hl, Option.some.injEq, Prod.mk.injEq] at h
          obtain ⟨rfl, rfl, rfl⟩ := h
          refine Or.inl ⟨rfl, s, rfl, ?_⟩
          obtain ⟨before, after, e1, e2⟩ := table_keys_set t.table _ slot
            (some ⟨remove_desc k t.key_compare (slot_root slot)⟩) hg
          obtain ⟨pre, post, f1, f2⟩ := remove_desc_some k t.key_compare (slot_root slot) s hl
          have hk : bucket_keys slot = inorder (slot_root slot) := by cases slot <;> rfl
          have hv : bucket_keys (some ⟨remove_desc k t.key_compare (slot_root slot)⟩) =
              pre ++ post := f2
          show (table_keys t.table).Perm (s :: table_keys (table_set t.table _ _))
          rw [e2, e1, hk, f1, hv]
          have := @List.perm_middle K s (before ++ pre) (post ++ after)
          simpa [List.append_assoc] using this

theorem run_trace {K : Type} (ops : List (Op K)) :
    ∀ (t t1 : hashtable K) (codes : List (Op K × Int)) (calls : List (Call K)),
      (∀ a b, t.key_compare a b = 0 → t.key_compare b a = 0) →
      run t ops = some (t1, codes, calls) →
      (table_keys t1.table ++ destroyed calls).Perm (table_keys t.table ++ cloned calls) ∧
        (table_keys t1.table).length + remove_successes codes =
          (table_keys t.table).length + insert_successes codes := by
  induction ops with
  | nil =>
      intro t t1 codes calls _ h
      simp only [run, Option.some.injEq, Prod.mk.injEq] at h
      obtain ⟨rfl, rfl, rfl⟩ := h
      simp [destroyed, cloned, remove_successes, insert_successes]
  | cons op ops ih =>
      intro t t1 codes calls hsym h
      cases op with
      | insert key =>
          simp only [run] at h
          cases hi : ht_insert t key with
          | none => simp [hi] at h
          | some r =>
              obtain ⟨code, t2, calls1⟩ := r
              simp only [hi] at h
              cases hr : run t2 ops with
              | none => simp [hr] at h
              | some r2 =>
                  obtain ⟨t3, codes2, calls2⟩ := r2
                  simp only [hr, Option.some.injEq, Prod.mk.injEq] at h
                  obtain ⟨rfl, rfl, rfl⟩ := h
                  have hs := ht_insert_shape hi
                  obtain ⟨p1, p2⟩ := ih t2 t3 codes2 calls2
                    (by rw [hs.key_compare]; exact hsym) hr
                  rcases ht_insert_keys hi with ⟨rfl, rfl, hp⟩ | ⟨rfl, rfl, rfl⟩
                  · constructor
                    · simp only [destroyed, cloned, List.cons_append, List.nil_append]
                      refine p1.trans ?_
                      refine (hp.append_right _).trans ?_
                      simpa using (@List.perm_middle K (t.key_clone key)
                        (table_keys t.table) (cloned calls2)).symm
                    · have hl := hp.length_eq
                      simp only [List.length_cons] at hl
                      simp only [remove_successes, insert_successes, if_true]
                      omega
                  · constructor
                    · simpa using p1
                    · simp only [remove_successes, insert_successes,
                        if_neg success_ne_already.symm]
                      omega
      | remove key =>
          simp only [run] at h
          cases hi : ht_remove t key with
          | none => simp [hi] at h
          | some r =>
              obtain ⟨code, t2, calls1⟩ := r
              simp only [hi] at h
              cases hr : run t2 ops with
              | none => simp [hr] at h
              | some r2 =>
                  obtain ⟨t3, codes2, calls2⟩ := r2
                  simp only [hr, Option.some.injEq, Prod.mk.injEq] at h
                  obtain ⟨rfl, rfl, rfl⟩ := h
                  have hs := ht_remove_shape hi
                  obtain ⟨p1, p2⟩ := ih t2 t3 codes2 calls2
                    (by rw [hs.key_compare]; exact hsym) hr
                  rcases ht_remove_keys hsym hi with ⟨rfl, s, rfl, hp⟩ | ⟨rfl, rfl, rfl⟩
                  · constructor
                    · simp only [destroyed, cloned, List.cons_append, List.nil_append]
                      have q1 : (table_keys t3.table ++ s :: destroyed calls2).Perm
                          (s :: (table_keys t3.table ++ destroyed calls2)) := List.perm_middle
                      refine q1.trans ?_
                      refine (List.Perm.cons s p1).trans ?_
                      have q2 : (s :: (table_keys t2.table ++ cloned calls2)).Perm
                          (table_keys t.table ++ cloned calls2) := by
                        rw [← List.cons_append]
                        exact hp.symm.append_right _
                      exact q2
                    · have hl := hp.length_eq
                      simp only [List.length_cons] at hl
                      simp only [remove_successes, insert_successes, if_true]
                      omega
                  · constructor
                    · simpa using p1
                    · have hne : ¬ HT_NOT_STORED = HT_SUCCESS := by decide
                      simp only [remove_successes, insert_successes, if_neg hne]
                      omega

theorem run_defined {K : Type} (ops : List (Op K)) :
    ∀ t : hashtable K,
      (∀ k, 0 ≤ t.hash_func k t.hash_length ∧
        (t.hash_func k t.hash_length).toNat < t.table.length) →
      ∃ t1 codes calls, run t ops = some (t1, codes, calls) ∧ SameShape t t1 := by
  induction ops with
  | nil => intro t _; exact ⟨t, [], [], rfl, SameShape.refl t⟩
  | cons op ops ih =>
      intro t hr
      have hget : ∀ k, ∃ slot, table_get t.table (t.hash_func k t.hash_length) = some slot := by
        intro k
        obtain ⟨h0, h1⟩ := hr k
        exact ⟨_, by simp only [table_get, h0, if_true]; exact List.getElem?_eq_getElem h1⟩
      cases op with
      | insert key =>
          obtain ⟨slot, hs⟩ := hget key
          have hsome : ∃ r, ht_insert t key = some r := by
            rw [ht_insert_eq, hs]
            simp only []
            cases bst_lookup.loop key t.key_compare (slot_root slot) <;> exact ⟨_, rfl⟩
          obtain ⟨⟨code, t2, calls1⟩, hi⟩ := hsome
          have hsh := ht_insert_shape hi
          obtain ⟨t3, codes, calls2, h3, hsh3⟩ := ih t2 (by
            intro k
            rw [hsh.hash_func, hsh.hash_length, hsh.length]
            exact hr k)
          exact ⟨t3, (Op.insert key, code) :: codes, calls1 ++ calls2,
            by simp only [run, hi, h3], hsh.trans hsh3⟩
      | remove key =>
          obtain ⟨slot, hs⟩ := hget key
          have hsome : ∃ r, ht_remove t key = some r := by
            unfold ht_remove
            dsimp only
            rw [hs]
            cases slot with
            | none => exact ⟨_, rfl⟩
            | some d =>
                simp only []
                cases bst_lookup key t.key_compare d <;> exact ⟨_, rfl⟩
          obtain ⟨⟨code, t2, calls1⟩, hi⟩ := hsome
          have hsh := ht_remove_shape hi
          obtain ⟨t3, codes, calls2, h3, hsh3⟩ := ih t2 (by
            intro k
            rw [hsh.hash_func, hsh.hash_length, hsh.length]
            exact hr k)
          exact ⟨t3, (Op.remove key, code) :: codes, calls1 ++ calls2,
            by simp only [run, hi, h3], hsh.trans hsh3⟩

theorem ht_destroy_loop_spec {K : Type} (ht : hashtable K) (n : Nat) :
    ∀ i : Nat, i + n ≤ ht.table.length →
      ∃ dcalls, ht_destroy.loop ht n (i : Int) = some dcalls ∧ cloned dcalls = [] ∧
        (destroyed dcalls).Perm (table_keys ((ht.table.drop i).take n)) ∧
        dcalls = (destroyed dcalls).map Call.key_destroy := by
  induction n with
  | zero => intro i _; exact ⟨[], rfl, rfl, by simp [destroyed, table_keys], rfl⟩
  | succ n ih =>
      intro i hlen
      have hi : i < ht.table.length := by omega
      have hget : table_get ht.table (i : Int) = some ht.table[i] := by
        rw [table_get_nat, List.getElem?_eq_getElem hi]
      have hcast : ((i : Int) + 1) = ((i + 1 : Nat) : Int) := by push_cast; rfl
      obtain ⟨rest, h1, h2, h3, h4⟩ := ih (i + 1) (by omega)
      have hdrop : (ht.table.drop i).take (n + 1) =
          ht.table[i] :: (ht.table.drop (i + 1)).take n := by
        rw [List.drop_eq_getElem_cons hi, List.take_succ_cons]
      simp only [ht_destroy.loop, hget, hcast, h1, hdrop, table_keys_cons]
      cases hs : ht.table[i] with
      | none => exact ⟨rest, rfl, h2, by simpa [bucket_keys] using h3, h4⟩
      | some d =>
          obtain ⟨f1, f2, f3⟩ := free_bstnode_spec d.root
          refine ⟨bst_destroy d ++ rest, rfl, ?_, ?_, ?_⟩
          · simp [bst_destroy, cloned_append, f1, h2]
          · simp only [bst_destroy, destroyed_append, bucket_keys]
            exact f2.append h3
          · simp only [bst_destroy, destroyed_append, List.map_append]
            rw [← f3, ← h4]

theorem table_keys_replicate {K : Type} (n : Nat) :
    table_keys (List.replicate n (none : Option (bst K))) = [] := by
  induction n with
  | zero => rfl
  | succ n ih => rw [List.replicate_succ, table_keys_cons, ih]; rfl

theorem ht_destroy_spec {K : Type} (t : hashtable K)
    (hlen : t.ht_length.toNat = t.table.length) :
    ∃ dcalls, ht_destroy t = some dcalls ∧ cloned dcalls = [] ∧
      (destroyed dcalls).Perm (table_keys t.table) ∧
      dcalls = (destroyed dcalls).map Call.key_destroy := by
  obtain ⟨dcalls, h1, h2, h3, h4⟩ := ht_destroy_loop_spec t t.table.length 0 (by omega)
  refine ⟨dcalls, ?_, h2, ?_, h4⟩
  · unfold ht_destroy
    rw [hlen]
    exact h1
  · simpa using h3

/-- C9 (destroy releases every stored key exactly once).  Take a fresh table
(`0 < hash_bit_width ≤ 30`, lawful comparator, hash in range) and any sequence
of `ht_insert` and `ht_remove` calls followed by `ht_destroy`.  The run is
defined, and `ht_destroy` makes only calls of `key_destroy`, one for each key still
stored and no other: the destroyed keys are, as a multiset, the contents of all
buckets.  Their number is the number of `HT_SUCCESS` inserts minus the number of
`HT_SUCCESS` removes, and over the whole run the multiset of keys returned by
`key_clone` equals the multiset of keys passed to `key_destroy`. -/
theorem C9_destroy_releases_once {K : Type} (clone : K → K) (hash : K → Int → Int)
    (w : Int) (cmp : K → K → Int) (destroy : K → Unit) (print : K → String)
    (t0 : hashtable K)
    (hcreate : ht_create clone hash w cmp destroy print = some t0)
    (hw : w ≤ 30) (hlaw : LawfulCompare cmp)
    (hrange : ∀ k, 0 ≤ hash k w ∧ hash k w < 2 ^ w.toNat) (ops : List (Op K)) :
    ∃ t codes calls dcalls, run t0 ops = some (t, codes, calls) ∧
      ht_destroy t = some dcalls ∧
      dcalls = (destroyed dcalls).map Call.key_destroy ∧
      (destroyed dcalls).Perm (table_keys t.table) ∧
      (dcalls.length : Int) = (insert_successes codes : Int) - remove_successes codes ∧
      (cloned (calls ++ dcalls)).Perm (destroyed (calls ++ dcalls)) := by
  obtain ⟨h0, e1, e2, e3, _, e5, _, _, e9⟩ := ht_create_some hcreate
  have hl := ht_create_length h0 hw
  have hpow : ((2 : Int) ^ w.toNat) = (((2 : Nat) ^ w.toNat : Nat) : Int) := by
    push_cast; rfl
  have hlen0 : t0.table.length = 2 ^ w.toNat := by
    rw [e9, List.length_replicate, hl, hpow, Int.toNat_ofNat]
  have hht0 : t0.ht_length.toNat = t0.table.length := by
    rw [e2, hl, hlen0, hpow, Int.toNat_ofNat]
  obtain ⟨t, codes, calls, hrun, hsh⟩ := run_defined ops t0 (by
    intro k
    rw [e3, e1, hlen0]
    obtain ⟨r0, r1⟩ := hrange k
    rw [hpow] at r1
    exact ⟨r0, by omega⟩)
  obtain ⟨p1, p2⟩ := run_trace ops t0 t codes calls
    (by rw [e5]; exact fun a b => hlaw.eq_symm) hrun
  obtain ⟨dcalls, d1, d2, d3, d4⟩ := ht_destroy_spec t (by
    rw [hsh.ht_length, hsh.length]; exact hht0)
  have hk0 : table_keys t0.table = [] := by rw [e9]; exact table_keys_replicate _
  rw [hk0] at p1 p2
  simp only [List.nil_append, List.length_nil, Nat.zero_add] at p1 p2
  refine ⟨t, codes, calls, dcalls, hrun, d1, d4, d3, ?_, ?_⟩
  · have hdl : dcalls.length = (table_keys t.table).length := by
      rw [d4, List.length_map]
      exact d3.length_eq
    omega
  · rw [cloned_append, destroyed_append, d2, List.append_nil]
    refine p1.symm.trans ?_
    exact (List.perm_append_comm).trans (List.Perm.append_left _ d3.symm)

/-- Witness of C9 on integer keys: insert 5, 1, 9, 5 (a duplicate), remove 1 and
42 (absent), then destroy. -/
theorem C9_destroy_releases_once_witness :
    ∃ t codes calls dcalls,
      run int_t0 [Op.insert 5, Op.insert 1, Op.insert 9, Op.insert 5, Op.remove 1,
        Op.remove 42] = some (t, codes, calls) ∧
      ht_destroy t = some dcalls ∧
      dcalls = (destroyed dcalls).map Call.key_destroy ∧
      (destroyed dcalls).Perm (table_keys t.table) ∧
      (dcalls.length : Int) = (insert_successes codes : Int) - remove_successes codes ∧
      (cloned (calls ++ dcalls)).Perm (destroyed (calls ++ dcalls)) :=
  C9_destroy_releases_once (fun k => k) int_hash 2 int_compare (fun _ => ())
    (fun k => toString k) int_t0 int_table_two (by decide) int_compare_lawful
    (fun k => by
      have h4 : (2 : Int) ^ (2 : Int).toNat = 4 := by decide
      rw [h4]
      unfold int_hash
      rw [h4]
      omega) _

/-! ## Claim C6: duplicate insert -/

theorem ht_insert_members {K : Type} {t t1 : hashtable K} {k : K} {code : Int}
    {calls : List (Call K)} (h : ht_insert t k = some (code, t1, calls)) :
    ∀ i d1, table_get t1.table i = some (some d1) → ∀ x ∈ inorder d1.root,
      (x = t.key_clone k ∧ i = t.hash_func k t.hash_length) ∨
        ∃ d, table_get t.table i = some (some d) ∧ x ∈ inorder d.root := by
  rw [ht_insert_eq] at h
  cases hg : table_get t.table (t.hash_func k t.hash_length) with
  | none => simp [hg] at h
  | some slot =>
      simp only [hg] at h
      cases hl : bst_lookup.loop k t.key_compare (slot_root slot) with
      | some s =>
          simp only [hl, Option.some.injEq, Prod.mk.injEq] at h
          obtain ⟨_, rfl, _⟩ := h
          intro i d1 hd1 x hx
          exact Or.inr ⟨d1, hd1, hx⟩
      | none =>
          simp only [hl, Option.some.injEq, Prod.mk.injEq] at h
          obtain ⟨_, rfl, _⟩ := h
          intro i d1 hd1 x hx
          have hb := table_get_some hg
          by_cases hi : i = t.hash_func k t.hash_length
          · subst hi
            rw [table_get_set_same _ _ _ hb.1 hb.2] at hd1
            simp only [Option.some.injEq] at hd1
            subst hd1
            obtain ⟨pre, post, f1, f2, _⟩ :=
              insert_desc_inorder k t.key_compare t.key_clone (slot_root slot) hl
            have hx2 : x ∈ pre ++ t.key_clone k :: post := f2 ▸ hx
            simp only [List.mem_append, List.mem_cons] at hx2
            have hold : x ∈ pre ++ post → ∃ d, table_get t.table
                (t.hash_func k t.hash_length) = some (some d) ∧ x ∈ inorder d.root := by
              intro hm
              rw [← f1] at hm
              cases slot with
              | none => simp [slot_root, inorder] at hm
              | some d => exact ⟨d, hg, hm⟩
            rcases hx2 with hx2 | rfl | hx2
            · exact Or.inr (hold (List.mem_append_left _ hx2))
            · exact Or.inl ⟨rfl, rfl⟩
            · exact Or.inr (hold (List.mem_append_right _ hx2))
          · rw [table_get_set_ne _ _ _ _ hb.1 hi] at hd1
            exact Or.inr ⟨d1, hd1, hx⟩

theorem ht_remove_members {K : Type} {t t1 : hashtable K} {k : K} {code : Int}
    {calls : List (Call K)}
    (hsym : ∀ a b, t.key_compare a b = 0 → t.key_compare b a = 0)
    (h : ht_remove t k = some (code, t1, calls)) :
    ∀ i d1, table_get t1.table i = some (some d1) → ∀ x ∈ inorder d1.root,
      ∃ d, table_get t.table i = some (some d) ∧ x ∈ inorder d.root := by
  rw [ht_remove_eq t k hsym] at h
  cases hg : table_get t.table (t.hash_func k t.hash_length) with
  | none => simp [hg] at h
  | some slot =>
      simp only [hg] at h
      cases hl : bst_lookup.loop k t.key_compare (slot_root slot) with
      | none =>
          simp only [hl, Option.some.injEq, Prod.mk.injEq] at h
          obtain ⟨_, rfl, _⟩ := h
          intro i d1 hd1 x hx
          exact ⟨d1, hd1, hx⟩
      | some s =>
          simp only [hl, Option.some.injEq, Prod.mk.injEq] at h
          obtain ⟨_, rfl, _⟩ := h
          intro i d1 hd1 x hx
          have hb := table_get_some hg
          by_cases hi : i = t.hash_func k t.hash_length
          · subst hi
            rw [table_get_set_same _ _ _ hb.1 hb.2] at hd1
            simp only [Option.some.injEq] at hd1
            subst hd1
            obtain ⟨pre, post, f1, f2⟩ :=
              remove_desc_some k t.key_compare (slot_root slot) s hl
            have hx2 : x ∈ pre ++ post := f2 ▸ hx
            have hm : x ∈ inorder (slot_root slot) := by
              rw [f1]
              simp only [List.mem_append, List.mem_cons] at hx2 ⊢
              rcases hx2 with hx2 | hx2
              · exact Or.inl hx2
              · exact Or.inr (Or.inr hx2)
            cases slot with
            | none => simp [slot_root, inorder] at hm
            | some d => exact ⟨d, hg, hm⟩
          · rw [table_get_set_ne _ _ _ _ hb.1 hi] at hd1
            exact ⟨d1, hd1, hx⟩

/-- In a table reachable from a fresh one, when the hash of a clone is the hash
of its original, every key stored in bucket `i` has hash `i`. -/
theorem reachable_own_bucket {K : Type} {clone : K → K} {hash : K → Int → Int} {w : Int}
    {cmp : K → K → Int} {destroy : K → Unit} {print : K → String} {t0 t : hashtable K}
    (hcreate : ht_create clone hash w cmp destroy print = some t0)
    (hreach : Reachable t0 t) (hlaw : LawfulCompare cmp)
    (hhash : ∀ k, hash (clone k) w = hash k w) :
    ∀ i d, table_get t.table i = some (some d) → ∀ x ∈ inorder d.root, hash x w = i := by
  obtain ⟨_, h1, _, h2, h3, h4, _, _, h5⟩ := ht_create_some hcreate
  induction hreach with
  | start =>
      intro i d hd
      rw [h5] at hd
      cases table_get_replicate _ _ _ hd
  | @insert t t1 key code calls hr hi ih =>
      have hs := reachable_shape hr
      intro i d1 hd1 x hx
      rcases ht_insert_members hi i d1 hd1 x hx with ⟨rfl, rfl⟩ | ⟨d, hd, hxd⟩
      · rw [hs.key_clone, hs.hash_func, hs.hash_length, h1, h2, h3]
        exact hhash key
      · exact ih i d hd x hxd
  | @remove t t1 key code calls hr hi ih =>
      have hs := reachable_shape hr
      intro i d1 hd1 x hx
      obtain ⟨d, hd, hxd⟩ := ht_remove_members
        (by rw [hs.key_compare, h4]; exact fun a b => hlaw.eq_symm) hi i d1 hd1 x hx
      exact ih i d hd x hxd

theorem countP_compare_eq_one {K : Type} (cmp : K → K → Int) (hlaw : LawfulCompare cmp)
    (l : List K) (hp : l.Pairwise (fun a b => cmp a b < 0)) (k s : K) (hs : s ∈ l)
    (hsk : cmp s k = 0) : l.countP (fun x => cmp x k = 0) = 1 := by
  obtain ⟨pre, post, rfl⟩ := List.append_of_mem hs
  rw [List.pairwise_append, List.pairwise_cons] at hp
  obtain ⟨_, ⟨hpost, _⟩, hpre⟩ := hp
  have h1 : pre.countP (fun x => cmp x k = 0) = 0 := by
    rw [List.countP_eq_zero]
    intro x hx
    simp only [decide_eq_true_eq]
    intro hxk
    have := hpre x hx s (List.mem_cons_self _ _)
    have := hlaw.eq_of_eq_eq hxk hsk
    omega
  have h2 : post.countP (fun x => cmp x k = 0) = 0 := by
    rw [List.countP_eq_zero]
    intro x hx
    simp only [decide_eq_true_eq]
    intro hxk
    have := hpost x hx
    have := hlaw.eq_symm (hlaw.eq_of_eq_eq hxk hsk)
    omega
  rw [List.countP_append, List.countP_cons, h1, h2]
  simp [hsk]

theorem mem_table_keys {K : Type} (table : List (Option (bst K))) (x : K)
    (h : x ∈ table_keys table) :
    ∃ (j : Nat) (d : bst K), table[j]? = some (some d) ∧ x ∈ inorder d.root := by
  simp only [table_keys, List.mem_flatten, List.mem_map] at h
  obtain ⟨l, ⟨slot, hslot, rfl⟩, hx⟩ := h
  obtain ⟨j, hj, rfl⟩ := List.getElem_of_mem hslot
  cases hs : table[j] with
  | none => rw [hs] at hx; simp [bucket_keys] at hx
  | some d =>
      rw [hs] at hx
      exact ⟨j, d, by rw [List.getElem?_eq_getElem hj, hs], hx⟩

theorem table_count_one {K : Type} (hash : K → Int → Int) (w : Int) (cmp : K → K → Int)
    (table : List (Option (bst K))) (k : K) (d : bst K)
    (hd : table_get table (hash k w) = some (some d))
    (hown : ∀ i d1, table_get table i = some (some d1) → ∀ x ∈ inorder d1.root, hash x w = i)
    (hcompat : ∀ a b, cmp a b = 0 → hash a w = hash b w)
    (hone : (inorder d.root).countP (fun x => cmp x k = 0) = 1) :
    (table_keys table).countP (fun x => cmp x k = 0) = 1 := by
  have hb := table_get_some hd
  have hs : table[(hash k w).toNat]? = some (some d) := by
    unfold table_get at hd
    simpa [hb.1] using hd
  have hslot : table[(hash k w).toNat] = some d := by
    rw [List.getElem?_eq_getElem hb.2] at hs
    exact Option.some.inj hs
  have hsplit : table_keys table = table_keys (table.take (hash k w).toNat) ++
      (inorder d.root ++ table_keys (table.drop ((hash k w).toNat + 1))) := by
    conv_lhs => rw [← List.take_append_drop (hash k w).toNat table,
      List.drop_eq_getElem_cons hb.2]
    rw [table_keys_append, table_keys_cons, hslot]
    rfl
  have hother : ∀ (j : Nat) (d1 : bst K), table[j]? = some (some d1) →
      ∀ x ∈ inorder d1.root, cmp x k = 0 → j = (hash k w).toNat := by
    intro j d1 hj x hx hxk
    have h1 := hown (j : Int) d1 (by rw [table_get_nat]; exact hj) x hx
    have h2 := hcompat x k hxk
    omega
  have h1 : (table_keys (table.take (hash k w).toNat)).countP (fun x => cmp x k = 0) = 0 := by
    rw [List.countP_eq_zero]
    intro x hx
    simp only [decide_eq_true_eq]
    intro hxk
    obtain ⟨j, d1, hj, hxd⟩ := mem_table_keys _ x hx
    rw [List.getElem?_take] at hj
    split at hj
    · rename_i hlt
      have := hother j d1 hj x hxd hxk
      omega
    · cases hj
  have h2 : (table_keys (table.drop ((hash k w).toNat + 1))).countP
      (fun x => cmp x k = 0) = 0 := by
    rw [List.countP_eq_zero]
    intro x hx
    simp only [decide_eq_true_eq]
    intro hxk
    obtain ⟨j, d1, hj, hxd⟩ := mem_table_keys _ x hx
    rw [List.getElem?_drop] at hj
    have := hother _ d1 hj x hxd hxk
    omega
  rw [hsplit, List.countP_append, List.countP_append, h1, h2, hone]

/-- C6 as amended (duplicate insert is rejected without change).  In a table
reachable from `ht_create` (lawful comparator, clone comparing equal to its
original), if a key comparing equal to `k` is already stored in bucket
`hash(k, w)`, the one bucket `ht_insert` searches, then `ht_insert t k` returns
`HT_ALREADY_STORED`, makes no call of `key_clone` (no call at all), and the table
afterwards is the table before the call, bucket array and trees included.  That
bucket holds exactly one key comparing equal to `k`; and when compare-equal keys
have equal hashes, so does the whole table.  A compare-equal key stored in
another bucket is not seen by `ht_insert`. -/
theorem C6_duplicate_insert_rejected {K : Type} (clone : K → K) (hash : K → Int → Int)
    (w : Int) (cmp : K → K → Int) (destroy : K → Unit) (print : K → String)
    (t0 t : hashtable K)
    (hcreate : ht_create clone hash w cmp destroy print = some t0)
    (hreach : Reachable t0 t) (hlaw : LawfulCompare cmp)
    (hclone : ∀ k, cmp (clone k) k = 0) (k : K) (d : bst K)
    (hd : table_get t.table (hash k w) = some (some d))
    (s : K) (hs : s ∈ inorder d.root) (hsk : cmp s k = 0) :
    ht_insert t k = some (HT_ALREADY_STORED, t, []) ∧
      (inorder d.root).countP (fun x => cmp x k = 0) = 1 ∧
      ((∀ a b, cmp a b = 0 → hash a w = hash b w) →
        (table_keys t.table).countP (fun x => cmp x k = 0) = 1) := by
  obtain ⟨e1, e2, _, e4, hinv0⟩ := created_reachable hcreate hreach
  have hord := hinv0 hlaw hclone _ d hd
  have hone := countP_compare_eq_one cmp hlaw _
    ((ordered_iff_pairwise cmp hlaw d.root).1 hord) k s hs hsk
  refine ⟨?_, hone, ?_⟩
  · obtain ⟨s1, hl⟩ := lookup_of_mem k cmp hlaw d.root hord s hs hsk
    rw [ht_insert_eq, e1, e2, e4, hd]
    simp only [slot_root_some]
    rw [hl]
  · intro hcompat
    exact table_count_one hash w cmp t.table k d hd
      (reachable_own_bucket hcreate hreach hlaw (fun a => hcompat _ _ (hclone a)))
      hcompat hone

/-- Witness of C6 on integer keys: 5 inserted again into the table holding
5, 1, 9. -/
theorem C6_duplicate_insert_rejected_witness :
    ht_insert int_t3 5 = some (HT_ALREADY_STORED, int_t3, []) ∧
      (inorder (bstnode.mk (5 : Int) none (leaf 1) (leaf 9))).countP
        (fun x => int_compare x 5 = 0) = 1 ∧
      ((∀ a b, int_compare a b = 0 → int_hash a 2 = int_hash b 2) →
        (table_keys int_t3.table).countP (fun x => int_compare x 5 = 0) = 1) :=
  C6_duplicate_insert_rejected (fun k => k) int_hash 2 int_compare (fun _ => ())
    (fun k => toString k) int_t0 int_t3 int_table_two int_t3_reachable int_compare_lawful
    (fun k => by simp [int_compare]) 5 ⟨bstnode.mk 5 none (leaf 1) (leaf 9)⟩ rfl 5
    (by simp [inorder, leaf]) (by simp [int_compare])

theorem half_compare_lawful : LawfulCompare half_compare :=
  ⟨fun a b => by unfold half_compare; omega, fun a b c => by unfold half_compare; omega⟩

theorem half_table_two : half_table 2 = some half_t0 := rfl

theorem half_t1_insert :
    ht_insert half_t0 2 = some (HT_SUCCESS, half_t1, [Call.key_clone 2 2]) := rfl

theorem half_t2_insert :
    ht_insert half_t1 3 = some (HT_SUCCESS, half_t2, [Call.key_clone 3 3]) := rfl

theorem half_t1_reachable : Reachable half_t0 half_t1 :=
  Reachable.insert Reachable.start half_t1_insert

/-- Counterexample to C6 as stated.  Keys are integers compared by their halves
(`half_compare`, a lawful comparator under which 2 and 3 are equal), hashed by
`k mod 4`, cloned by the identity.  In the table reached from `ht_create` by
inserting 2, the key 2 is stored and compares equal to 3; yet `ht_insert` of 3
searches bucket 3 only, returns `HT_SUCCESS` rather than `HT_ALREADY_STORED`,
calls `key_clone`, and the table afterwards holds two keys comparing equal
to 3. -/
theorem C6_duplicate_insert_rejected_counterexample :
    half_table 2 = some half_t0 ∧ Reachable half_t0 half_t1 ∧
      LawfulCompare half_compare ∧ (∀ k : Int, half_compare ((fun k => k) k) k = 0) ∧
      (2 : Int) ∈ table_keys half_t1.table ∧ half_compare 2 3 = 0 ∧
      ht_insert half_t1 3 = some (HT_SUCCESS, half_t2, [Call.key_clone 3 3]) ∧
      ht_insert half_t1 3 ≠ some (HT_ALREADY_STORED, half_t1, []) ∧
      HT_SUCCESS ≠ HT_ALREADY_STORED ∧
      (table_keys half_t1.table).countP (fun x => half_compare x 3 = 0) = 1 ∧
      (table_keys half_t2.table).countP (fun x => half_compare x 3 = 0) = 2 :=
  ⟨half_table_two, half_t1_reachable, half_compare_lawful,
    fun k => by simp [half_compare], by decide, by decide, half_t2_insert,
    (by rw [half_t2_insert]; intro h; cases h), by decide, by decide, by decide⟩

/-! ## Claim C11: the entries of one bucket -/

theorem comma_each_nil : (comma_each []).data = [] := rfl

theorem comma_each_cons (e : String) (es : List String) :
    (comma_each (e :: es)).data = ',' :: (e.data ++ (comma_each es).data) := by
  simp [comma_each]

theorem comma_each_append (a b : List String) :
    (comma_each (a ++ b)).data = (comma_each a).data ++ (comma_each b).data := by
  simp [comma_each]

theorem intercalate_go_data (l : List String) :
    ∀ acc : String,
      (String.intercalate.go acc "," l).data = acc.data ++ (comma_each l).data := by
  induction l with
  | nil => intro acc; simp [String.intercalate.go, comma_each_nil]
  | cons a l ih =>
      intro acc
      rw [String.intercalate.go, ih, comma_each_cons]
      simp [String.data_append]

theorem intercalate_data (es : List String) :
    (String.intercalate "," es).data = (comma_each es).data.tail := by
  cases es with
  | nil => rfl
  | cons a l => rw [String.intercalate, intercalate_go_data, comma_each_cons]; rfl

theorem bstnodes_print_spec {K : Type} (key_print : K → String) (node : bstnode K) :
    ∀ (first : Bool) (depth : Nat),
      (bstnodes_print key_print node first (depth : Int)).1 = with_depths node depth ∧
      (bstnodes_print key_print node first (depth : Int)).2.1 =
        (first && (entries key_print node depth).isEmpty) ∧
      (bstnodes_print key_print node first (depth : Int)).2.2.data =
        if first then (comma_each (entries key_print node depth)).data.tail
        else (comma_each (entries key_print node depth)).data := by
  induction node with
  | NULL => intro first depth; cases first <;> simp [bstnodes_print, with_depths, entries, comma_each_nil]
  | mk k lv l r ihl ihr =>
      intro first depth
      have hcast : ((depth : Int) + 1) = ((depth + 1 : Nat) : Int) := by push_cast; rfl
      obtain ⟨l1, l2, l3⟩ := ihl first (depth + 1)
      simp only [bstnodes_print, bstnode_print, hcast, l1, l2, with_depths, entries]
      obtain ⟨r1, r2, r3⟩ := ihr false (depth + 1)
      refine ⟨by rw [r1], by rw [r2]; simp, ?_⟩
      simp only [String.data_append, l3, r3, comma_each_append, comma_each_cons, if_false]
      cases first with
      | false => simp
      | true =>
          cases hl : entries key_print l (depth + 1) with
          | nil => simp [comma_each_nil]
          | cons e es => simp [comma_each_cons]

theorem int_t3_run :
    run int_t0 [Op.insert 5, Op.insert 1, Op.insert 9] =
      some (int_t3,
        [(Op.insert 5, HT_SUCCESS), (Op.insert 1, HT_SUCCESS), (Op.insert 9, HT_SUCCESS)],
        [Call.key_clone 5 5, Call.key_clone 1 1, Call.key_clone 9 9]) := by
  simp only [run, int_t1_insert, int_t2_insert, int_t3_insert]
  rfl

theorem int_t3_print :
    (ht_print int_t3).map (fun r => r.2) = some "0: []\n1: [1-1,0-5,1-9]\n2: []\n3: []\n" := by
  decide

/-- C11 (print entries of one bucket).  For every tree, whatever its `level`
fields hold, the text emitted by `bst_print` is the comma-joined sequence (no
leading or trailing comma, nothing for an empty tree) of the entries
`"<depth>-<key_print(key)>"` of the nodes in in-order, the depth of a node being
its number of ancestors (root 0); afterwards every `level` field holds that
depth.  Scenario A: with 2 bits, `hash(k, w) = k mod 2^w` and decimal `key_print`,
inserting 5, 1, 9 into a fresh table makes the `ht_print` line of index 1 exactly
`1: [1-1,0-5,1-9]`. -/
theorem C11_print_entries {K : Type} (key_print : K → String) (d : bst K) :
    (bst_print d key_print).2 = String.intercalate "," (entries key_print d.root 0) ∧
      (bst_print d key_print).1.root = with_depths d.root 0 ∧
      (bst_print (⟨bstnode.NULL⟩ : bst K) key_print).2 = "" ∧
      (∃ t codes calls,
        int_table 2 = some int_t0 ∧
        run int_t0 [Op.insert 5, Op.insert 1, Op.insert 9] = some (t, codes, calls) ∧
        bucket_line t.key_print t.table 1 = "1: [1-1,0-5,1-9]\n" ∧
        (ht_print t).map (fun r => r.2) =
          some "0: []\n1: [1-1,0-5,1-9]\n2: []\n3: []\n") := by
  obtain ⟨h1, _, h3⟩ := bstnodes_print_spec key_print d.root true 0
  refine ⟨?_, h1, rfl, int_t3, _, _, int_table_two, int_t3_run, by decide, int_t3_print⟩
  apply String.ext
  rw [intercalate_data]
  simpa [bst_print] using h3

/-! ## Claims C12 and C13: frame and bounds of the bucket array -/

theorem ht_insert_defined {K : Type} (t : hashtable K) (k : K) (slot : Option (bst K))
    (hslot : table_get t.table (t.hash_func k t.hash_length) = some slot) :
    ∃ r, ht_insert t k = some r := by
  rw [ht_insert_eq, hslot]
  simp only []
  cases bst_lookup.loop k t.key_compare (slot_root slot) <;> exact ⟨_, rfl⟩

theorem ht_remove_defined {K : Type} (t : hashtable K) (k : K) (slot : Option (bst K))
    (hslot : table_get t.table (t.hash_func k t.hash_length) = some slot) :
    ∃ r, ht_remove t k = some r := by
  unfold ht_remove
  dsimp only
  rw [hslot]
  cases slot with
  | none => exact ⟨_, rfl⟩
  | some d =>
      simp only []
      cases bst_lookup k t.key_compare d <;> exact ⟨_, rfl⟩

theorem ht_insert_frame {K : Type} {t t1 : hashtable K} {k : K} {code : Int}
    {calls : List (Call K)} (h : ht_insert t k = some (code, t1, calls)) :
    ∀ j, j ≠ t.hash_func k t.hash_length → table_get t1.table j = table_get t.table j := by
  rw [ht_insert_eq] at h
  cases hg : table_get t.table (t.hash_func k t.hash_length) with
  | none => simp [hg] at h
  | some slot =>
      simp only [hg] at h
      have hb := table_get_some hg
      cases hl : bst_lookup.loop k t.key_compare (slot_root slot) with
      | some s =>
          simp only [hl, Option.some.injEq, Prod.mk.injEq] at h
          obtain ⟨_, rfl, _⟩ := h
          intro j _
          rfl
      | none =>
          simp only [hl, Option.some.injEq, Prod.mk.injEq] at h
          obtain ⟨_, rfl, _⟩ := h
          intro j hj
          exact table_get_set_ne _ _ _ _ hb.1 hj

theorem ht_remove_frame {K : Type} {t t1 : hashtable K} {k : K} {code : Int}
    {calls : List (Call K)} (h : ht_remove t k = some (code, t1, calls)) :
    ∀ j, j ≠ t.hash_func k t.hash_length → table_get t1.table j = table_get t.table j := by
  unfold ht_remove at h
  dsimp only at h
  cases hg : table_get t.table (t.hash_func k t.hash_length) with
  | none => simp [hg] at h
  | some slot =>
      have hb := table_get_some hg
      cases slot with
      | none =>
          simp only [hg, Option.some.injEq, Prod.mk.injEq] at h
          obtain ⟨_, rfl, _⟩ := h
          intro j _
          rfl
      | some d =>
          simp only [hg] at h
          cases hl : bst_lookup k t.key_compare d with
          | none =>
              simp only [hl, Option.some.injEq, Prod.mk.injEq] at h
              obtain ⟨_, rfl, _⟩ := h
              intro j _
              rfl
          | some s =>
              simp only [hl, Option.some.injEq, Prod.mk.injEq] at h
              obtain ⟨_, rfl, _⟩ := h
              intro j hj
              exact table_get_set_ne _ _ _ _ hb.1 hj

/-- C12 (frame of insert and remove).  For every table `t` and key `k` whose
bucket index is inside the array, `ht_insert t k` and `ht_remove t k` return, and
whichever table `t1` they return has the `hash_length`, the `ht_length`, the five
stored operations and the number of slots of `t`, and every bucket slot whose
index differs from `hash(k, hash_length)` is exactly as it was: only the slot at
that index may change. -/
theorem C12_insert_remove_frame {K : Type} (t : hashtable K) (k : K) (slot : Option (bst K))
    (hslot : table_get t.table (t.hash_func k t.hash_length) = some slot) :
    (∃ r, ht_insert t k = some r) ∧ (∃ r, ht_remove t k = some r) ∧
      ∀ code t1 calls,
        ht_insert t k = some (code, t1, calls) ∨ ht_remove t k = some (code, t1, calls) →
        t1.hash_length = t.hash_length ∧ t1.ht_length = t.ht_length ∧
          t1.hash_func = t.hash_func ∧ t1.key_clone = t.key_clone ∧
          t1.key_compare = t.key_compare ∧ t1.key_destroy = t.key_destroy ∧
          t1.key_print = t.key_print ∧ t1.table.length = t.table.length ∧
          ∀ j, j ≠ t.hash_func k t.hash_length →
            table_get t1.table j = table_get t.table j := by
  refine ⟨ht_insert_defined t k slot hslot, ht_remove_defined t k slot hslot, ?_⟩
  intro code t1 calls h
  rcases h with h | h
  · have hs := ht_insert_shape h
    exact ⟨hs.hash_length, hs.ht_length, hs.hash_func, hs.key_clone, hs.key_compare,
      hs.key_destroy, hs.key_print, hs.length, ht_insert_frame h⟩
  · have hs := ht_remove_shape h
    exact ⟨hs.hash_length, hs.ht_length, hs.hash_func, hs.key_clone, hs.key_compare,
      hs.key_destroy, hs.key_print, hs.length, ht_remove_frame h⟩

/-- Witness of C12 on integer keys: key 13 on the table holding 5, 1, 9. -/
theorem C12_insert_remove_frame_witness :
    (∃ r, ht_insert int_t3 13 = some r) ∧ (∃ r, ht_remove int_t3 13 = some r) ∧
      ∀ code t1 calls,
        ht_insert int_t3 13 = some (code, t1, calls) ∨
          ht_remove int_t3 13 = some (code, t1, calls) →
        t1.hash_length = int_t3.hash_length ∧ t1.ht_length = int_t3.ht_length ∧
          t1.hash_func = int_t3.hash_func ∧ t1.key_clone = int_t3.key_clone ∧
          t1.key_compare = int_t3.key_compare ∧ t1.key_destroy = int_t3.key_destroy ∧
          t1.key_print = int_t3.key_print ∧ t1.table.length = int_t3.table.length ∧
          ∀ j, j ≠ int_t3.hash_func 13 int_t3.hash_length →
            table_get t1.table j = table_get int_t3.table j :=
  C12_insert_remove_frame int_t3 13 (some ⟨bstnode.mk 5 none (leaf 1) (leaf 9)⟩) rfl

theorem created_reachable_length {K : Type} {clone : K → K} {hash : K → Int → Int} {w : Int}
    {cmp : K → K → Int} {destroy : K → Unit} {print : K → String} {t0 t : hashtable K}
    (hcreate : ht_create clone hash w cmp destroy print = some t0)
    (hreach : Reachable t0 t) (hw : w ≤ 30) :
    t.ht_length = 2 ^ w.toNat ∧ t.table.length = 2 ^ w.toNat ∧
      t.ht_length.toNat = t.table.length := by
  obtain ⟨h0, _, e2, _, _, _, _, _, e9⟩ := ht_create_some hcreate
  have hl := ht_create_length h0 hw
  have hpow : ((2 : Int) ^ w.toNat) = (((2 : Nat) ^ w.toNat : Nat) : Int) := by
    push_cast; rfl
  have hs := reachable_shape hreach
  have h1 : t.ht_length = 2 ^ w.toNat := by rw [hs.ht_length, e2, hl]
  have h2 : t.table.length = 2 ^ w.toNat := by
    rw [hs.length, e9, List.length_replicate, hl, hpow, Int.toNat_ofNat]
  exact ⟨h1, h2, by rw [h1, h2, hpow, Int.toNat_ofNat]⟩

theorem ht_print_defined {K : Type} (t : hashtable K)
    (hlen : t.ht_length.toNat ≤ t.table.length) : ∃ r, ht_print t = some r := by
  obtain ⟨table1, h1, _⟩ :=
    ht_print_loop_eq t.key_print t.ht_length.toNat 0 t.table "" (by omega)
  have h0 : ((0 : Nat) : Int) = 0 := rfl
  rw [h0] at h1
  unfold ht_print
  rw [h1]
  exact ⟨_, rfl⟩

theorem walk_parent_link {K : Type} (key : K) (cmp : K → K → Int)
    (hsym : ∀ a b, cmp a b = 0 → cmp b a = 0) (t : bstnode K) :
    ∀ path : List (Frame K),
      (∀ p up, path = p :: up → (p.link = Link.right ↔ 0 < cmp key p.key)) →
      ∀ p up, (walk key cmp t path).2 = p :: up →
        (p.link = Link.right ↔ 0 < cmp key p.key) := by
  induction t with
  | NULL => intro path hp p up h; exact hp p up h
  | mk k lv left right ihl ihr =>
      intro path hp p up h
      unfold walk at h
      by_cases h0 : cmp k key ≠ 0
      · rw [if_pos h0] at h
        by_cases h1 : cmp key k < 0
        · rw [if_pos h1] at h
          refine ihl _ ?_ p up h
          intro q uq hq
          cases hq
          show Link.left = Link.right ↔ 0 < cmp key k
          constructor
          · intro e; cases e
          · intro e; omega
        · rw [if_neg h1] at h
          refine ihr _ ?_ p up h
          intro q uq hq
          cases hq
          show Link.right = Link.right ↔ 0 < cmp key k
          constructor
          · intro _
            have hne : cmp key k ≠ 0 := fun e => h0 (hsym _ _ e)
            omega
          · intro _; rfl
      · rw [if_neg h0] at h
        exact hp p up h

theorem writes_target_link_of_symm {K : Type} (cmp : K → K → Int)
    (hsym : ∀ a b, cmp a b = 0 → cmp b a = 0) (key : K) (d : bst K) :
    bst_remove.writes_target_link key cmp d := by
  unfold bst_remove.writes_target_link
  have h := walk_parent_link key cmp hsym d.root [] (by intro p up e; cases e)
  cases hw : (walk key cmp d.root []).2 with
  | nil => trivial
  | cons p up => exact h p up hw

/-- Outside the lawful comparators the link test of `bst_remove` can miss the
link of the walk.  With `key_compare(a, b) = a - 2 * b` (not symmetric at 0),
inserting 1 then 4 into an empty tree gives `skew_tree`; `bst_remove` of 2
reaches the node 4 through the right link of the root, and writes the left. -/
theorem writes_target_link_skew :
    (bst_insert 4 skew_compare (fun k => k)
        (bst_insert 1 skew_compare (fun k => k) ⟨bstnode.NULL⟩).1).1 = skew_tree ∧
      (walk 2 skew_compare skew_tree.root []).1 = leaf 4 ∧
      ¬ bst_remove.writes_target_link 2 skew_compare skew_tree := by
  refine ⟨rfl, rfl, ?_⟩
  intro h
  have h2 : (Link.right = Link.right ↔ 0 < skew_compare 2 1) := h
  have h3 := h2.1 rfl
  revert h3
  decide

/-- C13 (in-bounds bucket access).  Under the caller contract that `hash(k, w)`
lies in `[0, 2^w)` for every key, with `w ≤ 30` (and `1 ≤ w`, since `ht_create`
returned), and that the comparator is lawful (the total order the data model
requires), in every table reachable from `ht_create` the array has exactly
`ht_length = 2^w` slots; the index used by `ht_insert` and `ht_remove` lies in
`[0, ht_length)` and is inside the array, as is every index of `[0, ht_length)`
used by `ht_print` and `ht_destroy`; and none of the four operations takes the
out-of-range branch: each returns.  The comparator being lawful, every
`bst_remove` writes the link through which it reached its target, so that the
tables these operations run on hold no pointer to a freed node. -/
theorem C13_in_bounds_access {K : Type} (clone : K → K) (hash : K → Int → Int) (w : Int)
    (cmp : K → K → Int) (destroy : K → Unit) (print : K → String) (t0 t : hashtable K)
    (hcreate : ht_create clone hash w cmp destroy print = some t0)
    (hreach : Reachable t0 t) (hw : w ≤ 30)
    (hrange : ∀ k, 0 ≤ hash k w ∧ hash k w < 2 ^ w.toNat) (hlaw : LawfulCompare cmp) :
    1 ≤ w ∧ t.ht_length = 2 ^ w.toNat ∧ (t.table.length : Int) = t.ht_length ∧
      (∀ k, 0 ≤ t.hash_func k t.hash_length ∧ t.hash_func k t.hash_length < t.ht_length ∧
        (∃ slot, table_get t.table (t.hash_func k t.hash_length) = some slot) ∧
        (∃ r, ht_insert t k = some r) ∧ (∃ r, ht_remove t k = some r)) ∧
      (∀ i : Int, 0 ≤ i → i < t.ht_length → ∃ slot, table_get t.table i = some slot) ∧
      (∃ r, ht_print t = some r) ∧ (∃ r, ht_destroy t = some r) ∧
      t.key_compare = cmp ∧
      (∀ k (d : bst K), bst_remove.writes_target_link k t.key_compare d) := by
  obtain ⟨h0, _, _, _, _, _, _, _, _⟩ := ht_create_some hcreate
  obtain ⟨e1, e2, _, _, _⟩ := created_reachable hcreate hreach
  obtain ⟨l1, l2, l3⟩ := created_reachable_length hcreate hreach hw
  have hpow : ((2 : Int) ^ w.toNat) = (((2 : Nat) ^ w.toNat : Nat) : Int) := by
    push_cast; rfl
  have hget : ∀ i : Int, 0 ≤ i → i < t.ht_length → ∃ slot, table_get t.table i = some slot := by
    intro i hi0 hi1
    have hlt : i.toNat < t.table.length := by
      rw [l1, hpow] at hi1
      rw [l2]
      omega
    exact ⟨_, by simp only [table_get, hi0, if_true]; exact List.getElem?_eq_getElem hlt⟩
  have hcmp : t.key_compare = cmp := by
    rw [(reachable_shape hreach).key_compare]
    exact (ht_create_some hcreate).2.2.2.2.2.1
  refine ⟨by omega, l1, by rw [l1, l2, hpow], ?_, hget, ht_print_defined t (by omega), ?_,
    hcmp, ?_⟩
  · intro k
    obtain ⟨r0, r1⟩ := hrange k
    have hk0 : 0 ≤ t.hash_func k t.hash_length := by rw [e2, e1]; exact r0
    have hk1 : t.hash_func k t.hash_length < t.ht_length := by rw [e2, e1, l1]; exact r1
    obtain ⟨slot, hslot⟩ := hget _ hk0 hk1
    exact ⟨hk0, hk1, ⟨slot, hslot⟩, ht_insert_defined t k slot hslot,
      ht_remove_defined t k slot hslot⟩
  · obtain ⟨dcalls, hd, _⟩ := ht_destroy_spec t l3
    exact ⟨dcalls, hd⟩
  · rw [hcmp]
    exact writes_target_link_of_symm cmp (fun _ _ e => hlaw.eq_symm e)

theorem int_hash_range (k : Int) : 0 ≤ int_hash k 2 ∧ int_hash k 2 < 2 ^ (2 : Int).toNat := by
  have h4 : (2 : Int) ^ (2 : Int).toNat = 4 := by decide
  rw [h4]
  unfold int_hash
  rw [h4]
  omega

/-- Witness of C13 on integer keys: the table holding 5, 1, 9. -/
theorem C13_in_bounds_access_witness :
    1 ≤ (2 : Int) ∧ int_t3.ht_length = 2 ^ (2 : Int).toNat ∧
      (int_t3.table.length : Int) = int_t3.ht_length ∧
      (∀ k, 0 ≤ int_t3.hash_func k int_t3.hash_length ∧
        int_t3.hash_func k int_t3.hash_length < int_t3.ht_length ∧
        (∃ slot, table_get int_t3.table (int_t3.hash_func k int_t3.hash_length) = some slot) ∧
        (∃ r, ht_insert int_t3 k = some r) ∧ (∃ r, ht_remove int_t3 k = some r)) ∧
      (∀ i : Int, 0 ≤ i → i < int_t3.ht_length → ∃ slot, table_get int_t3.table i = some slot) ∧
      (∃ r, ht_print int_t3 = some r) ∧ (∃ r, ht_destroy int_t3 = some r) ∧
      int_t3.key_compare = int_compare ∧
      (∀ k (d : bst Int), bst_remove.writes_target_link k int_t3.key_compare d) :=
  C13_in_bounds_access (fun k => k) int_hash 2 int_compare (fun _ => ())
    (fun k => toString k) int_t0 int_t3 int_table_two int_t3_reachable (by decide)
    int_hash_range int_compare_lawful

/-! ## Claim C14: buckets are created lazily and never reclaimed -/

theorem lookup_null {K : Type} (k : K) (cmp : K → K → Int) :
    bst_lookup.loop k cmp bstnode.NULL = none := rfl

theorem ht_insert_present {K : Type} {t t1 : hashtable K} {k : K} {code : Int}
    {calls : List (Call K)} (h : ht_insert t k = some (code, t1, calls)) :
    ∀ i, (∃ d1, table_get t1.table i = some (some d1)) ↔
      ((∃ d, table_get t.table i = some (some d)) ∨ i = t.hash_func k t.hash_length) := by
  rw [ht_insert_eq] at h
  cases hg : table_get t.table (t.hash_func k t.hash_length) with
  | none => simp [hg] at h
  | some slot =>
      simp only [hg] at h
      have hb := table_get_some hg
      cases hl : bst_lookup.loop k t.key_compare (slot_root slot) with
      | some s =>
          simp only [hl, Option.some.injEq, Prod.mk.injEq] at h
          obtain ⟨_, rfl, _⟩ := h
          intro i
          constructor
          · exact fun hp => Or.inl hp
          · rintro (hp | rfl)
            · exact hp
            · cases slot with
              | none => rw [slot_root, lookup_null] at hl; cases hl
              | some d => exact ⟨d, hg⟩
      | none =>
          simp only [hl, Option.some.injEq, Prod.mk.injEq] at h
          obtain ⟨_, rfl, _⟩ := h
          intro i
          by_cases hi : i = t.hash_func k t.hash_length
          · subst hi
            constructor
            · exact fun _ => Or.inr rfl
            · exact fun _ => ⟨_, table_get_set_same _ _ _ hb.1 hb.2⟩
          · show (∃ d1, table_get (table_set t.table _ _) i = some (some d1)) ↔ _
            rw [table_get_set_ne _ _ _ _ hb.1 hi]
            constructor
            · exact fun hp => Or.inl hp
            · rintro (hp | rfl)
              · exact hp
              · exact absurd rfl hi

theorem ht_remove_present {K : Type} {t t1 : hashtable K} {k : K} {code : Int}
    {calls : List (Call K)} (h : ht_remove t k = some (code, t1, calls)) :
    ∀ i, (table_get t1.table i).map Option.isSome = (table_get t.table i).map Option.isSome := by
  unfold ht_remove at h
  dsimp only at h
  cases hg : table_get t.table (t.hash_func k t.hash_length) with
  | none => simp [hg] at h
  | some slot =>
      have hb := table_get_some hg
      cases slot with
      | none =>
          simp only [hg, Option.some.injEq, Prod.mk.injEq] at h
          obtain ⟨_, rfl, _⟩ := h
          intro i
          rfl
      | some d =>
          simp only [hg] at h
          cases hl : bst_lookup k t.key_compare d with
          | none =>
              simp only [hl, Option.some.injEq, Prod.mk.injEq] at h
              obtain ⟨_, rfl, _⟩ := h
              intro i
              rfl
          | some s =>
              simp only [hl, Option.some.injEq, Prod.mk.injEq] at h
              obtain ⟨_, rfl, _⟩ := h
              intro i
              by_cases hi : i = t.hash_func k t.hash_length
              · subst hi
                show (table_get (table_set t.table _ _) _).map _ = _
                rw [table_get_set_same _ _ _ hb.1 hb.2, hg]
                rfl
              · show (table_get (table_set t.table _ _) _).map _ = _
                rw [table_get_set_ne _ _ _ _ hb.1 hi]

theorem ht_remove_present_iff {K : Type} {t t1 : hashtable K} {k : K} {code : Int}
    {calls : List (Call K)} (h : ht_remove t k = some (code, t1, calls)) (i : Int) :
    ((∃ d1, table_get t1.table i = some (some d1)) ↔
        (∃ d, table_get t.table i = some (some d))) ∧
      (table_get t.table i = some none → table_get t1.table i = some none) := by
  have hp := ht_remove_present h i
  cases h1 : table_get t1.table i with
  | none =>
      cases h0 : table_get t.table i with
      | none => simp
      | some a => rw [h1, h0] at hp; cases hp
  | some a1 =>
      cases h0 : table_get t.table i with
      | none => rw [h1, h0] at hp; cases hp
      | some a0 =>
          rw [h1, h0] at hp
          simp only [Option.map_some', Option.some.injEq] at hp
          cases a1 <;> cases a0 <;> simp at hp ⊢

theorem run_present {K : Type} (ops : List (Op K)) :
    ∀ (t t1 : hashtable K) (codes : List (Op K × Int)) (calls : List (Call K)),
      run t ops = some (t1, codes, calls) →
      ∀ i, (∃ d1, table_get t1.table i = some (some d1)) ↔
        ((∃ d, table_get t.table i = some (some d)) ∨
          ∃ k, Op.insert k ∈ ops ∧ t.hash_func k t.hash_length = i) := by
  induction ops with
  | nil =>
      intro t t1 codes calls h i
      simp only [run, Option.some.injEq, Prod.mk.injEq] at h
      obtain ⟨rfl, _, _⟩ := h
      simp
  | cons op ops ih =>
      intro t t1 codes calls h i
      cases op with
      | insert key =>
          simp only [run] at h
          cases hi : ht_insert t key with
          | none => simp [hi] at h
          | some r =>
              obtain ⟨code, t2, calls1⟩ := r
              simp only [hi] at h
              cases hr : run t2 ops with
              | none => simp [hr] at h
              | some r2 =>
                  obtain ⟨t3, codes2, calls2⟩ := r2
                  simp only [hr, Option.some.injEq, Prod.mk.injEq] at h
                  obtain ⟨rfl, _, _⟩ := h
                  have hs := ht_insert_shape hi
                  rw [ih t2 t3 codes2 calls2 hr i, ht_insert_present hi i, hs.hash_func,
                    hs.hash_length]
                  constructor
                  · rintro ((hp | rfl) | ⟨k, hk, rfl⟩)
                    · exact Or.inl hp
                    · exact Or.inr ⟨key, List.mem_cons_self _ _, rfl⟩
                    · exact Or.inr ⟨k, List.mem_cons_of_mem _ hk, rfl⟩
                  · rintro (hp | ⟨k, hk, rfl⟩)
                    · exact Or.inl (Or.inl hp)
                    · rcases List.mem_cons.1 hk with hk | hk
                      · cases hk
                        exact Or.inl (Or.inr rfl)
                      · exact Or.inr ⟨k, hk, rfl⟩
      | remove key =>
          simp only [run] at h
          cases hi : ht_remove t key with
          | none => simp [hi] at h
          | some r =>
              obtain ⟨code, t2, calls1⟩ := r
              simp only [hi] at h
              cases hr : run t2 ops with
              | none => simp [hr] at h
              | some r2 =>
                  obtain ⟨t3, codes2, calls2⟩ := r2
                  simp only [hr, Option.some.injEq, Prod.mk.injEq] at h
                  obtain ⟨rfl, _, _⟩ := h
                  have hs := ht_remove_shape hi
                  rw [ih t2 t3 codes2 calls2 hr i, (ht_remove_present_iff hi i).1,
                    hs.hash_func, hs.hash_length]
                  constructor
                  · rintro (hp | ⟨k, hk, rfl⟩)
                    · exact Or.inl hp
                    · exact Or.inr ⟨k, List.mem_cons_of_mem _ hk, rfl⟩
                  · rintro (hp | ⟨k, hk, rfl⟩)
                    · exact Or.inl hp
                    · rcases List.mem_cons.1 hk with hk | hk
                      · cases hk
                      · exact Or.inr ⟨k, hk, rfl⟩

theorem inorder_nil {K : Type} (t : bstnode K) (h : inorder t = []) : t = bstnode.NULL := by
  cases t with
  | NULL => rfl
  | mk k lv l r => simp [inorder] at h

theorem inorder_singleton {K : Type} (t : bstnode K) (s : K) (h : inorder t = [s]) :
    ∃ lv, t = bstnode.mk s lv bstnode.NULL bstnode.NULL := by
  cases t with
  | NULL => simp [inorder] at h
  | mk k lv l r =>
      simp only [inorder] at h
      have hl : inorder l = [] := by
        cases hl : inorder l with
        | nil => rfl
        | cons a as =>
            rw [hl] at h
            have := congrArg List.length h
            simp at this
      rw [hl] at h
      simp only [List.nil_append, List.cons.injEq] at h
      obtain ⟨rfl, hr⟩ := h
      exact ⟨lv, by rw [inorder_nil l hl, inorder_nil r hr]⟩

theorem ht_remove_last {K : Type} (t : hashtable K) (k s : K) (d : bst K)
    (hd : table_get t.table (t.hash_func k t.hash_length) = some (some d))
    (hone : inorder d.root = [s]) (hsk : t.key_compare s k = 0) :
    ht_remove t k = some (HT_SUCCESS,
      { t with table := table_set t.table (t.hash_func k t.hash_length)
                  (some ⟨bstnode.NULL⟩) },
      [Call.key_destroy s]) := by
  obtain ⟨lv, hroot⟩ := inorder_singleton d.root s hone
  have hdd : d = ⟨bstnode.mk s lv bstnode.NULL bstnode.NULL⟩ := bst_eta d _ hroot
  subst hdd
  unfold ht_remove
  dsimp only
  rw [hd]
  simp [bst_lookup, bst_lookup.loop, bst_remove, walk, hsk, bst_remove.replacement]

/-- C14 (buckets are created lazily and never reclaimed).  Take a fresh table
(`hash_bit_width ≤ 30`, hash in range, comparator lawful: the total order the
data model requires) and any sequence of `ht_insert` and `ht_remove` calls.  The
run is defined, and in the table reached bucket slot `i` is present exactly when
one of the `ht_insert` calls made had hash index `i`.  From there on, no
`ht_insert` or `ht_remove` turns a present bucket into an absent one,
`ht_remove` never turns an absent bucket into a present one, and removing the
last key of a bucket leaves that bucket present with an empty tree (`NULL`
root).  The comparator being lawful, every `bst_remove` of the run wrote the
link through which it reached its target, so that no bucket holds a pointer to
a freed node. -/
theorem C14_lazy_buckets {K : Type} (clone : K → K) (hash : K → Int → Int) (w : Int)
    (cmp : K → K → Int) (destroy : K → Unit) (print : K → String) (t0 : hashtable K)
    (hcreate : ht_create clone hash w cmp destroy print = some t0)
    (hw : w ≤ 30) (hrange : ∀ k, 0 ≤ hash k w ∧ hash k w < 2 ^ w.toNat)
    (hlaw : LawfulCompare cmp) (ops : List (Op K)) :
    ∃ t codes calls, run t0 ops = some (t, codes, calls) ∧
      (∀ i, (∃ d, table_get t.table i = some (some d)) ↔
        ∃ k, Op.insert k ∈ ops ∧ hash k w = i) ∧
      (∀ k code t1 calls1,
        ht_insert t k = some (code, t1, calls1) ∨ ht_remove t k = some (code, t1, calls1) →
        ∀ i d, table_get t.table i = some (some d) →
          ∃ d1, table_get t1.table i = some (some d1)) ∧
      (∀ k code t1 calls1, ht_remove t k = some (code, t1, calls1) →
        ∀ i, table_get t.table i = some none → table_get t1.table i = some none) ∧
      (∀ k d s, table_get t.table (hash k w) = some (some d) → inorder d.root = [s] →
        cmp s k = 0 →
        ∃ t1, ht_remove t k = some (HT_SUCCESS, t1, [Call.key_destroy s]) ∧
          table_get t1.table (hash k w) = some (some ⟨bstnode.NULL⟩)) ∧
      t.key_compare = cmp ∧
      (∀ k (d : bst K), bst_remove.writes_target_link k t.key_compare d) := by
  obtain ⟨_, e1, _, e3, _, e5, _, _, e9⟩ := ht_create_some hcreate
  obtain ⟨_, l2, _⟩ := created_reachable_length hcreate Reachable.start hw
  have hpow : ((2 : Int) ^ w.toNat) = (((2 : Nat) ^ w.toNat : Nat) : Int) := by
    push_cast; rfl
  obtain ⟨t, codes, calls, hrun, hsh⟩ := run_defined ops t0 (by
    intro k
    rw [e3, e1, l2]
    obtain ⟨r0, r1⟩ := hrange k
    rw [hpow] at r1
    exact ⟨r0, by omega⟩)
  have hcmp : t.key_compare = cmp := by rw [hsh.key_compare, e5]
  refine ⟨t, codes, calls, hrun, ?_, ?_, ?_, ?_, hcmp, ?_⟩
  · intro i
    rw [run_present ops t0 t codes calls hrun i, e3, e1]
    constructor
    · rintro (⟨d, hd⟩ | h)
      · rw [e9] at hd
        cases table_get_replicate _ _ _ hd
      · exact h
    · exact fun h => Or.inr h
  · intro k code t1 calls1 h i d hd
    rcases h with h | h
    · exact (ht_insert_present h i).2 (Or.inl ⟨d, hd⟩)
    · exact (ht_remove_present_iff h i).1.2 ⟨d, hd⟩
  · intro k code t1 calls1 h i
    exact (ht_remove_present_iff h i).2
  · intro k d s hd hone hsk
    have hf : t.hash_func k t.hash_length = hash k w := by
      rw [hsh.hash_func, hsh.hash_length, e3, e1]
    have hc : t.key_compare = cmp := by rw [hsh.key_compare, e5]
    have hb := table_get_some hd
    have h := ht_remove_last t k s d (by rw [hf]; exact hd) hone (by rw [hc]; exact hsk)
    rw [hf] at h
    exact ⟨_, h, table_get_set_same _ _ _ hb.1 hb.2⟩
  · rw [hcmp]
    exact writes_target_link_of_symm cmp (fun _ _ e => hlaw.eq_symm e)

/-- Witness of C14 on integer keys: insert 5, remove 5, insert 2, remove 3 on the
fresh table of 4 buckets. -/
theorem C14_lazy_buckets_witness :
    ∃ t codes calls,
      run int_t0 [Op.insert 5, Op.remove 5, Op.insert 2, Op.remove 3] =
        some (t, codes, calls) ∧
      (∀ i, (∃ d, table_get t.table i = some (some d)) ↔
        ∃ k, Op.insert k ∈ [Op.insert (5 : Int), Op.remove 5, Op.insert 2, Op.remove 3] ∧
          int_hash k 2 = i) ∧
      (∀ k code t1 calls1,
        ht_insert t k = some (code, t1, calls1) ∨ ht_remove t k = some (code, t1, calls1) →
        ∀ i d, table_get t.table i = some (some d) →
          ∃ d1, table_get t1.table i = some (some d1)) ∧
      (∀ k code t1 calls1, ht_remove t k = some (code, t1, calls1) →
        ∀ i, table_get t.table i = some none → table_get t1.table i = some none) ∧
      (∀ k d s, table_get t.table (int_hash k 2) = some (some d) → inorder d.root = [s] →
        int_compare s k = 0 →
        ∃ t1, ht_remove t k = some (HT_SUCCESS, t1, [Call.key_destroy s]) ∧
          table_get t1.table (int_hash k 2) = some (some ⟨bstnode.NULL⟩)) ∧
      t.key_compare = int_compare ∧
      (∀ k (d : bst Int), bst_remove.writes_target_link k t.key_compare d) :=
  C14_lazy_buckets (fun k => k) int_hash 2 int_compare (fun _ => ())
    (fun k => toString k) int_t0 int_table_two (by decide) int_hash_range
    int_compare_lawful _

/-! ## Claim C15: lookup on ordered trees -/

theorem pairwise_compare_unique {K : Type} (cmp : K → K → Int) (hlaw : LawfulCompare cmp)
    (l : List K) (hp : l.Pairwise (fun a b => cmp a b < 0)) (k x s : K) (hx : x ∈ l)
    (hs : s ∈ l) (hxk : cmp x k = 0) (hsk : cmp s k = 0) : x = s := by
  obtain ⟨pre, post, rfl⟩ := List.append_of_mem hs
  rw [List.pairwise_append, List.pairwise_cons] at hp
  obtain ⟨_, ⟨hpost, _⟩, hpre⟩ := hp
  have hxs := hlaw.eq_of_eq_eq hxk hsk
  simp only [List.mem_append, List.mem_cons] at hx
  rcases hx with hx | rfl | hx
  · have := hpre x hx s (List.mem_cons_self _ _)
    omega
  · rfl
  · have := hpost x hx
    have := hlaw.eq_symm hxs
    omega

theorem int_tree_ordered : ordered int_compare int_tree := by
  simp [int_tree, leaf, ordered, inorder, int_compare]

/-- C15 (lookup is correct on ordered trees).  For every tree satisfying the
ordering invariant under a lawful comparator and every key `k`: if the tree
holds a key comparing equal to `k`, `bst_lookup` returns that stored key `s`
(a key of the tree with `compare(s, k) = 0`, the only such key, not the query);
if no stored key compares equal to `k`, it returns `NULL`.  `bst_lookup` only
returns a key: it has no effect on the tree. -/
theorem C15_lookup_correct {K : Type} (cmp : K → K → Int) (hlaw : LawfulCompare cmp)
    (d : bst K) (hord : ordered cmp d.root) (k : K) :
    ((∃ x ∈ inorder d.root, cmp x k = 0) →
        ∃ s, bst_lookup k cmp d = some s ∧ s ∈ inorder d.root ∧ cmp s k = 0 ∧
          ∀ x ∈ inorder d.root, cmp x k = 0 → x = s) ∧
      ((∀ x ∈ inorder d.root, cmp x k ≠ 0) → bst_lookup k cmp d = none) := by
  constructor
  · rintro ⟨x, hx, hxk⟩
    obtain ⟨s, hl⟩ := lookup_of_mem k cmp hlaw d.root hord x hx hxk
    obtain ⟨hs, hsk⟩ := lookup_some k cmp d.root s hl
    refine ⟨s, hl, hs, hsk, ?_⟩
    intro y hy hyk
    exact pairwise_compare_unique cmp hlaw _ ((ordered_iff_pairwise cmp hlaw d.root).1 hord)
      k y s hy hs hyk hsk
  · exact lookup_eq_none_of_forall k cmp d.root

/-- Witness of C15 on integer keys: looking up 13 and 12 in `int_tree`. -/
theorem C15_lookup_correct_witness :
    (((∃ x ∈ inorder int_tree, int_compare x 13 = 0) →
        ∃ s, bst_lookup 13 int_compare ⟨int_tree⟩ = some s ∧ s ∈ inorder int_tree ∧
          int_compare s 13 = 0 ∧ ∀ x ∈ inorder int_tree, int_compare x 13 = 0 → x = s) ∧
      ((∀ x ∈ inorder int_tree, int_compare x 13 ≠ 0) →
        bst_lookup 13 int_compare ⟨int_tree⟩ = none)) ∧
    bst_lookup 13 int_compare ⟨int_tree⟩ = some 13 ∧
    bst_lookup 12 int_compare ⟨int_tree⟩ = none :=
  ⟨C15_lookup_correct int_compare int_compare_lawful ⟨int_tree⟩ int_tree_ordered 13,
    by decide, by decide⟩

/-! ## Subtrees in their context -/

theorem rebuild_cons_left {K : Type} (k : K) (lv : Option Int) (l r : bstnode K)
    (up : List (Frame K)) (x : bstnode K) :
    rebuild (⟨Link.left, k, lv, l, r⟩ :: up) x = rebuild up (bstnode.mk k lv x r) := rfl

theorem rebuild_cons_right {K : Type} (k : K) (lv : Option Int) (l r : bstnode K)
    (up : List (Frame K)) (x : bstnode K) :
    rebuild (⟨Link.right, k, lv, l, r⟩ :: up) x = rebuild up (bstnode.mk k lv l x) := rfl

theorem rebuild_append {K : Type} (p q : List (Frame K)) (x : bstnode K) :
    rebuild (p ++ q) x = rebuild q (rebuild p x) := by
  induction p generalizing x with
  | nil => rfl
  | cons f p ih =>
      rcases f with ⟨link, k, lv, l, r⟩
      cases link
      · exact ih _
      · exact ih _

theorem ordered_of_rebuild {K : Type} (cmp : K → K → Int) (path : List (Frame K)) :
    ∀ x : bstnode K, ordered cmp (rebuild path x) → ordered cmp x := by
  induction path with
  | nil => intro x h; exact h
  | cons f up ih =>
      intro x h
      rcases f with ⟨link, k, lv, l, r⟩
      cases link
      · exact (ih _ h).2.2.1
      · exact (ih _ h).2.2.2

theorem search_path_of_ordered {K : Type} (cmp : K → K → Int) (hlaw : LawfulCompare cmp)
    (key : K) (path : List (Frame K)) :
    ∀ x : bstnode K, ordered cmp (rebuild path x) →
      (∃ e ∈ inorder x, cmp e key = 0) → on_search_path cmp key path := by
  induction path with
  | nil => intro x _ _ f hf; cases hf
  | cons f up ih =>
      intro x hord hx
      obtain ⟨e, he, hek⟩ := hx
      rcases f with ⟨link, k, lv, l, r⟩
      have hke := hlaw.eq_symm hek
      cases link
      · have hF := ordered_of_rebuild cmp up _ hord
        have hup := ih _ hord ⟨e, by simp [inorder, he], hek⟩
        have h1 : cmp e k < 0 := hF.1 e he
        have h2 : cmp key k < 0 := hlaw.lt_of_le_of_lt (Int.le_of_eq hke) h1
        intro g hg
        rcases List.mem_cons.1 hg with rfl | hg
        · refine ⟨?_, by simp [h2]⟩
          show cmp k key ≠ 0
          intro h0
          have := hlaw.eq_symm h0
          omega
        · exact hup g hg
      · have hF := ordered_of_rebuild cmp up _ hord
        have hup := ih _ hord ⟨e, by simp [inorder, he], hek⟩
        have h1 : 0 < cmp e k := hF.2.1 e he
        have h2 : cmp k e < 0 := (hlaw.swap k e).2 h1
        have h3 : cmp k key < 0 := hlaw.lt_of_lt_of_le h2 (Int.le_of_eq hek)
        have h4 : 0 < cmp key k := (hlaw.swap k key).1 h3
        intro g hg
        rcases List.mem_cons.1 hg with rfl | hg
        · refine ⟨?_, ?_⟩
          · show cmp k key ≠ 0
            omega
          · show Link.right = Link.left ↔ cmp key k < 0
            simp only [false_iff, reduceCtorEq]
            omega
        · exact hup g hg

theorem remove_desc_rebuild {K : Type} (cmp : K → K → Int) (key : K)
    (path : List (Frame K)) (hp : on_search_path cmp key path) :
    ∀ x : bstnode K,
      remove_desc key cmp (rebuild path x) = rebuild path (remove_desc key cmp x) := by
  induction path with
  | nil => intro x; rfl
  | cons f up ih =>
      intro x
      have hf := hp f (List.mem_cons_self _ _)
      have hup := ih (fun g hg => hp g (List.mem_cons_of_mem _ hg))
      rcases f with ⟨link, k, lv, l, r⟩
      cases link
      · have h1 : cmp key k < 0 := hf.2.1 rfl
        rw [rebuild_cons_left, hup, rebuild_cons_left]
        simp [remove_desc, hf.1, h1]
      · have h1 : ¬ cmp key k < 0 := fun h => by
          have := hf.2.2 h
          cases this
        rw [rebuild_cons_right, hup, rebuild_cons_right]
        simp [remove_desc, hf.1, h1]

theorem insert_desc_rebuild {K : Type} (cmp : K → K → Int) (clone : K → K) (key : K)
    (path : List (Frame K)) (hp : on_search_path cmp key path) :
    ∀ x : bstnode K,
      insert_desc key cmp clone (rebuild path x) =
        rebuild path (insert_desc key cmp clone x) := by
  induction path with
  | nil => intro x; rfl
  | cons f up ih =>
      intro x
      have hf := hp f (List.mem_cons_self _ _)
      have hup := ih (fun g hg => hp g (List.mem_cons_of_mem _ hg))
      rcases f with ⟨link, k, lv, l, r⟩
      cases link
      · have h1 : cmp key k < 0 := hf.2.1 rfl
        rw [rebuild_cons_left, hup, rebuild_cons_left]
        simp [insert_desc, hf.1, h1]
      · have h1 : ¬ cmp key k < 0 := fun h => by
          have := hf.2.2 h
          cases this
        rw [rebuild_cons_right, hup, rebuild_cons_right]
        simp [insert_desc, hf.1, h1]

theorem lookup_rebuild {K : Type} (cmp : K → K → Int) (key : K)
    (path : List (Frame K)) (hp : on_search_path cmp key path) :
    ∀ x : bstnode K,
      bst_lookup.loop key cmp (rebuild path x) = bst_lookup.loop key cmp x := by
  induction path with
  | nil => intro x; rfl
  | cons f up ih =>
      intro x
      have hf := hp f (List.mem_cons_self _ _)
      have hup := ih (fun g hg => hp g (List.mem_cons_of_mem _ hg))
      rcases f with ⟨link, k, lv, l, r⟩
      cases link
      · have h1 : cmp key k < 0 := hf.2.1 rfl
        rw [rebuild_cons_left, hup]
        simp [bst_lookup.loop, hf.1, h1]
      · have h1 : ¬ cmp key k < 0 := fun h => by
          have := hf.2.2 h
          cases this
        rw [rebuild_cons_right, hup]
        simp [bst_lookup.loop, hf.1, h1]

theorem walk_fst_indep {K : Type} (cmp : K → K → Int) (key : K) (t : bstnode K) :
    ∀ p q : List (Frame K), (walk key cmp t p).1 = (walk key cmp t q).1 := by
  induction t with
  | NULL => intro p q; rfl
  | mk k lv l r ihl ihr =>
      intro p q
      by_cases h0 : cmp k key = 0
      · simp [walk, h0]
      · by_cases h1 : cmp key k < 0
        · simpa [walk, h0, h1] using ihl _ _
        · simpa [walk, h0, h1] using ihr _ _

theorem walk_rebuild_fst {K : Type} (cmp : K → K → Int) (key : K)
    (path : List (Frame K)) (hp : on_search_path cmp key path) :
    ∀ (x : bstnode K) (acc : List (Frame K)),
      (walk key cmp (rebuild path x) acc).1 = (walk key cmp x []).1 := by
  induction path with
  | nil => intro x acc; exact walk_fst_indep cmp key x _ _
  | cons f up ih =>
      intro x acc
      have hf := hp f (List.mem_cons_self _ _)
      have hup := ih (fun g hg => hp g (List.mem_cons_of_mem _ hg))
      rcases f with ⟨link, k, lv, l, r⟩
      cases link
      · have h1 : cmp key k < 0 := hf.2.1 rfl
        rw [rebuild_cons_left, hup]
        simp only [walk, hf.1, h1, ne_eq, not_false_eq_true, if_true]
        exact walk_fst_indep cmp key x _ _
      · have h1 : ¬ cmp key k < 0 := fun h => by
          have := hf.2.2 h
          cases this
        rw [rebuild_cons_right, hup]
        simp only [walk, hf.1, h1, ne_eq, not_false_eq_true, if_true, if_false]
        exact walk_fst_indep cmp key x _ _

/-! ## Claim C16: the shape of the successor splice -/

theorem leftmost_min {K : Type} (l : bstnode K) :
    ∀ (k : K) (lv : Option Int) (r : bstnode K) (spine : List (Frame K)),
      (∀ f ∈ spine, f.link = Link.left) →
      min_node (bstnode.mk k lv l r) =
          some ((bst_remove.leftmost k lv l r spine).1.1,
            (bst_remove.leftmost k lv l r spine).1.2.1) ∧
        rebuild (bst_remove.leftmost k lv l r spine).2
            (bst_remove.leftmost k lv l r spine).1.2.2 =
          rebuild spine (delete_min (bstnode.mk k lv l r)) ∧
        ∀ f ∈ (bst_remove.leftmost k lv l r spine).2, f.link = Link.left := by
  induction l with
  | NULL =>
      intro k lv r spine hs
      exact ⟨rfl, rfl, hs⟩
  | mk lk llv ll lr ihl _ =>
      intro k lv r spine hs
      have h := ihl lk llv lr (⟨Link.left, k, lv, bstnode.mk lk llv ll lr, r⟩ :: spine) (by
        intro f hf
        rcases List.mem_cons.1 hf with rfl | hf
        · rfl
        · exact hs f hf)
      simp only [bst_remove.leftmost, min_node, delete_min]
      exact ⟨h.1, by rw [h.2.1]; rfl, h.2.2⟩

theorem replacement_two {K : Type} (tl tr : bstnode K) (hl : tl ≠ bstnode.NULL)
    (hr : tr ≠ bstnode.NULL) :
    ∃ sk slv, min_node tr = some (sk, slv) ∧
      bst_remove.replacement tl tr = bstnode.mk sk slv tl (delete_min tr) := by
  cases tl with
  | NULL => exact absurd rfl hl
  | mk lk llv ll lr =>
      cases tr with
      | NULL => exact absurd rfl hr
      | mk rk rlv rl rr =>
          obtain ⟨h1, h2, h3⟩ := leftmost_min rl rk rlv rr [] (by simp)
          simp only [bst_remove.replacement]
          generalize bst_remove.leftmost rk rlv rl rr [] = res at h1 h2 h3
          rcases res with ⟨⟨sk, slv, sr⟩, spine⟩
          refine ⟨sk, slv, h1, ?_⟩
          simp only [rebuild] at h2
          cases spine with
          | nil =>
              simp only [rebuild] at h2
              simp only [h2]
          | cons rp up =>
              have hrp := h3 rp (List.mem_cons_self _ _)
              rcases rp with ⟨link, pk, plv, pl, pr⟩
              cases hrp
              simp only [rebuild] at h2
              simp only [h2]

theorem min_node_inorder {K : Type} (t : bstnode K) :
    ∀ (sk : K) (slv : Option Int), min_node t = some (sk, slv) →
      inorder t = sk :: inorder (delete_min t) := by
  induction t with
  | NULL => intro sk slv h; cases h
  | mk k lv l r ihl _ =>
      intro sk slv h
      cases l with
      | NULL =>
          simp only [min_node, Option.some.injEq, Prod.mk.injEq] at h
          obtain ⟨rfl, _⟩ := h
          simp [inorder, delete_min]
      | mk lk llv ll lr =>
          simp only [min_node] at h
          have := ihl sk slv h
          simp only [delete_min]
          rw [inorder, this]
          simp [inorder]

/-- C16 (shape of the successor splice).  Take an ordered tree (lawful
comparator) and a node `T`, anywhere in it, whose key compares equal to `key`
and whose two children `tl` and `tr` are present; `path` holds the ancestors of
`T`.  Then `bst_remove` destroys the key of `T` and puts in the position of `T`
the node `S` holding the minimum key of `tr` (the in-order successor), with its
own key and `level`, with `S.left = tl` and `S.right = tr` with `S` taken out
and the original right subtree of `S` put in the old place of `S`.  When the
right child of `T` has no left child, `S` is that right child and `S.right` is
its own right subtree, untouched.  The ancestors of `T` and everything hanging
off them are unchanged: the same `path` surrounds the new subtree, so only the
link that pointed to `T` (or the root) has changed. -/
theorem C16_successor_splice {K : Type} (cmp : K → K → Int) (hlaw : LawfulCompare cmp)
    (key : K) (path : List (Frame K)) (tk : K) (tlv : Option Int) (tl tr : bstnode K)
    (hl : tl ≠ bstnode.NULL) (hr : tr ≠ bstnode.NULL) (hkey : cmp tk key = 0)
    (hord : ordered cmp (rebuild path (bstnode.mk tk tlv tl tr))) :
    ∃ sk slv, min_node tr = some (sk, slv) ∧
      (bst_remove key cmp ⟨rebuild path (bstnode.mk tk tlv tl tr)⟩).1.root =
        rebuild path (bstnode.mk sk slv tl (delete_min tr)) ∧
      (bst_remove key cmp ⟨rebuild path (bstnode.mk tk tlv tl tr)⟩).2 =
        [Call.key_destroy tk] ∧
      inorder tr = sk :: inorder (delete_min tr) ∧
      (∀ x ∈ inorder (delete_min tr), cmp sk x < 0) ∧
      (∀ rk rlv rr, tr = bstnode.mk rk rlv bstnode.NULL rr →
        sk = rk ∧ slv = rlv ∧ delete_min tr = rr) := by
  obtain ⟨sk, slv, hmin, hrep⟩ := replacement_two tl tr hl hr
  have hpath := search_path_of_ordered cmp hlaw key path _ hord
    ⟨tk, by simp [inorder], hkey⟩
  have hin := min_node_inorder tr sk slv hmin
  refine ⟨sk, slv, hmin, ?_, ?_, hin, ?_, ?_⟩
  · rw [bst_remove_root key cmp (fun a b => hlaw.eq_symm)]
    show remove_desc key cmp (rebuild path _) = _
    rw [remove_desc_rebuild cmp key path hpath]
    simp [remove_desc, hkey, hrep]
  · rw [bst_remove_calls]
    simp only [bst_lookup]
    rw [lookup_rebuild cmp key path hpath]
    simp [bst_lookup.loop, hkey]
  · have hT := ordered_of_rebuild cmp path _ hord
    have hp := (ordered_iff_pairwise cmp hlaw tr).1 hT.2.2.2
    rw [hin, List.pairwise_cons] at hp
    exact hp.1
  · intro rk rlv rr htr
    subst htr
    simp only [min_node, Option.some.injEq, Prod.mk.injEq] at hmin
    exact ⟨hmin.1.symm, hmin.2.symm, rfl⟩

theorem int_tree_context :
    rebuild int_path13 (bstnode.mk 13 none int_sub9 (leaf 15)) = int_tree := rfl

/-- Witness of C16 on integer keys: 13 removed from `int_tree`, two links below
the root; its right child 15 has no left child.  Also 5 removed from `int_tree`:
its successor 9 lies three links down the right subtree. -/
theorem C16_successor_splice_witness :
    (∃ sk slv, min_node (leaf (15 : Int)) = some (sk, slv) ∧
      (bst_remove 13 int_compare
          ⟨rebuild int_path13 (bstnode.mk 13 none int_sub9 (leaf 15))⟩).1.root =
        rebuild int_path13 (bstnode.mk sk slv int_sub9 (delete_min (leaf 15))) ∧
      (bst_remove 13 int_compare
          ⟨rebuild int_path13 (bstnode.mk 13 none int_sub9 (leaf 15))⟩).2 =
        [Call.key_destroy 13] ∧
      inorder (leaf (15 : Int)) = sk :: inorder (delete_min (leaf (15 : Int))) ∧
      (∀ x ∈ inorder (delete_min (leaf (15 : Int))), int_compare sk x < 0) ∧
      (∀ rk rlv rr, leaf (15 : Int) = bstnode.mk rk rlv bstnode.NULL rr →
        sk = rk ∧ slv = rlv ∧ delete_min (leaf (15 : Int)) = rr)) ∧
    (bst_remove 13 int_compare ⟨int_tree⟩).1.root =
      bstnode.mk 5 none (leaf 1)
        (bstnode.mk 17 none (bstnode.mk 15 none int_sub9 bstnode.NULL) bstnode.NULL) ∧
    (bst_remove 5 int_compare ⟨int_tree⟩).1.root =
      bstnode.mk 9 none (leaf 1)
        (bstnode.mk 17 none (bstnode.mk 13 none (leaf 11) (leaf 15)) bstnode.NULL) :=
  ⟨C16_successor_splice int_compare int_compare_lawful 13 int_path13 13 none int_sub9
      (leaf 15) (by simp [int_sub9]) (by simp [leaf]) (by simp [int_compare])
      (int_tree_context ▸ int_tree_ordered),
    by decide, by decide⟩

/-! ## Claim C17: `bst_insert` is the textbook insertion -/

theorem insert_desc_textbook {K : Type} (k : K) (cmp : K → K → Int) (clone : K → K)
    (t : bstnode K) (hnew : ∀ x ∈ inorder t, cmp x k ≠ 0) :
    insert_desc k cmp clone t = textbook_insert k cmp clone t := by
  induction t with
  | NULL => rfl
  | mk key lv l r ihl ihr =>
      have h0 : cmp key k ≠ 0 := hnew key (by simp [inorder])
      have hl := ihl (fun x hx => hnew x (by simp [inorder, hx]))
      have hr := ihr (fun x hx => hnew x (by simp [inorder, hx]))
      by_cases h1 : cmp k key < 0
      · simp [insert_desc, textbook_insert, h0, h1, hl]
      · simp [insert_desc, textbook_insert, h0, h1, hr]

theorem textbook_insert_attach {K : Type} (k : K) (cmp : K → K → Int) (clone : K → K)
    (t : bstnode K) :
    ∃ path, t = rebuild path bstnode.NULL ∧
      textbook_insert k cmp clone t = rebuild path (leaf (clone k)) := by
  induction t with
  | NULL => exact ⟨[], rfl, rfl⟩
  | mk key lv l r ihl ihr =>
      by_cases h1 : cmp k key < 0
      · obtain ⟨p, e1, e2⟩ := ihl
        refine ⟨p ++ [⟨Link.left, key, lv, l, r⟩], ?_, ?_⟩
        · rw [rebuild_append, ← e1]
          rfl
        · rw [rebuild_append, ← e2]
          simp [textbook_insert, h1, rebuild]
      · obtain ⟨p, e1, e2⟩ := ihr
        refine ⟨p ++ [⟨Link.right, key, lv, l, r⟩], ?_, ?_⟩
        · rw [rebuild_append, ← e1]
          rfl
        · rw [rebuild_append, ← e2]
          simp [textbook_insert, h1, rebuild]

theorem textbook_insert_ne_null {K : Type} (k : K) (cmp : K → K → Int) (clone : K → K)
    (t : bstnode K) : textbook_insert k cmp clone t ≠ bstnode.NULL := by
  cases t with
  | NULL => simp [textbook_insert]
  | mk key lv l r =>
      simp only [textbook_insert]
      split <;> simp

theorem textbook_insert_leaf_iff {K : Type} (k : K) (cmp : K → K → Int) (clone : K → K)
    (t : bstnode K) : textbook_insert k cmp clone t = leaf (clone k) ↔ t = bstnode.NULL := by
  constructor
  · intro h
    cases t with
    | NULL => rfl
    | mk key lv l r =>
        exfalso
        simp only [textbook_insert, leaf] at h
        split at h
        · simp only [bstnode.mk.injEq] at h
          exact textbook_insert_ne_null k cmp clone l h.2.2.1
        · simp only [bstnode.mk.injEq] at h
          exact textbook_insert_ne_null k cmp clone r h.2.2.2
  · rintro rfl
    rfl

/-- C17 (insert does not restructure).  For every tree and every key `k` not
comparing equal to any stored key, the iterative `bst_insert` produces exactly
the tree given by the textbook recursive insertion `textbook_insert`.  That
tree is the old tree with one new leaf holding `clone(k)` attached at a
position that was empty: the same ancestors `path`, with the same keys,
`level`s and other subtrees, surround `NULL` before and the leaf after, so every
existing node keeps its key, children and depth.  The new leaf is the root
exactly when the tree was empty.  No law of the comparator is needed. -/
theorem C17_insert_is_textbook {K : Type} (cmp : K → K → Int) (clone : K → K) (d : bst K)
    (k : K) (hnew : ∀ x ∈ inorder d.root, cmp x k ≠ 0) :
    (bst_insert k cmp clone d).1.root = textbook_insert k cmp clone d.root ∧
      (∃ path, d.root = rebuild path bstnode.NULL ∧
        (bst_insert k cmp clone d).1.root = rebuild path (leaf (clone k))) ∧
      ((bst_insert k cmp clone d).1.root = leaf (clone k) ↔ d.root = bstnode.NULL) := by
  have h := (bst_insert_root k cmp clone d).trans
    (insert_desc_textbook k cmp clone d.root hnew)
  rw [h]
  exact ⟨rfl, textbook_insert_attach k cmp clone d.root,
    textbook_insert_leaf_iff k cmp clone d.root⟩

/-- Witness of C17 on integer keys: 12 inserted into `int_tree` becomes the
right child of 11. -/
theorem C17_insert_is_textbook_witness :
    ((bst_insert 12 int_compare (fun k => k) ⟨int_tree⟩).1.root =
        textbook_insert 12 int_compare (fun k => k) int_tree ∧
      (∃ path, int_tree = rebuild path bstnode.NULL ∧
        (bst_insert 12 int_compare (fun k => k) ⟨int_tree⟩).1.root =
          rebuild path (leaf 12)) ∧
      ((bst_insert 12 int_compare (fun k => k) ⟨int_tree⟩).1.root = leaf 12 ↔
        int_tree = bstnode.NULL)) ∧
    (bst_insert 12 int_compare (fun k => k) ⟨int_tree⟩).1.root =
      bstnode.mk 5 none (leaf 1)
        (bstnode.mk 17 none
          (bstnode.mk 13 none
            (bstnode.mk 9 none bstnode.NULL (bstnode.mk 11 none bstnode.NULL (leaf 12)))
            (leaf 15))
          bstnode.NULL) :=
  ⟨C17_insert_is_textbook int_compare (fun k => k) ⟨int_tree⟩ 12
      (by simp [int_tree, leaf, inorder, int_compare]),
    by decide⟩

/-! ## Claim C18: blind insertion of a stored key -/

theorem ht_insert_calls_bst_insert {K : Type} {t t1 : hashtable K} {k : K} {code : Int}
    {calls : List (Call K)} (h : ht_insert t k = some (code, t1, calls)) :
    (code = HT_ALREADY_STORED ∧ calls = [] ∧ t1 = t) ∨
      (code = HT_SUCCESS ∧
        (∃ slot, table_get t.table (t.hash_func k t.hash_length) = some slot ∧
          bst_lookup.loop k t.key_compare (slot_root slot) = none) ∧
        (table_keys t1.table).Perm (t.key_clone k :: table_keys t.table)) := by
  rcases ht_insert_keys h with ⟨rfl, _, hp⟩ | ⟨rfl, rfl, rfl⟩
  · refine Or.inr ⟨rfl, ?_, hp⟩
    rw [ht_insert_eq] at h
    cases hg : table_get t.table (t.hash_func k t.hash_length) with
    | none => simp [hg] at h
    | some slot =>
        simp only [hg] at h
        cases hl : bst_lookup.loop k t.key_compare (slot_root slot) with
        | none => exact ⟨slot, rfl, hl⟩
        | some s =>
            simp only [hl, Option.some.injEq, Prod.mk.injEq] at h
            exact absurd h.1.symm success_ne_already
  · exact Or.inl ⟨rfl, rfl, rfl⟩

/-- C18 (blind `bst_insert` of a stored key loses data).  Take an ordered tree
(lawful comparator) and a node `N`, anywhere in it, whose key compares equal to
`val`; `path` holds the ancestors of `N`.  The walk of `bst_insert` stops at `N`,
and the link that points to `N` (the root pointer when `N` has no ancestor,
otherwise the child link of its parent) is overwritten with a fresh single leaf
holding `clone(val)`: the result is the same `path` around that leaf, so `N` and
all its descendants are no longer in the tree, and the in-order list is the old
one with the keys of the subtree of `N` replaced by the single key `clone(val)`.
`ht_insert` never does this: whenever it returns `HT_SUCCESS`, `bst_lookup` had
returned `NULL` on the bucket and every key stored before is still stored;
otherwise it returns `HT_ALREADY_STORED` without any call and without change. -/
theorem C18_blind_insert_loses_subtree {K : Type} (cmp : K → K → Int) (clone : K → K)
    (hlaw : LawfulCompare cmp) (val : K) (path : List (Frame K)) (nk : K)
    (nlv : Option Int) (nl nr : bstnode K) (hkey : cmp nk val = 0)
    (hord : ordered cmp (rebuild path (bstnode.mk nk nlv nl nr))) :
    (walk val cmp (rebuild path (bstnode.mk nk nlv nl nr)) []).1 = bstnode.mk nk nlv nl nr ∧
      (bst_insert val cmp clone ⟨rebuild path (bstnode.mk nk nlv nl nr)⟩).1.root =
        rebuild path (leaf (clone val)) ∧
      inorder (rebuild path (bstnode.mk nk nlv nl nr)) =
        keys_before path ++ (inorder nl ++ nk :: inorder nr) ++ keys_after path ∧
      inorder (bst_insert val cmp clone ⟨rebuild path (bstnode.mk nk nlv nl nr)⟩).1.root =
        keys_before path ++ [clone val] ++ keys_after path ∧
      (∀ (t t1 : hashtable K) (k : K) (code : Int) (calls : List (Call K)),
        ht_insert t k = some (code, t1, calls) →
        (code = HT_ALREADY_STORED ∧ calls = [] ∧ t1 = t) ∨
          (code = HT_SUCCESS ∧
            (∃ slot, table_get t.table (t.hash_func k t.hash_length) = some slot ∧
              bst_lookup.loop k t.key_compare (slot_root slot) = none) ∧
            (table_keys t1.table).Perm (t.key_clone k :: table_keys t.table))) := by
  have hpath := search_path_of_ordered cmp hlaw val path _ hord
    ⟨nk, by simp [inorder], hkey⟩
  have hroot : (bst_insert val cmp clone ⟨rebuild path (bstnode.mk nk nlv nl nr)⟩).1.root =
      rebuild path (leaf (clone val)) := by
    rw [bst_insert_root]
    show insert_desc val cmp clone (rebuild path _) = _
    rw [insert_desc_rebuild cmp clone val path hpath]
    simp [insert_desc, hkey, new_leaf, leaf]
  refine ⟨?_, hroot, ?_, ?_, fun t t1 k code calls h => ht_insert_calls_bst_insert h⟩
  · rw [walk_rebuild_fst cmp val path hpath]
    simp [walk, hkey]
  · rw [inorder_rebuild]
    rfl
  · rw [hroot, inorder_rebuild]
    rfl

/-- Witness of C18 on integer keys: 13 inserted blindly into `int_tree`, which
holds 13 two links below the root, loses 9, 11, 13 and 15. -/
theorem C18_blind_insert_loses_subtree_witness :
    ((walk 13 int_compare (rebuild int_path13 (bstnode.mk 13 none int_sub9 (leaf 15))) []).1 =
        bstnode.mk 13 none int_sub9 (leaf 15) ∧
      (bst_insert 13 int_compare (fun k => k)
          ⟨rebuild int_path13 (bstnode.mk 13 none int_sub9 (leaf 15))⟩).1.root =
        rebuild int_path13 (leaf 13) ∧
      inorder (rebuild int_path13 (bstnode.mk 13 none int_sub9 (leaf 15))) =
        keys_before int_path13 ++ (inorder int_sub9 ++ 13 :: inorder (leaf 15)) ++
          keys_after int_path13 ∧
      inorder (bst_insert 13 int_compare (fun k => k)
          ⟨rebuild int_path13 (bstnode.mk 13 none int_sub9 (leaf 15))⟩).1.root =
        keys_before int_path13 ++ [13] ++ keys_after int_path13 ∧
      (∀ (t t1 : hashtable Int) (k : Int) (code : Int) (calls : List (Call Int)),
        ht_insert t k = some (code, t1, calls) →
        (code = HT_ALREADY_STORED ∧ calls = [] ∧ t1 = t) ∨
          (code = HT_SUCCESS ∧
            (∃ slot, table_get t.table (t.hash_func k t.hash_length) = some slot ∧
              bst_lookup.loop k t.key_compare (slot_root slot) = none) ∧
            (table_keys t1.table).Perm (t.key_clone k :: table_keys t.table)))) ∧
    inorder int_tree = [1, 5, 9, 11, 13, 15, 17] ∧
    inorder (bst_insert 13 int_compare (fun k => k) ⟨int_tree⟩).1.root = [1, 5, 13, 17] :=
  ⟨C18_blind_insert_loses_subtree int_compare (fun k => k) int_compare_lawful 13 int_path13
      13 none int_sub9 (leaf 15) (by simp [int_compare])
      (int_tree_context ▸ int_tree_ordered),
    by decide, by decide⟩

/-! ## Claim C19: keys live only in their own bucket -/

theorem mem_table_keys_of_bucket {K : Type} (table : List (Option (bst K))) (i : Int)
    (d : bst K) (hd : table_get table i = some (some d)) (x : K) (hx : x ∈ inorder d.root) :
    x ∈ table_keys table := by
  obtain ⟨before, after, e1, _⟩ := table_keys_set table i (some d) none hd
  rw [e1]
  simp only [List.mem_append, bucket_keys]
  exact Or.inl (Or.inr hx)

theorem table_countP_bucket {K : Type} (p : K → Bool) (table : List (Option (bst K)))
    (i : Int) (d : bst K) (hd : table_get table i = some (some d))
    (hother : ∀ (j : Nat) (d1 : bst K), table[j]? = some (some d1) →
      ∀ x ∈ inorder d1.root, p x = true → j = i.toNat) :
    (table_keys table).countP p = (inorder d.root).countP p := by
  have hb := table_get_some hd
  have hs : table[i.toNat]? = some (some d) := by
    unfold table_get at hd
    simpa [hb.1] using hd
  have hslot : table[i.toNat] = some d := by
    rw [List.getElem?_eq_getElem hb.2] at hs
    exact Option.some.inj hs
  have hsplit : table_keys table = table_keys (table.take i.toNat) ++
      (inorder d.root ++ table_keys (table.drop (i.toNat + 1))) := by
    conv_lhs => rw [← List.take_append_drop i.toNat table,
      List.drop_eq_getElem_cons hb.2]
    rw [table_keys_append, table_keys_cons, hslot]
    rfl
  have h1 : (table_keys (table.take i.toNat)).countP p = 0 := by
    rw [List.countP_eq_zero]
    intro x hx hpx
    obtain ⟨j, d1, hj, hxd⟩ := mem_table_keys _ x hx
    rw [List.getElem?_take] at hj
    split at hj
    · rename_i hlt
      have := hother j d1 hj x hxd hpx
      omega
    · cases hj
  have h2 : (table_keys (table.drop (i.toNat + 1))).countP p = 0 := by
    rw [List.countP_eq_zero]
    intro x hx hpx
    obtain ⟨j, d1, hj, hxd⟩ := mem_table_keys _ x hx
    rw [List.getElem?_drop] at hj
    have := hother _ d1 hj x hxd hpx
    omega
  rw [hsplit, List.countP_append, List.countP_append, h1, h2]
  omega

theorem countP_compare_le_one {K : Type} (cmp : K → K → Int) (hlaw : LawfulCompare cmp)
    (l : List K) (hp : l.Pairwise (fun a b => cmp a b < 0)) (k : K) :
    l.countP (fun x => cmp x k = 0) ≤ 1 := by
  by_cases h : ∃ s ∈ l, cmp s k = 0
  · obtain ⟨s, hs, hsk⟩ := h
    rw [countP_compare_eq_one cmp hlaw l hp k s hs hsk]
  · have : l.countP (fun x => cmp x k = 0) = 0 := by
      rw [List.countP_eq_zero]
      intro x hx hxk
      exact h ⟨x, hx, by simpa using hxk⟩
    omega

theorem bucket_keys_root {K : Type} (slot : Option (bst K)) :
    bucket_keys slot = inorder (slot_root slot) := by
  cases slot <;> rfl

theorem stored_iff_bucket {K : Type} (hash : K → Int → Int) (w : Int) (cmp : K → K → Int)
    (table : List (Option (bst K))) (k : K) (slot : Option (bst K))
    (hslot : table_get table (hash k w) = some slot)
    (hown : ∀ i d, table_get table i = some (some d) → ∀ x ∈ inorder d.root, hash x w = i) :
    (∃ x ∈ table_keys table, cmp x k = 0 ∧ hash x w = hash k w) ↔
      ∃ x ∈ bucket_keys slot, cmp x k = 0 := by
  constructor
  · rintro ⟨x, hx, hxk, hxh⟩
    obtain ⟨j, d1, hj, hxd⟩ := mem_table_keys table x hx
    have hg : table_get table (j : Int) = some (some d1) := by rw [table_get_nat]; exact hj
    have h1 := hown (j : Int) d1 hg x hxd
    rw [← hxh, h1, hg] at hslot
    simp only [Option.some.injEq] at hslot
    subst hslot
    exact ⟨x, hxd, hxk⟩
  · rintro ⟨x, hx, hxk⟩
    cases slot with
    | none => simp [bucket_keys] at hx
    | some d =>
        exact ⟨x, mem_table_keys_of_bucket table _ d hslot x hx, hxk, hown _ d hslot x hx⟩

theorem insert_found_iff {K : Type} (t : hashtable K) (hlaw : LawfulCompare t.key_compare)
    (k : K) (slot : Option (bst K))
    (hslot : table_get t.table (t.hash_func k t.hash_length) = some slot)
    (hord : ordered t.key_compare (slot_root slot)) :
    ht_insert t k = some (HT_ALREADY_STORED, t, []) ↔
      ∃ x ∈ bucket_keys slot, t.key_compare x k = 0 := by
  rw [ht_insert_eq, hslot, bucket_keys_root]
  simp only []
  cases hl : bst_lookup.loop k t.key_compare (slot_root slot) with
  | none =>
      constructor
      · intro h
        simp only [Option.some.injEq, Prod.mk.injEq] at h
        exact absurd h.1 success_ne_already
      · rintro ⟨x, hx, hxk⟩
        exact absurd hxk (lookup_none k _ hlaw _ hord hl x hx)
  | some s =>
      constructor
      · intro _
        exact ⟨s, (lookup_some k _ _ s hl).1, (lookup_some k _ _ s hl).2⟩
      · intro _
        rfl

theorem remove_found_iff {K : Type} (t : hashtable K) (hlaw : LawfulCompare t.key_compare)
    (k : K) (slot : Option (bst K))
    (hslot : table_get t.table (t.hash_func k t.hash_length) = some slot)
    (hord : ordered t.key_compare (slot_root slot)) :
    (∃ t1 calls, ht_remove t k = some (HT_SUCCESS, t1, calls)) ↔
      ∃ x ∈ bucket_keys slot, t.key_compare x k = 0 := by
  rw [ht_remove_eq t k (fun a b => hlaw.eq_symm), hslot, bucket_keys_root]
  simp only []
  cases hl : bst_lookup.loop k t.key_compare (slot_root slot) with
  | none =>
      constructor
      · rintro ⟨t1, calls, h⟩
        simp only [Option.some.injEq, Prod.mk.injEq] at h
        exact absurd h.1.symm (by decide)
      · rintro ⟨x, hx, hxk⟩
        exact absurd hxk (lookup_none k _ hlaw _ hord hl x hx)
  | some s =>
      constructor
      · intro _
        exact ⟨s, (lookup_some k _ _ s hl).1, (lookup_some k _ _ s hl).2⟩
      · intro _
        exact ⟨_, _, rfl⟩

/-- C19 (keys live only in their own bucket).  In every table reachable from
`ht_create` (lawful comparator, clone comparing equal to its original, hash in
range with `hash_bit_width ≤ 30`, and `hash(clone(k), w) = hash(k, w)`), every key
stored in the tree of bucket `i` has `hash(key, hash_length) = i`.  Hence, for
every key `k`, at most one stored key of the whole table compares equal to `k`
and has the hash of `k`; `ht_insert` finds `k` (returns `HT_ALREADY_STORED`), and
`ht_remove` finds `k` (returns `HT_SUCCESS`), if and only if such a key is stored
anywhere in the table.  When compare-equal keys always have equal hashes, `k` is
found if and only if a key comparing equal to it is stored anywhere. -/
theorem C19_keys_in_own_bucket {K : Type} (clone : K → K) (hash : K → Int → Int) (w : Int)
    (cmp : K → K → Int) (destroy : K → Unit) (print : K → String) (t0 t : hashtable K)
    (hcreate : ht_create clone hash w cmp destroy print = some t0)
    (hreach : Reachable t0 t) (hlaw : LawfulCompare cmp)
    (hclone : ∀ k, cmp (clone k) k = 0) (hhash : ∀ k, hash (clone k) w = hash k w)
    (hw : w ≤ 30) (hrange : ∀ k, 0 ≤ hash k w ∧ hash k w < 2 ^ w.toNat) :
    (∀ i d, table_get t.table i = some (some d) →
        ∀ x ∈ inorder d.root, t.hash_func x t.hash_length = i) ∧
      (∀ k, (table_keys t.table).countP (fun x => cmp x k = 0 ∧ hash x w = hash k w) ≤ 1) ∧
      (∀ k,
        (ht_insert t k = some (HT_ALREADY_STORED, t, []) ↔
          ∃ x ∈ table_keys t.table, cmp x k = 0 ∧ hash x w = hash k w) ∧
        ((∃ t1 calls, ht_remove t k = some (HT_SUCCESS, t1, calls)) ↔
          ∃ x ∈ table_keys t.table, cmp x k = 0 ∧ hash x w = hash k w) ∧
        (∃ r, ht_insert t k = some r) ∧ (∃ r, ht_remove t k = some r)) ∧
      ((∀ a b, cmp a b = 0 → hash a w = hash b w) →
        ∀ k,
          (ht_insert t k = some (HT_ALREADY_STORED, t, []) ↔
            ∃ x ∈ table_keys t.table, cmp x k = 0) ∧
          ((∃ t1 calls, ht_remove t k = some (HT_SUCCESS, t1, calls)) ↔
            ∃ x ∈ table_keys t.table, cmp x k = 0)) := by
  obtain ⟨e1, e2, _, e4, hinv0⟩ := created_reachable hcreate hreach
  have hinv := hinv0 hlaw hclone
  have hown := reachable_own_bucket hcreate hreach hlaw hhash
  obtain ⟨l1, l2, _⟩ := created_reachable_length hcreate hreach hw
  have hpow : ((2 : Int) ^ w.toNat) = (((2 : Nat) ^ w.toNat : Nat) : Int) := by
    push_cast; rfl
  have hget : ∀ k, ∃ slot, table_get t.table (hash k w) = some slot := by
    intro k
    obtain ⟨r0, r1⟩ := hrange k
    have hlt : (hash k w).toNat < t.table.length := by
      rw [hpow] at r1
      rw [l2]
      omega
    exact ⟨_, by simp only [table_get, r0, if_true]; exact List.getElem?_eq_getElem hlt⟩
  have hslotord : ∀ k slot, table_get t.table (hash k w) = some slot →
      ordered cmp (slot_root slot) := by
    intro k slot hs
    cases slot with
    | none => trivial
    | some d => exact hinv _ d hs
  have hfound : ∀ k,
      (ht_insert t k = some (HT_ALREADY_STORED, t, []) ↔
        ∃ x ∈ table_keys t.table, cmp x k = 0 ∧ hash x w = hash k w) ∧
      ((∃ t1 calls, ht_remove t k = some (HT_SUCCESS, t1, calls)) ↔
        ∃ x ∈ table_keys t.table, cmp x k = 0 ∧ hash x w = hash k w) := by
    intro k
    obtain ⟨slot, hs⟩ := hget k
    have hs2 : table_get t.table (t.hash_func k t.hash_length) = some slot := by
      rw [e2, e1]; exact hs
    have h1 := insert_found_iff t (e4 ▸ hlaw) k slot hs2 (by rw [e4]; exact hslotord k slot hs)
    have h2 := remove_found_iff t (e4 ▸ hlaw) k slot hs2 (by rw [e4]; exact hslotord k slot hs)
    rw [e4] at h1 h2
    rw [h1, h2, stored_iff_bucket hash w cmp t.table k slot hs hown]
    exact ⟨Iff.rfl, Iff.rfl⟩
  refine ⟨?_, ?_, ?_, ?_⟩
  · intro i d hd x hx
    rw [e2, e1]
    exact hown i d hd x hx
  · intro k
    obtain ⟨slot, hs⟩ := hget k
    cases slot with
    | none =>
        have : (table_keys t.table).countP
            (fun x => cmp x k = 0 ∧ hash x w = hash k w) = 0 := by
          rw [List.countP_eq_zero]
          intro x hx hpx
          simp only [decide_eq_true_eq] at hpx
          obtain ⟨y, hy, _⟩ := (stored_iff_bucket hash w cmp t.table k none hs hown).1
            ⟨x, hx, hpx.1, hpx.2⟩
          simp [bucket_keys] at hy
        omega
    | some d =>
        rw [table_countP_bucket _ t.table (hash k w) d hs (by
          intro j d1 hj x hx hpx
          simp only [decide_eq_true_eq] at hpx
          have h1 := hown (j : Int) d1 (by rw [table_get_nat]; exact hj) x hx
          have h2 := hpx.2
          omega)]
        refine Nat.le_trans (List.countP_mono_left ?_) (countP_compare_le_one cmp hlaw _
          ((ordered_iff_pairwise cmp hlaw d.root).1 (hinv _ d hs)) k)
        intro x _ hpx
        simp only [decide_eq_true_eq] at hpx ⊢
        exact hpx.1
  · intro k
    obtain ⟨slot, hs⟩ := hget k
    have hs2 : table_get t.table (t.hash_func k t.hash_length) = some slot := by
      rw [e2, e1]; exact hs
    exact ⟨(hfound k).1, (hfound k).2, ht_insert_defined t k slot hs2,
      ht_remove_defined t k slot hs2⟩
  · intro hcompat k
    have hiff : (∃ x ∈ table_keys t.table, cmp x k = 0 ∧ hash x w = hash k w) ↔
        ∃ x ∈ table_keys t.table, cmp x k = 0 := by
      constructor
      · rintro ⟨x, hx, hxk, _⟩
        exact ⟨x, hx, hxk⟩
      · rintro ⟨x, hx, hxk⟩
        exact ⟨x, hx, hxk, hcompat x k hxk⟩
    rw [← hiff]
    exact hfound k

/-- Witness of C19 on integer keys: the table holding 5, 1, 9. -/
theorem C19_keys_in_own_bucket_witness :
    (∀ i d, table_get int_t3.table i = some (some d) →
        ∀ x ∈ inorder d.root, int_t3.hash_func x int_t3.hash_length = i) ∧
      (∀ k, (table_keys int_t3.table).countP
        (fun x => int_compare x k = 0 ∧ int_hash x 2 = int_hash k 2) ≤ 1) ∧
      (∀ k,
        (ht_insert int_t3 k = some (HT_ALREADY_STORED, int_t3, []) ↔
          ∃ x ∈ table_keys int_t3.table, int_compare x k = 0 ∧ int_hash x 2 = int_hash k 2) ∧
        ((∃ t1 calls, ht_remove int_t3 k = some (HT_SUCCESS, t1, calls)) ↔
          ∃ x ∈ table_keys int_t3.table, int_compare x k = 0 ∧ int_hash x 2 = int_hash k 2) ∧
        (∃ r, ht_insert int_t3 k = some r) ∧ (∃ r, ht_remove int_t3 k = some r)) ∧
      ((∀ a b, int_compare a b = 0 → int_hash a 2 = int_hash b 2) →
        ∀ k,
          (ht_insert int_t3 k = some (HT_ALREADY_STORED, int_t3, []) ↔
            ∃ x ∈ table_keys int_t3.table, int_compare x k = 0) ∧
          ((∃ t1 calls, ht_remove int_t3 k = some (HT_SUCCESS, t1, calls)) ↔
            ∃ x ∈ table_keys int_t3.table, int_compare x k = 0)) :=
  C19_keys_in_own_bucket (fun k => k) int_hash 2 int_compare (fun _ => ())
    (fun k => toString k) int_t0 int_t3 int_table_two int_t3_reachable int_compare_lawful
    (fun k => by simp [int_compare]) (fun _ => rfl) (by decide) int_hash_range

/-! ## Claim C20: insert followed by remove -/

theorem remove_insert_desc {K : Type} (k : K) (cmp : K → K → Int) (clone : K → K)
    (hclone : cmp (clone k) k = 0) (t : bstnode K)
    (h : bst_lookup.loop k cmp t = none) :
    remove_desc k cmp (insert_desc k cmp clone t) = t := by
  induction t with
  | NULL => simp [insert_desc, new_leaf, remove_desc, hclone, bst_remove.replacement]
  | mk key lv l r ihl ihr =>
      by_cases h0 : cmp key k = 0
      · simp [bst_lookup.loop, h0] at h
      · by_cases h1 : cmp k key < 0
        · simp only [bst_lookup.loop, h0, h1, if_true, if_false] at h
          simp [insert_desc, remove_desc, h0, h1, ihl h]
        · simp only [bst_lookup.loop, h0, h1, if_false] at h
          simp [insert_desc, remove_desc, h0, h1, ihr h]

theorem table_set_self {K : Type} (table : List (Option (bst K))) (i : Int)
    (v : Option (bst K)) (h : table_get table i = some v) : table_set table i v = table := by
  unfold table_get at h
  split at h
  · unfold table_set
    apply List.ext_getElem?
    intro n
    by_cases hn : i.toNat = n
    · subst hn
      have hlt := (List.getElem?_eq_some_iff.1 h).1
      simp [hlt, h]
    · simp [List.getElem?_set_ne hn]
  · cases h

theorem table_set_set {K : Type} (table : List (Option (bst K))) (i : Int)
    (a b : Option (bst K)) : table_set (table_set table i a) i b = table_set table i b := by
  simp [table_set]

theorem bucket_line_create {K : Type} (key_print : K → String)
    (table : List (Option (bst K))) (i : Int) (h : table_get table i = some none) (j : Nat) :
    bucket_line key_print (table_set table i (some ⟨bstnode.NULL⟩)) j =
      bucket_line key_print table j := by
  have hb := table_get_some h
  by_cases hj : i.toNat = j
  · subst hj
    have hs : table[i.toNat]? = some none := by
      unfold table_get at h
      simpa [hb.1] using h
    simp only [bucket_line, table_set, List.getElem?_set_self hb.2, hs, Option.getD_some]
    rfl
  · exact bucket_line_set key_print table _ j _ hj

theorem ht_print_text {K : Type} (t : hashtable K)
    (hlen : t.ht_length.toNat ≤ t.table.length) :
    ∃ t1, ht_print t = some (t1,
      "" ++ String.join ((List.range' 0 t.ht_length.toNat).map
        (bucket_line t.key_print t.table))) := by
  obtain ⟨table1, h1, _⟩ :=
    ht_print_loop_eq t.key_print t.ht_length.toNat 0 t.table "" (by omega)
  have h0 : ((0 : Nat) : Int) = 0 := rfl
  rw [h0] at h1
  unfold ht_print
  rw [h1]
  exact ⟨_, rfl⟩

theorem hashtable_eta {K : Type} (t : hashtable K) : { t with table := t.table } = t := by
  cases t
  rfl

theorem ht_print_create {K : Type} (t : hashtable K) (i : Int)
    (h : table_get t.table i = some none) (hlen : t.ht_length.toNat ≤ t.table.length) :
    ∃ ta tb out, ht_print t = some (ta, out) ∧
      ht_print { t with table := table_set t.table i (some ⟨bstnode.NULL⟩) } =
        some (tb, out) := by
  obtain ⟨ta, ha⟩ := ht_print_text t hlen
  obtain ⟨tb, hb⟩ := ht_print_text
    { t with table := table_set t.table i (some ⟨bstnode.NULL⟩) }
    (by simp only [table_set, List.length_set]; exact hlen)
  refine ⟨ta, tb, _, ha, ?_⟩
  rw [hb]
  have hm : (List.range' 0 t.ht_length.toNat).map
        (bucket_line t.key_print (table_set t.table i (some ⟨bstnode.NULL⟩))) =
      (List.range' 0 t.ht_length.toNat).map (bucket_line t.key_print t.table) :=
    List.map_congr_left (fun j _ => bucket_line_create t.key_print t.table i h j)
  simp only [hm]

theorem ht_insert_remove_restore {K : Type} (t t1 : hashtable K) (k : K)
    (calls : List (Call K))
    (hsym : ∀ a b, t.key_compare a b = 0 → t.key_compare b a = 0)
    (hclone : t.key_compare (t.key_clone k) k = 0)
    (hins : ht_insert t k = some (HT_SUCCESS, t1, calls)) :
    ∃ slot, table_get t.table (t.hash_func k t.hash_length) = some slot ∧
      ht_remove t1 k = some (HT_SUCCESS,
        { t with table := table_set t.table (t.hash_func k t.hash_length)
                    (some ⟨slot_root slot⟩) },
        [Call.key_destroy (t.key_clone k)]) := by
  rw [ht_insert_eq] at hins
  cases hg : table_get t.table (t.hash_func k t.hash_length) with
  | none => simp [hg] at hins
  | some slot =>
      simp only [hg] at hins
      have hb := table_get_some hg
      cases hl : bst_lookup.loop k t.key_compare (slot_root slot) with
      | some s =>
          simp only [hl, Option.some.injEq, Prod.mk.injEq] at hins
          exact absurd hins.1.symm success_ne_already
      | none =>
          simp only [hl, Option.some.injEq, Prod.mk.injEq] at hins
          obtain ⟨_, rfl, _⟩ := hins
          have hfound := lookup_insert_desc k t.key_compare t.key_clone hclone _ hl
          have hback := remove_insert_desc k t.key_compare t.key_clone hclone _ hl
          refine ⟨slot, rfl, (ht_remove_eq _ k ?_).trans ?_⟩
          · exact hsym
          dsimp only
          rw [table_get_set_same _ _ _ hb.1 hb.2]
          simp only [slot_root_some]
          rw [hfound]
          simp only []
          rw [hback, table_set_set]

/-- C20 (insert followed by remove of the same new key restores the tree).
Lawful comparator, `compare(clone(k), k) = 0`.  For every tree `d` holding no key
comparing equal to `k` (ordered or not), `bst_remove` of `k` applied to the
result of `bst_insert` of `k` on `d` yields `d` itself, shape, keys and `level`s.
At table level, when `ht_insert t k` returns `HT_SUCCESS`, the following
`ht_remove` of `k` returns `HT_SUCCESS`, destroying the clone, and yields either
`t` itself or, when bucket `hash(k, w)` was absent in `t`, `t` with that bucket
present and empty; in both cases `ht_print` emits the same text before and
after (for a table whose array has its `ht_length` slots). -/
theorem C20_insert_remove_restores {K : Type} (cmp : K → K → Int) (clone : K → K)
    (hlaw : LawfulCompare cmp) (k : K) (hclone : cmp (clone k) k = 0) :
    (∀ d : bst K, (∀ x ∈ inorder d.root, cmp x k ≠ 0) →
        (bst_remove k cmp (bst_insert k cmp clone d).1).1 = d) ∧
      (∀ (t t1 : hashtable K) (calls : List (Call K)),
        t.key_compare = cmp → t.key_clone = clone →
        ht_insert t k = some (HT_SUCCESS, t1, calls) →
        ∃ t2, ht_remove t1 k = some (HT_SUCCESS, t2, [Call.key_destroy (clone k)]) ∧
          (t2 = t ∨
            (table_get t.table (t.hash_func k t.hash_length) = some none ∧
              t2 = { t with table := table_set t.table (t.hash_func k t.hash_length)
                                (some ⟨bstnode.NULL⟩) })) ∧
          (t.ht_length.toNat ≤ t.table.length →
            ∃ ta tb out, ht_print t = some (ta, out) ∧ ht_print t2 = some (tb, out))) := by
  constructor
  · intro d hnew
    have hl := lookup_eq_none_of_forall k cmp d.root hnew
    have h1 := bst_remove_root k cmp (fun a b => hlaw.eq_symm) (bst_insert k cmp clone d).1
    rw [bst_insert_root, remove_insert_desc k cmp clone hclone d.root hl] at h1
    rw [bst_eta _ _ h1]
  · intro t t1 calls hc hcl hins
    subst hc hcl
    obtain ⟨slot, hslot, hrem⟩ :=
      ht_insert_remove_restore t t1 k calls (fun a b => hlaw.eq_symm) hclone hins
    cases slot with
    | some d =>
        have hd : (some (⟨slot_root (some d)⟩ : bst K)) = some d := rfl
        rw [hd, table_set_self _ _ _ hslot, hashtable_eta] at hrem
        refine ⟨t, hrem, Or.inl rfl, ?_⟩
        intro hlen
        obtain ⟨r, hr⟩ := ht_print_defined t hlen
        exact ⟨r.1, r.1, r.2, hr, hr⟩
    | none =>
        exact ⟨_, hrem, Or.inr ⟨hslot, rfl⟩, fun hlen => ht_print_create t _ hslot hlen⟩

/-- Witness of C20 on integer keys, for the key 2: its bucket is absent in the
table holding 5, 1, 9. -/
theorem C20_insert_remove_restores_witness :
    ((∀ d : bst Int, (∀ x ∈ inorder d.root, int_compare x 2 ≠ 0) →
        (bst_remove 2 int_compare (bst_insert 2 int_compare (fun k => k) d).1).1 = d) ∧
      (∀ (t t1 : hashtable Int) (calls : List (Call Int)),
        t.key_compare = int_compare → t.key_clone = (fun k => k) →
        ht_insert t 2 = some (HT_SUCCESS, t1, calls) →
        ∃ t2, ht_remove t1 2 = some (HT_SUCCESS, t2, [Call.key_destroy 2]) ∧
          (t2 = t ∨
            (table_get t.table (t.hash_func 2 t.hash_length) = some none ∧
              t2 = { t with table := table_set t.table (t.hash_func 2 t.hash_length)
                                (some ⟨bstnode.NULL⟩) })) ∧
          (t.ht_length.toNat ≤ t.table.length →
            ∃ ta tb out, ht_print t = some (ta, out) ∧ ht_print t2 = some (tb, out)))) ∧
    (bst_remove 2 int_compare (bst_insert 2 int_compare (fun k => k) ⟨int_tree⟩).1).1 =
      ⟨int_tree⟩ :=
  ⟨C20_insert_remove_restores int_compare (fun k => k) int_compare_lawful 2
      (by simp [int_compare]),
    by decide⟩

end HT
